import Mathlib

/-!
Verification development for the radixdb/arc key-value store.

The Go sources are shallowly embedded: Go byte slices become lists of
naturals (a nil slice is distinguished from an empty one at API entry
points by an Option wrapper, since the code only ever compares slices
against nil at those points), Go maps become association lists, pointer
mutation becomes explicit state passing, and fallible functions return
an error component.  Machine integers are modelled as Nat/Int with
explicit reduction modulo 2^32 where the code relies on wraparound
(SHA-256 and CRC-32 arithmetic).

The repository holds several revisions of the same store.  The tree
engine (insert/Get/Delete) is embedded from arc.go, the persisted-node
codec from serializer.go, the slice-based node helpers and checksum
logic from node.go, and the reference-counted blob store from the blob
definitions bundled in serializer_test.go.  Node helpers of the arc
revision that are absent from the sources (newRecordNode, setValue,
addChild, removeChild, value, deleteValue on the sibling-linked node)
are modelled from the specification and are marked as such.
-/

set_option maxHeartbeats 1000000
set_option maxRecDepth 40000
set_option linter.unusedVariables false

/-- Errors of the store, mirroring the package-level error values
(ErrNilKey, ErrKeyTooLarge, ErrValueTooLarge, ErrDuplicateKey,
ErrKeyNotFound, ErrCorrupted, ErrNodeCorrupted, ErrInvalidChecksum).
The extra constructor nilPanic marks states in which the Go code would
dereference a nil pointer (no reachable state produces it), and
ioError stands for an io-layer error surfaced unchanged by a reader. -/
inductive Err : Type where
  | nilKey
  | keyTooLarge
  | valueTooLarge
  | duplicateKey
  | keyNotFound
  | corrupted
  | nodeCorrupted
  | invalidChecksum
  | ioError
  | nilPanic
  deriving DecidableEq, Repr

/-- longestCommonPrefix of arc.go / radixdb.go: the longest common
leading byte run of the two lists.  The Go function returns nil when
the first bytes differ; nil and the empty slice coincide as [] here
(the callers only ever test the result against nil or take its
length). -/
def lcp : List Nat → List Nat → List Nat
  | x :: xs, y :: ys => if x = y then x :: lcp xs ys else []
  | _, _ => []

/-- bytes.Compare: lexicographic comparison of byte slices, a prefix
ordering before any longer slice. -/
def bytesCmp : List Nat → List Nat → Ordering
  | [], [] => .eq
  | [], _ :: _ => .lt
  | _ :: _, [] => .gt
  | x :: xs, y :: ys =>
    if x < y then .lt else if y < x then .gt else bytesCmp xs ys

/-- bytes.Compare _ _ >= 0, the predicate used by the sort.Search
calls in addChild/removeChild. -/
def bytesGe (a b : List Nat) : Bool :=
  match bytesCmp a b with
  | .lt => false
  | _ => true

/-! ## SHA-256 (crypto/sha256), on byte lists, word arithmetic mod 2^32 -/

def u32 (x : Nat) : Nat := x % 4294967296

def rotr32 (n x : Nat) : Nat :=
  Nat.lor (x >>> n) (u32 (x <<< (32 - n)))

def shaCh (e f g : Nat) : Nat :=
  Nat.xor (Nat.land e f) (Nat.land (Nat.xor e 4294967295) g)

def shaMaj (a b c : Nat) : Nat :=
  Nat.xor (Nat.land a b) (Nat.xor (Nat.land a c) (Nat.land b c))

def shaBigS0 (x : Nat) : Nat :=
  Nat.xor (rotr32 2 x) (Nat.xor (rotr32 13 x) (rotr32 22 x))

def shaBigS1 (x : Nat) : Nat :=
  Nat.xor (rotr32 6 x) (Nat.xor (rotr32 11 x) (rotr32 25 x))

def shaSmallS0 (x : Nat) : Nat :=
  Nat.xor (rotr32 7 x) (Nat.xor (rotr32 18 x) (x >>> 3))

def shaSmallS1 (x : Nat) : Nat :=
  Nat.xor (rotr32 17 x) (Nat.xor (rotr32 19 x) (x >>> 10))

/-- The 64 SHA-256 round constants. -/
def shaK : List Nat :=
  [1116352408, 1899447441, 3049323471, 3921009573,
   961987163, 1508970993, 2453635748, 2870763221,
   3624381080, 310598401, 607225278, 1426881987,
   1925078388, 2162078206, 2614888103, 3248222580,
   3835390401, 4022224774, 264347078, 604807628,
   770255983, 1249150122, 1555081692, 1996064986,
   2554220882, 2821834349, 2952996808, 3210313671,
   3336571891, 3584528711, 113926993, 338241895,
   666307205, 773529912, 1294757372, 1396182291,
   1695183700, 1986661051, 2177026350, 2456956037,
   2730485921, 2820302411, 3259730800, 3345764771,
   3516065817, 3600352804, 4094571909, 275423344,
   430227734, 506948616, 659060556, 883997877,
   958139571, 1322822218, 1537002063, 1747873779,
   1955562222, 2024104815, 2227730452, 2361852424,
   2428436474, 2756734187, 3204031479, 3329325298]

/-- The SHA-256 initial hash state. -/
def shaH0 : List Nat :=
  [1779033703, 3144134277, 1013904242, 2773480762,
   1359893119, 2600822924, 528734635, 1541459225]

/-- Big-endian decomposition of a 32-bit word into four bytes. -/
def be4 (w : Nat) : List Nat :=
  [w >>> 24 % 256, w >>> 16 % 256, w >>> 8 % 256, w % 256]

/-- Big-endian 32-bit words from a byte list (length a multiple of 4). -/
def toWordsBE : List Nat → List Nat
  | b0 :: b1 :: b2 :: b3 :: rest =>
    (b0 * 16777216 + b1 * 65536 + b2 * 256 + b3) :: toWordsBE rest
  | _ => []

/-- One message-schedule extension step for SHA-256. -/
def schedStep (w : List Nat) : List Nat :=
  w ++ [u32 (shaSmallS1 (w.getD (w.length - 2) 0) + w.getD (w.length - 7) 0 +
        shaSmallS0 (w.getD (w.length - 15) 0) + w.getD (w.length - 16) 0)]

/-- Full 64-word message schedule from the 16 block words. -/
def sched (w16 : List Nat) : List Nat :=
  (List.range 48).foldl (fun w _ => schedStep w) w16

/-- One SHA-256 compression round on the eight-word working state. -/
def shaRound (st : List Nat) (kw : Nat × Nat) : List Nat :=
  let a := st.getD 0 0
  let b := st.getD 1 0
  let c := st.getD 2 0
  let d := st.getD 3 0
  let e := st.getD 4 0
  let f := st.getD 5 0
  let g := st.getD 6 0
  let h := st.getD 7 0
  let t1 := u32 (h + shaBigS1 e + shaCh e f g + kw.1 + kw.2)
  let t2 := u32 (shaBigS0 a + shaMaj a b c)
  [u32 (t1 + t2), a, b, c, u32 (d + t1), e, f, g]

/-- SHA-256 compression of one 64-byte block into the hash state. -/
def compressBlock (hs : List Nat) (block : List Nat) : List Nat :=
  let ws := sched (toWordsBE block)
  let st := (shaK.zip ws).foldl shaRound hs
  List.zipWith (fun x y => u32 (x + y)) hs st

/-- Split a byte list into 64-byte chunks. -/
def chunks64 (l : List Nat) : List (List Nat) :=
  if h : l = [] then []
  else (l.take 64) :: chunks64 (l.drop 64)
termination_by l.length
decreasing_by
  simp [List.length_drop]
  exact List.length_pos.mpr h

/-- SHA-256 padding: 0x80, zeros to 56 mod 64, 8-byte big-endian bit length. -/
def shaPad (msg : List Nat) : List Nat :=
  let l := msg.length
  let z := (64 - ((l + 9) % 64)) % 64
  let bits := l * 8
  msg ++ [128] ++ List.replicate z 0 ++
    [bits >>> 56 % 256, bits >>> 48 % 256, bits >>> 40 % 256, bits >>> 32 % 256,
     bits >>> 24 % 256, bits >>> 16 % 256, bits >>> 8 % 256, bits % 256]

/-- SHA-256 of a byte list, as the 32-byte big-endian digest. -/
def sha256 (msg : List Nat) : List Nat :=
  ((chunks64 (shaPad msg)).foldl compressBlock shaH0).flatMap be4

/-! ## CRC-32 (hash/crc32, IEEE polynomial, reflected form) -/

/-- One bit step of the reflected CRC-32 computation with the IEEE
polynomial 0xEDB88320. -/
def crcBit (c : Nat) : Nat :=
  if c % 2 = 1 then Nat.xor (c / 2) 0xEDB88320 else c / 2

/-- Fold one byte into the CRC-32 state. -/
def crcByte (crc b : Nat) : Nat :=
  (List.range 8).foldl (fun c _ => crcBit c) (Nat.xor crc (b % 256))

/-- CRC-32 checksum with the IEEE polynomial, as computed by
crc32.NewIEEE / Write / Sum32. -/
def crc32 (data : List Nat) : Nat :=
  Nat.xor (data.foldl crcByte 0xFFFFFFFF) 0xFFFFFFFF

/-! ## Blob store of the arc revision (blob definitions bundled in
serializer_test.go): reference-counted, SHA-256 keyed. -/

/-- Length of a blobID in bytes. -/
def blobIDLen : Nat := 32

/-- blobStore: maps a 32-byte blobID to a blob value and its reference
count.  The Go map is modelled as an association list; put only ever
adds an id that is absent, so ids are unique for stores built by the
operations. -/
abbrev BlobStore : Type := List (List Nat × List Nat × Int)

/-- Lookup of an id in the store. -/
def bsLookup : BlobStore → List Nat → Option (List Nat × Int)
  | [], _ => none
  | (i, v, rc) :: rest, id => if i = id then some (v, rc) else bsLookup rest id

/-- Increment the reference count of the first entry with the given id
(models b.refCount++ through the map pointer). -/
def bsIncr : BlobStore → List Nat → BlobStore
  | [], _ => []
  | (i, v, rc) :: rest, id =>
    if i = id then (i, v, rc + 1) :: rest else (i, v, rc) :: bsIncr rest id

/-- Set the reference count of the first entry with the given id. -/
def bsSetRC : BlobStore → List Nat → Int → BlobStore
  | [], _, _ => []
  | (i, v, rc) :: rest, id, rc' =>
    if i = id then (i, v, rc') :: rest else (i, v, rc) :: bsSetRC rest id rc'

/-- Remove the first entry with the given id (models delete(bs, k)). -/
def bsEraseKey : BlobStore → List Nat → BlobStore
  | [], _ => []
  | (i, v, rc) :: rest, id =>
    if i = id then rest else (i, v, rc) :: bsEraseKey rest id

/-- blobStore.put: compute the SHA-256 id; on a hit increment the
refcount, otherwise insert the value with refcount 1.  Returns the id. -/
def bsPut (bs : BlobStore) (value : List Nat) : List Nat × BlobStore :=
  let k := sha256 value
  match bsLookup bs k with
  | some _ => (k, bsIncr bs k)
  | none => (k, bs ++ [(k, value, 1)])

/-- blobStore.release: no-op unless the id has blobID length and is
present; otherwise decrement the (positive) refcount and remove the
entry once the count reaches zero. -/
def bsRelease (bs : BlobStore) (id : List Nat) : BlobStore :=
  if id.length ≠ blobIDLen then bs
  else
    match bsLookup bs id with
    | none => bs
    | some (_, rc) =>
      let rc' := if rc > 0 then rc - 1 else rc
      if rc' = 0 then bsEraseKey bs id else bsSetRC bs id rc'

/-- blobStore.get: nil unless the id has blobID length and is present;
otherwise a defensive copy of the stored value (the copy is the value
itself in this pure model). -/
def bsGet (bs : BlobStore) (id : List Nat) : List Nat :=
  if id.length ≠ blobIDLen then []
  else
    match bsLookup bs id with
    | none => []
    | some (v, _) => v

/-- Iterated put of the same value, starting from a given store. -/
def bsPutN : Nat → List Nat → BlobStore → BlobStore
  | 0, _, bs => bs
  | n + 1, v, bs => bsPutN n v (bsPut bs v).2

/-- A blob-store operation: a put of a value or a release of an id. -/
inductive BlobOp : Type where
  | put (v : List Nat)
  | release (id : List Nat)

/-- Apply one blob-store operation. -/
def bsApply (bs : BlobStore) : BlobOp → BlobStore
  | .put v => (bsPut bs v).2
  | .release id => bsRelease bs id

/-- Apply a finite sequence of blob-store operations. -/
def bsApplyAll (ops : List BlobOp) (bs : BlobStore) : BlobStore :=
  ops.foldl bsApply bs

/-! ### Blob store lemmas -/

theorem sha256_length (msg : List Nat) : (sha256 msg).length = 32 := by
  have hlen8 : ∀ (bl : List (List Nat)) (hs : List Nat), hs.length = 8 →
      ((bl.foldl compressBlock hs)).length = 8 := by
    intro bl
    induction bl with
    | nil => intro hs h; simpa using h
    | cons b rest ih =>
      intro hs h
      apply ih
      show (List.zipWith (fun x y => u32 (x + y)) hs _).length = 8
      rw [List.length_zipWith, h]
      have hst : ∀ (ps : List (Nat × Nat)) (st : List Nat), st.length = 8 →
          (ps.foldl shaRound st).length = 8 := by
        intro ps
        induction ps with
        | nil => intro st hst; simpa using hst
        | cons p rest ih2 =>
          intro st hst
          apply ih2
          rfl
      rw [hst _ hs h]
      simp
  unfold sha256
  rw [List.length_flatMap]
  have h8 := hlen8 (chunks64 (shaPad msg)) shaH0 (by rfl)
  set l := (chunks64 (shaPad msg)).foldl compressBlock shaH0 with hl
  rw [show (List.length ∘ be4) = fun _ => 4 from funext fun w => rfl]
  simp [h8]

theorem bsLookup_append_of_none {bs : BlobStore} {id : List Nat}
    (h : bsLookup bs id = none) (e : List Nat × List Nat × Int) :
    bsLookup (bs ++ [e]) id = if e.1 = id then some e.2 else none := by
  induction bs with
  | nil => simp [bsLookup]
  | cons x rest ih =>
    obtain ⟨i, v, rc⟩ := x
    by_cases hi : i = id
    · simp [bsLookup, hi] at h
    · simp only [bsLookup, hi, if_neg hi, List.cons_append] at h ⊢
      exact ih h

theorem bsLookup_incr {bs : BlobStore} {id : List Nat} {v : List Nat} {rc : Int}
    (h : bsLookup bs id = some (v, rc)) :
    bsLookup (bsIncr bs id) id = some (v, rc + 1) := by
  induction bs with
  | nil => simp [bsLookup] at h
  | cons x rest ih =>
    obtain ⟨i, w, rc0⟩ := x
    by_cases hi : i = id
    · simp [bsLookup, hi] at h
      simp [bsIncr, hi, bsLookup, h.1, h.2]
    · simp [bsLookup, hi] at h
      simp [bsIncr, hi, bsLookup, ih h]

theorem bsPutN_same (v : List Nat) :
    ∀ n : Nat, 1 ≤ n → bsPutN n v [] = [(sha256 v, v, (n : Int))] := by
  have step : ∀ (m : Nat) (rc : Int),
      bsPutN m v [(sha256 v, v, rc)] = [(sha256 v, v, rc + m)] := by
    intro m
    induction m with
    | zero => intro rc; simp [bsPutN]
    | succ k ih =>
      intro rc
      have hput : (bsPut [(sha256 v, v, rc)] v).2 = [(sha256 v, v, rc + 1)] := by
        simp [bsPut, bsLookup, bsIncr]
      rw [bsPutN, hput, ih]
      congr 2
      push_cast
      ring
  intro n hn
  cases n with
  | zero => omega
  | succ k =>
    have h1 : (bsPut [] v).2 = [(sha256 v, v, 1)] := by simp [bsPut, bsLookup]
    rw [bsPutN, h1, step]
    congr 2
    push_cast
    ring

theorem bsLookup_mem {bs : BlobStore} {id w : List Nat} {rc : Int}
    (h : bsLookup bs id = some (w, rc)) : (id, w, rc) ∈ bs := by
  induction bs with
  | nil => simp [bsLookup] at h
  | cons x rest ih =>
    obtain ⟨i, v, r⟩ := x
    by_cases hi : i = id
    · subst hi
      simp [bsLookup] at h
      simp [h.1, h.2]
    · simp [bsLookup, hi] at h
      simp [ih h]

theorem mem_bsIncr {bs : BlobStore} {id : List Nat} {e : List Nat × List Nat × Int}
    (h : e ∈ bsIncr bs id) : e ∈ bs ∨ ∃ i v rc, (i, v, rc) ∈ bs ∧ e = (i, v, rc + 1) := by
  induction bs with
  | nil => simp [bsIncr] at h
  | cons x rest ih =>
    obtain ⟨i, v, r⟩ := x
    by_cases hi : i = id
    · simp only [bsIncr, if_pos hi] at h
      rcases List.mem_cons.mp h with h | h
      · exact Or.inr ⟨i, v, r, List.mem_cons_self _ _, h⟩
      · exact Or.inl (List.mem_cons_of_mem _ h)
    · simp only [bsIncr, if_neg hi] at h
      rcases List.mem_cons.mp h with h | h
      · exact Or.inl (h ▸ List.mem_cons_self _ _)
      · rcases ih h with h2 | ⟨i2, v2, rc2, hm, he⟩
        · exact Or.inl (List.mem_cons_of_mem _ h2)
        · exact Or.inr ⟨i2, v2, rc2, List.mem_cons_of_mem _ hm, he⟩

theorem mem_bsEraseKey {bs : BlobStore} {id : List Nat} {e : List Nat × List Nat × Int}
    (h : e ∈ bsEraseKey bs id) : e ∈ bs := by
  induction bs with
  | nil => simp [bsEraseKey] at h
  | cons x rest ih =>
    obtain ⟨i, v, r⟩ := x
    by_cases hi : i = id
    · simp [bsEraseKey, hi] at h
      simp [h]
    · simp [bsEraseKey, hi] at h
      rcases h with h | h
      · simp [h]
      · simp [ih h]

theorem mem_bsSetRC {bs : BlobStore} {id : List Nat} {rc' : Int}
    {e : List Nat × List Nat × Int} (h : e ∈ bsSetRC bs id rc') :
    e ∈ bs ∨ e.2.2 = rc' := by
  induction bs with
  | nil => simp [bsSetRC] at h
  | cons x rest ih =>
    obtain ⟨i, v, r⟩ := x
    by_cases hi : i = id
    · simp [bsSetRC, hi] at h
      rcases h with h | h
      · right; simp [h]
      · exact Or.inl (by simp [h])
    · simp [bsSetRC, hi] at h
      rcases h with h | h
      · exact Or.inl (by simp [h])
      · rcases ih h with h2 | h2
        · exact Or.inl (by simp [h2])
        · exact Or.inr h2

/-- All reference counts in the store are at least one. -/
def bsAllPos (bs : BlobStore) : Prop := ∀ e ∈ bs, 1 ≤ e.2.2

theorem bsAllPos_put {bs : BlobStore} (h : bsAllPos bs) (v : List Nat) :
    bsAllPos (bsPut bs v).2 := by
  intro e he
  simp only [bsPut] at he
  cases hl : bsLookup bs (sha256 v) with
  | some p =>
    rw [hl] at he
    simp only at he
    rcases mem_bsIncr he with h2 | ⟨i, w, rc, hm, he2⟩
    · exact h e h2
    · have h1 := h _ hm
      simp only at h1
      rw [he2]
      simp only
      omega
  | none =>
    rw [hl] at he
    simp only at he
    rcases List.mem_append.mp he with he | he
    · exact h e he
    · simp at he
      simp [he]

theorem bsAllPos_release {bs : BlobStore} (h : bsAllPos bs) (id : List Nat) :
    bsAllPos (bsRelease bs id) := by
  unfold bsRelease
  by_cases hlen : id.length ≠ blobIDLen
  · simpa [hlen] using h
  · simp only [hlen, if_false]
    cases hl : bsLookup bs id with
    | none => exact h
    | some p =>
      obtain ⟨v, rc⟩ := p
      have hmem := bsLookup_mem hl
      have hrc : 1 ≤ rc := h _ hmem
      have hpos : rc > 0 := by omega
      simp only [hpos, if_true]
      by_cases hz : rc - 1 = 0
      · simp only [hz, if_true]
        intro e he
        exact h e (mem_bsEraseKey he)
      · simp only [hz, if_false]
        intro e he
        rcases mem_bsSetRC he with h2 | h2
        · exact h e h2
        · rw [h2]; omega

theorem bsAllPos_applyAll : ∀ (ops : List BlobOp) (bs : BlobStore),
    bsAllPos bs → bsAllPos (bsApplyAll ops bs) := by
  intro ops
  induction ops with
  | nil => intro bs h; exact h
  | cons op rest ih =>
    intro bs h
    show bsAllPos (bsApplyAll rest (bsApply bs op))
    apply ih
    cases op with
    | put v => exact bsAllPos_put h v
    | release id => exact bsAllPos_release h id

/-- C7: blobStore.put computes the SHA-256 id of the value, increments
the reference count when an entry for that id exists and otherwise
inserts the value with reference count 1, so that N puts of the same
bytes starting from an empty store leave exactly one entry with
reference count N; blobStore.release decrements a positive reference
count, removing the entry when the count reaches zero, and is a no-op
for an id that is not in the store. -/
theorem blobStore_put_release_contract :
    (∀ (bs : BlobStore) (v : List Nat), (bsPut bs v).1 = sha256 v) ∧
    (∀ (bs : BlobStore) (v w : List Nat) (rc : Int),
      bsLookup bs (sha256 v) = some (w, rc) →
      (bsPut bs v).2 = bsIncr bs (sha256 v) ∧
      bsLookup (bsPut bs v).2 (sha256 v) = some (w, rc + 1)) ∧
    (∀ (bs : BlobStore) (v : List Nat),
      bsLookup bs (sha256 v) = none →
      (bsPut bs v).2 = bs ++ [(sha256 v, v, 1)] ∧
      bsLookup (bsPut bs v).2 (sha256 v) = some (v, 1)) ∧
    (∀ (v : List Nat) (n : Nat), 1 ≤ n → bsPutN n v [] = [(sha256 v, v, (n : Int))]) ∧
    (∀ (bs : BlobStore) (id : List Nat),
      bsLookup bs id = none → bsRelease bs id = bs) ∧
    (∀ (bs : BlobStore) (id w : List Nat) (rc : Int),
      id.length = blobIDLen → bsLookup bs id = some (w, rc) → 1 ≤ rc →
      bsRelease bs id =
        if rc = 1 then bsEraseKey bs id else bsSetRC bs id (rc - 1)) := by
  refine ⟨?_, ?_, ?_, bsPutN_same, ?_, ?_⟩
  · intro bs v
    simp only [bsPut]
    cases bsLookup bs (sha256 v) <;> rfl
  · intro bs v w rc h
    constructor
    · simp only [bsPut, h]
    · simp only [bsPut, h]
      exact bsLookup_incr h
  · intro bs v h
    constructor
    · simp only [bsPut, h]
    · simp only [bsPut, h]
      rw [bsLookup_append_of_none h]
      simp
  · intro bs id h
    unfold bsRelease
    by_cases hlen : id.length ≠ blobIDLen
    · simp [hlen]
    · simp [hlen, h]
  · intro bs id w rc hlen h hrc
    unfold bsRelease
    rw [if_neg (by simp [hlen]), h]
    have hpos : rc > 0 := by omega
    simp only [hpos, if_true]
    by_cases h1 : rc = 1
    · simp [h1]
    · rw [if_neg (by omega), if_neg h1]

/-- C7 witness: three puts of the byte [7] into the empty store leave
one entry with reference count 3; releasing an id with count 2 leaves
it present with count 1. -/
theorem blobStore_put_release_contract_witness :
    bsPutN 3 [7] [] = [(sha256 [7], [7], 3)] ∧
    bsRelease [(List.replicate 32 0, [5], 2)] (List.replicate 32 0) =
      bsSetRC [(List.replicate 32 0, [5], 2)] (List.replicate 32 0) 1 := by
  constructor
  · exact blobStore_put_release_contract.2.2.2.1 [7] 3 (by decide)
  · have h := blobStore_put_release_contract.2.2.2.2.2
      [(List.replicate 32 0, [5], 2)] (List.replicate 32 0) [5] 2
      (by simp [blobIDLen]) (by simp [bsLookup]) (by decide)
    simpa using h

/-- C10: after any finite sequence of blob-store put and release
operations starting from the empty store, every entry still present
has a reference count of at least 1: release never drives a count
below zero, and an entry whose count would reach zero is removed. -/
theorem blobStore_refcounts_positive :
    ∀ (ops : List BlobOp) (id w : List Nat) (rc : Int),
      bsLookup (bsApplyAll ops []) id = some (w, rc) → 1 ≤ rc := by
  intro ops id w rc h
  have hall : bsAllPos (bsApplyAll ops []) :=
    bsAllPos_applyAll ops [] (by intro e he; simp at he)
  exact hall _ (bsLookup_mem h)

/-- C10 witness: a single put yields an entry with count 1, which the
theorem confirms is at least 1. -/
theorem blobStore_refcounts_positive_witness :
    bsLookup (bsApplyAll [BlobOp.put [9]] []) (sha256 [9]) = some ([9], 1) ∧
    1 ≤ (1 : Int) :=
  ⟨by simp [bsApplyAll, bsApply, bsPut, bsLookup],
    blobStore_refcounts_positive [BlobOp.put [9]] (sha256 [9]) [9] 1
      (by simp [bsApplyAll, bsApply, bsPut, bsLookup])⟩

/-! ## The radixdb node (node.go): slice children, CRC32 checksum,
inline/blob values against a plain id-to-value blob map. -/

/-- node of node.go: path segment, value bytes (inline value or
32-byte blob id), record and blob flags, sorted child slice, CRC32
checksum of the node content. -/
inductive RNode : Type where
  | mk (key value : List Nat) (isRecord isBlob : Bool) (children : List RNode) (checksum : Nat)
  deriving Repr

instance : Inhabited RNode := ⟨RNode.mk [] [] false false [] 0⟩

def RNode.key : RNode → List Nat
  | .mk k _ _ _ _ _ => k

def RNode.value : RNode → List Nat
  | .mk _ v _ _ _ _ => v

def RNode.isRecord : RNode → Bool
  | .mk _ _ r _ _ _ => r

def RNode.isBlob : RNode → Bool
  | .mk _ _ _ b _ _ => b

def RNode.children : RNode → List RNode
  | .mk _ _ _ _ cs _ => cs

def RNode.checksum : RNode → Nat
  | .mk _ _ _ _ _ c => c

theorem RNode.eta_record (n : RNode) :
    RNode.mk n.key n.value n.isRecord n.isBlob n.children n.checksum = n := by
  cases n
  rfl

/-- The blob store used by the node.go revision of setValue: a plain
map from blobID to the raw value bytes. -/
abbrev RBlobStore : Type := List (List Nat × List Nat)

/-- Go map assignment blobs[k] = value: replace or append. -/
def rbsInsert : RBlobStore → List Nat → List Nat → RBlobStore
  | [], k, v => [(k, v)]
  | (i, w) :: rest, k, v =>
    if i = k then (i, v) :: rest else (i, w) :: rbsInsert rest k v

/-- Go map lookup blobs[k]. -/
def rbsLookup : RBlobStore → List Nat → Option (List Nat)
  | [], _ => none
  | (i, w) :: rest, k => if i = k then some w else rbsLookup rest k

/-- inlineValueThreshold = blobIDLen: values at most this long stay inline. -/
def inlineValueThreshold : Nat := blobIDLen

/-- node.setValue of node.go: keep the value inline when it is at most
32 bytes (isBlob false); otherwise store the SHA-256 id in the node
(isBlob true) and place the value in the blob store under that id. -/
def RNode.setValue (n : RNode) (blobs : RBlobStore) (value : List Nat) :
    RNode × RBlobStore :=
  if value.length ≤ inlineValueThreshold then
    (RNode.mk n.key value n.isRecord false n.children n.checksum, blobs)
  else
    let k := sha256 value
    (RNode.mk n.key k n.isRecord true n.children n.checksum, rbsInsert blobs k value)

/-- Little-endian byte encodings of 16-, 32- and 64-bit values. -/
def le2 (w : Nat) : List Nat := [w % 256, w >>> 8 % 256]

def le4 (w : Nat) : List Nat :=
  [w % 256, w >>> 8 % 256, w >>> 16 % 256, w >>> 24 % 256]

def le8 (w : Nat) : List Nat :=
  [w % 256, w >>> 8 % 256, w >>> 16 % 256, w >>> 24 % 256,
   w >>> 32 % 256, w >>> 40 % 256, w >>> 48 % 256, w >>> 56 % 256]

/-- Little-endian readers over a byte list (binary.Read, LittleEndian). -/
def readLE2 (l : List Nat) : Nat := l.getD 0 0 + l.getD 1 0 * 256

def readLE4 (l : List Nat) : Nat :=
  l.getD 0 0 + l.getD 1 0 * 256 + l.getD 2 0 * 65536 + l.getD 3 0 * 16777216

def readLE8 (l : List Nat) : Nat :=
  l.getD 0 0 + l.getD 1 0 * 256 + l.getD 2 0 * 65536 + l.getD 3 0 * 16777216 +
  l.getD 4 0 * 4294967296 + l.getD 5 0 * 1099511627776 +
  l.getD 6 0 * 281474976710656 + l.getD 7 0 * 72057594037927936

/-- node.calculateChecksum: CRC32 over key, value, and one byte each
for the isRecord and isBlob flags. -/
def RNode.calculateChecksum (n : RNode) : Nat :=
  crc32 (n.key ++ n.value ++ [if n.isRecord then 1 else 0] ++ [if n.isBlob then 1 else 0])

/-- node.updateChecksum: recompute and store the checksum. -/
def RNode.updateChecksum (n : RNode) : RNode :=
  RNode.mk n.key n.value n.isRecord n.isBlob n.children n.calculateChecksum

/-- node.verifyChecksum: a zero checksum counts as unset and fails;
otherwise the stored checksum must equal the recomputed one. -/
def RNode.verifyChecksum (n : RNode) : Bool :=
  if n.checksum = 0 then false
  else n.checksum = n.calculateChecksum

/-- node.serialize of node.go: refuse with ErrInvalidChecksum before
emitting anything when the checksum does not verify; otherwise emit
checksum, key length and key, value length and value (zero length for
non-records), child count, and the reserved child-offset slots. -/
def RNode.serialize (n : RNode) : Except Err (List Nat) :=
  if ¬ n.verifyChecksum then .error .invalidChecksum
  else
    .ok (le4 n.checksum ++ le8 n.key.length ++ n.key ++
      (if n.isRecord then
        le8 n.value.length ++ (if n.value.length > 0 then n.value else [])
      else le8 0) ++
      le8 n.children.length ++ (List.replicate n.children.length (le8 0)).flatten)

/-! ## sort.Search and the slice removeChild of node.go -/

/-- The loop of Go sort.Search: binary search for the least index in
[i, j) satisfying f (for monotone f).  The loop halves the interval,
so it runs at most n times; the fuel argument, instantiated with n,
makes the recursion structural without changing the result. -/
def sortSearchGo (f : Nat → Bool) : Nat → Nat → Nat → Nat
  | 0, i, _ => i
  | fuel + 1, i, j =>
    if i < j then
      let m := (i + j) / 2
      if f m then sortSearchGo f fuel i m else sortSearchGo f fuel (m + 1) j
    else i

/-- sort.Search(n, f). -/
def sortSearch (n : Nat) (f : Nat → Bool) : Nat := sortSearchGo f n 0 n

/-- node.removeChild of node.go: binary-search the sorted child slice
for the child key; fail with ErrKeyNotFound when the found position is
out of range or shares no prefix with the key; otherwise remove the
element at that position. -/
def RNode.removeChild (n : RNode) (child : RNode) : Except Err RNode :=
  let cs := n.children
  let index := sortSearch cs.length (fun i => bytesGe (cs.getD i default).key child.key)
  if index ≥ cs.length then .error .keyNotFound
  else if lcp (cs.getD index default).key child.key = [] then .error .keyNotFound
  else .ok (RNode.mk n.key n.value n.isRecord n.isBlob (cs.eraseIdx index) n.checksum)

theorem rbsLookup_insert (bs : RBlobStore) (k v : List Nat) :
    rbsLookup (rbsInsert bs k v) k = some v := by
  induction bs with
  | nil => simp [rbsInsert, rbsLookup]
  | cons x rest ih =>
    obtain ⟨i, w⟩ := x
    by_cases hi : i = k
    · simp [rbsInsert, hi, rbsLookup]
    · simp [rbsInsert, hi, rbsLookup, ih]

/-- C6: node.setValue keeps a value of at most 32 bytes inline with
isBlob false (in particular a 32-byte value), and for a longer value
(in particular 33 bytes) stores the 32-byte SHA-256 id of the value in
the node, sets isBlob, and places the value in the blob store under
that id. -/
theorem setValue_inline_blob_boundary :
    (∀ (n : RNode) (blobs : RBlobStore) (v : List Nat), v.length ≤ 32 →
      RNode.setValue n blobs v =
        (RNode.mk n.key v n.isRecord false n.children n.checksum, blobs)) ∧
    (∀ (n : RNode) (blobs : RBlobStore) (v : List Nat), 32 < v.length →
      (RNode.setValue n blobs v).1.value = sha256 v ∧
      (sha256 v).length = 32 ∧
      (RNode.setValue n blobs v).1.isBlob = true ∧
      rbsLookup (RNode.setValue n blobs v).2 (sha256 v) = some v) := by
  constructor
  · intro n blobs v h
    simp [RNode.setValue, inlineValueThreshold, blobIDLen, h]
  · intro n blobs v h
    have h2 : ¬ v.length ≤ inlineValueThreshold := by
      simp [inlineValueThreshold, blobIDLen]; omega
    refine ⟨?_, sha256_length v, ?_, ?_⟩
    · simp [RNode.setValue, h2, RNode.value]
    · simp [RNode.setValue, h2, RNode.isBlob]
    · simp only [RNode.setValue, h2, if_false]
      exact rbsLookup_insert blobs (sha256 v) v

/-- C6 witness: a 32-byte value stays inline with isBlob false; a
33-byte value is hashed, flagged as a blob, and lands in the store. -/
theorem setValue_inline_blob_boundary_witness :
    (RNode.setValue default [] (List.replicate 32 7) =
      (RNode.mk [] (List.replicate 32 7) false false [] 0, [])) ∧
    ((RNode.setValue default [] (List.replicate 33 7)).1.isBlob = true ∧
      rbsLookup (RNode.setValue default [] (List.replicate 33 7)).2
        (sha256 (List.replicate 33 7)) = some (List.replicate 33 7)) := by
  constructor
  · exact setValue_inline_blob_boundary.1 default [] (List.replicate 32 7) (by decide)
  · have h := setValue_inline_blob_boundary.2 default [] (List.replicate 33 7) (by decide)
    exact ⟨h.2.2.1, h.2.2.2⟩

/-! ### Order facts about bytes.Compare and sort.Search correctness -/

theorem bytesCmp_self (a : List Nat) : bytesCmp a a = .eq := by
  induction a with
  | nil => rfl
  | cons x xs ih => simp [bytesCmp, ih]

theorem bytesCmp_eq_iff {a b : List Nat} : bytesCmp a b = .eq ↔ a = b := by
  constructor
  · intro h
    induction a generalizing b with
    | nil => cases b with
      | nil => rfl
      | cons y ys => simp [bytesCmp] at h
    | cons x xs ih =>
      cases b with
      | nil => simp [bytesCmp] at h
      | cons y ys =>
        simp only [bytesCmp] at h
        by_cases h1 : x < y
        · simp [h1] at h
        · by_cases h2 : y < x
          · simp [h1, h2] at h
          · simp only [h1, h2, if_false] at h
            have : x = y := by omega
            rw [this, ih h]
  · intro h
    rw [h]
    exact bytesCmp_self b

theorem bytesCmp_swap {a b : List Nat} :
    bytesCmp a b = .lt ↔ bytesCmp b a = .gt := by
  induction a generalizing b with
  | nil =>
    cases b with
    | nil => simp [bytesCmp]
    | cons y ys => simp [bytesCmp]
  | cons x xs ih =>
    cases b with
    | nil => simp [bytesCmp]
    | cons y ys =>
      simp only [bytesCmp]
      by_cases h1 : x < y
      · have h2 : ¬ y < x := by omega
        simp [h1, h2]
      · by_cases h2 : y < x
        · simp [h1, h2]
        · simp [h1, h2, ih]

/-- The non-strict byte order: a compares at most b. -/
def bytesLe (a b : List Nat) : Prop := bytesCmp a b ≠ .gt

theorem bytesLe_refl (a : List Nat) : bytesLe a a := by
  simp [bytesLe, bytesCmp_self]

theorem bytesLe_antisymm {a b : List Nat} (h1 : bytesLe a b) (h2 : bytesLe b a) :
    a = b := by
  unfold bytesLe at h1 h2
  cases h : bytesCmp a b with
  | eq => exact bytesCmp_eq_iff.mp h
  | gt => exact absurd h h1
  | lt => exact absurd (bytesCmp_swap.mp h) h2

theorem bytesLe_trans {a b c : List Nat} (h1 : bytesLe a b) (h2 : bytesLe b c) :
    bytesLe a c := by
  unfold bytesLe at h1 h2 ⊢
  induction a generalizing b c with
  | nil =>
    cases c with
    | nil => simp [bytesCmp]
    | cons z zs => simp [bytesCmp]
  | cons x xs ih =>
    cases b with
    | nil => simp [bytesCmp] at h1
    | cons y ys =>
      cases c with
      | nil => simp [bytesCmp] at h2
      | cons z zs =>
        simp only [bytesCmp] at h1 h2 ⊢
        by_cases hxy : x < y
        · by_cases hyz : y < z
          · have hxz : x < z := by omega
            simp [hxz]
          · by_cases hzy : z < y
            · simp [hzy] at h2
              omega
            · have hyz2 : y = z := by omega
              subst hyz2
              simp [hxy]
        · by_cases hyx : y < x
          · simp [hxy, hyx] at h1
          · have hxy2 : x = y := by omega
            subst hxy2
            simp only [lt_irrefl, if_false] at h1
            by_cases hyz : x < z
            · simp [hyz]
            · by_cases hzy : z < x
              · simp [hyz, hzy] at h2
              · have : x = z := by omega
                subst this
                simp only [lt_irrefl, if_false] at h2 ⊢
                exact ih h1 h2

theorem bytesGe_iff {a b : List Nat} : bytesGe a b = true ↔ bytesLe b a := by
  unfold bytesGe bytesLe
  cases h : bytesCmp a b with
  | lt =>
    have hba : bytesCmp b a = Ordering.gt := bytesCmp_swap.mp h
    simp [hba]
  | eq =>
    have hab := bytesCmp_eq_iff.mp h
    subst hab
    simp [bytesCmp_self]
  | gt =>
    have hba : bytesCmp b a = Ordering.lt := bytesCmp_swap.mpr h
    simp [hba]

/-- Correctness of the sort.Search loop for a monotone predicate:
with sufficient fuel the result is the least index satisfying f,
clamped to the interval. -/
theorem sortSearchGo_spec (f : Nat → Bool) (n : Nat)
    (hmono : ∀ p q, p ≤ q → q < n → f p = true → f q = true) :
    ∀ (fuel i j : Nat), j - i ≤ fuel → i ≤ j → j ≤ n →
      (∀ k, k < i → f k = false) → (∀ k, j ≤ k → k < n → f k = true) →
      i ≤ sortSearchGo f fuel i j ∧ sortSearchGo f fuel i j ≤ j ∧
      (∀ k, k < sortSearchGo f fuel i j → f k = false) ∧
      (∀ k, sortSearchGo f fuel i j ≤ k → k < n → f k = true) := by
  intro fuel
  induction fuel with
  | zero =>
    intro i j hd hij hjn hlow hhigh
    have hij2 : i = j := by omega
    subst hij2
    exact ⟨le_refl i, le_refl i, hlow, hhigh⟩
  | succ fuel ih =>
    intro i j hd hij hjn hlow hhigh
    rw [sortSearchGo]
    by_cases hlt : i < j
    · simp only [hlt, if_true]
      set m := (i + j) / 2 with hm
      have hmi : i ≤ m := by omega
      have hmj : m < j := by omega
      by_cases hf : f m
      · simp only [hf, if_true]
        have hrec := ih i m (by omega) (by omega) (by omega) hlow
          (by
            intro k hk1 hk2
            exact hmono m k (by omega) hk2 hf)
        exact ⟨hrec.1, by omega, hrec.2.2⟩
      · simp only [hf, Bool.false_eq_true, if_false]
        have hrec := ih (m + 1) j (by omega) (by omega) hjn
          (by
            intro k hk
            by_cases hkm : k < i
            · exact hlow k hkm
            · cases hfk : f k with
              | false => rfl
              | true =>
                have : f m = true := hmono k m (by omega) (by omega) hfk
                rw [this] at hf
                exact absurd rfl hf)
          hhigh
        exact ⟨by omega, hrec.2.1, hrec.2.2⟩
    · simp only [hlt, if_false]
      have hij2 : i = j := by omega
      exact ⟨le_refl i, by omega, hlow, by rw [hij2]; exact hhigh⟩

theorem lcp_self (a : List Nat) : lcp a a = a := by
  induction a with
  | nil => rfl
  | cons x xs ih => simp [lcp, ih]


theorem getD_eq_get {cs : List RNode} {i : Nat} (h : i < cs.length) :
    cs.getD i default = cs.get ⟨i, h⟩ := by
  simp [List.getD_eq_getElem?_getD, List.getElem?_eq_getElem h]

/-- C9 counterexample: the claim says removeChild removes a sibling
only on byte-for-byte key equality and reports not-found otherwise;
but on a parent whose sole child has key "apple", removeChild with an
argument child keyed "app" succeeds and removes "apple", although no
sibling key equals "app".  The search removes the binary-search
position whenever it merely shares a non-empty prefix. -/
theorem removeChild_not_by_equality :
    RNode.removeChild
        (RNode.mk [] [] false false [RNode.mk [97, 112, 112, 108, 101] [] false false [] 0] 0)
        (RNode.mk [97, 112, 112] [] false false [] 0)
      = .ok (RNode.mk [] [] false false [] 0) ∧
    ∀ c ∈ [RNode.mk [97, 112, 112, 108, 101] [] false false [] 0],
      c.key ≠ (RNode.mk [97, 112, 112] [] false false [] 0).key := by
  constructor
  · rfl
  · intro c hc
    simp only [List.mem_singleton] at hc
    subst hc
    decide

/-- C9 (amended): removeChild returns ErrKeyNotFound when no sibling
shares a non-empty common prefix with the argument child's key; and
when the (maintained-sorted) child slice contains a sibling whose key
is byte-for-byte equal to the argument's non-empty key, removeChild
succeeds and removes exactly a sibling carrying that equal key -- but
equality is not required in general, a shared non-empty prefix at the
binary-search position suffices. -/
theorem removeChild_search_contract :
    (∀ (n : RNode) (child : RNode),
      (∀ c ∈ n.children, lcp c.key child.key = []) →
      RNode.removeChild n child = .error .keyNotFound) ∧
    (∀ (n : RNode) (child : RNode),
      List.Pairwise (fun a b => bytesLe a.key b.key) n.children →
      child.key ≠ [] →
      (∃ c ∈ n.children, c.key = child.key) →
      ∃ i, ∃ h : i < n.children.length,
        (n.children.get ⟨i, h⟩).key = child.key ∧
        RNode.removeChild n child =
          .ok (RNode.mk n.key n.value n.isRecord n.isBlob (n.children.eraseIdx i) n.checksum)) := by
  constructor
  · intro n child hall
    simp only [RNode.removeChild]
    split
    · rfl
    · split
      · rfl
      · next h1 h2 =>
          exfalso
          push_neg at h1
          exact h2 (hall _ (by rw [getD_eq_get h1]; exact List.get_mem _ _ _))
  · intro n child hsort hne hex
    obtain ⟨c, hc, hck⟩ := hex
    obtain ⟨⟨p, hp⟩, hpc⟩ := List.mem_iff_get.mp hc
    set cs := n.children with hcs
    set f := fun i => bytesGe ((cs.getD i default).key) child.key with hf
    have hmono : ∀ a b, a ≤ b → b < cs.length → f a = true → f b = true := by
      intro a b hab hb hfa
      rcases Nat.eq_or_lt_of_le hab with h | h
      · rw [← h]; exact hfa
      · rw [hf] at hfa ⊢
        simp only at hfa ⊢
        rw [getD_eq_get (by omega)] at hfa
        rw [getD_eq_get hb]
        rw [bytesGe_iff] at hfa ⊢
        have hrel := (List.pairwise_iff_get.mp hsort) ⟨a, by omega⟩ ⟨b, hb⟩ h
        exact bytesLe_trans hfa hrel
    have hspec := sortSearchGo_spec f cs.length hmono cs.length 0 cs.length
      (by omega) (Nat.zero_le _) (le_refl _) (by intro k hk; omega) (by intro k hk1 hk2; omega)
    set r := sortSearchGo f cs.length 0 cs.length with hr
    have hfp : f p = true := by
      rw [hf]
      simp only
      rw [getD_eq_get hp, hpc, hck]
      exact bytesGe_iff.mpr (bytesLe_refl _)
    have hrp : r ≤ p := by
      by_contra hcon
      push_neg at hcon
      rw [hspec.2.2.1 p hcon] at hfp
      exact Bool.false_ne_true hfp
    have hrlen : r < cs.length := by omega
    have hfr : f r = true := hspec.2.2.2 r (le_refl r) hrlen
    have hkeyr : (cs.getD r default).key = child.key := by
      have h1 : bytesLe child.key (cs.getD r default).key := by
        rw [hf] at hfr
        simp only at hfr
        exact bytesGe_iff.mp hfr
      have h2 : bytesLe (cs.getD r default).key child.key := by
        rcases Nat.eq_or_lt_of_le hrp with h | h
        · have he : cs.getD r default = c := by
            rw [getD_eq_get hrlen, ← hpc]
            congr 1
            exact Fin.ext h
          rw [he, hck]
          exact bytesLe_refl _
        · have hrel := (List.pairwise_iff_get.mp hsort) ⟨r, hrlen⟩ ⟨p, hp⟩ h
          rw [getD_eq_get hrlen]
          rw [hpc, hck] at hrel
          exact hrel
      exact bytesLe_antisymm h2 h1
    refine ⟨r, hrlen, ?_, ?_⟩
    · rw [← getD_eq_get hrlen]
      exact hkeyr
    · simp only [RNode.removeChild]
      have hss : sortSearch cs.length f = r := rfl
      rw [← hcs, ← hf, hss]
      rw [if_neg (by omega)]
      rw [if_neg (by rw [hkeyr, lcp_self]; exact hne)]

/-- C9 amended-claim witness: on a sorted pair of children keyed "aa"
and "ab", removing a child keyed "ab" deletes exactly that sibling. -/
theorem removeChild_search_contract_witness :
    ∃ i, ∃ h : i <
        (RNode.mk [] [] false false
          [RNode.mk [97, 97] [] false false [] 0, RNode.mk [97, 98] [] false false [] 0] 0).children.length,
      ((RNode.mk [] [] false false
          [RNode.mk [97, 97] [] false false [] 0, RNode.mk [97, 98] [] false false [] 0] 0).children.get
        ⟨i, h⟩).key = (RNode.mk [97, 98] [] false false [] 0).key ∧
      RNode.removeChild
          (RNode.mk [] [] false false
            [RNode.mk [97, 97] [] false false [] 0, RNode.mk [97, 98] [] false false [] 0] 0)
          (RNode.mk [97, 98] [] false false [] 0) =
        .ok (RNode.mk
          (RNode.mk [] [] false false
            [RNode.mk [97, 97] [] false false [] 0, RNode.mk [97, 98] [] false false [] 0] 0).key
          (RNode.mk [] [] false false
            [RNode.mk [97, 97] [] false false [] 0, RNode.mk [97, 98] [] false false [] 0] 0).value
          (RNode.mk [] [] false false
            [RNode.mk [97, 97] [] false false [] 0, RNode.mk [97, 98] [] false false [] 0] 0).isRecord
          (RNode.mk [] [] false false
            [RNode.mk [97, 97] [] false false [] 0, RNode.mk [97, 98] [] false false [] 0] 0).isBlob
          ((RNode.mk [] [] false false
            [RNode.mk [97, 97] [] false false [] 0, RNode.mk [97, 98] [] false false [] 0] 0).children.eraseIdx i)
          (RNode.mk [] [] false false
            [RNode.mk [97, 97] [] false false [] 0, RNode.mk [97, 98] [] false false [] 0] 0).checksum) := by
  apply removeChild_search_contract.2
  · simp only [RNode.children]
    constructor
    · intro b hb
      simp only [List.mem_singleton] at hb
      subst hb
      simp [bytesLe]
      decide
    · simp
  · decide
  · refine ⟨RNode.mk [97, 98] [] false false [] 0, ?_, rfl⟩
    simp [RNode.children]

/-! ## Persisted node codec of the arc revision (serializer.go) -/

/-- Minimum length of a serialized node: the fixed-size fields
(flags u8, numChildren u16, keyLen u16, dataLen u32, two u64 offsets). -/
def minNodeBytesLen : Nat := 1 + 2 + 2 + 4 + 8 + 8

/-- persistentNode of serializer.go: the on-disk node structure. -/
structure PersistentNode : Type where
  flags : Nat
  numChildren : Nat
  keyLen : Nat
  dataLen : Nat
  firstChildOffset : Nat
  nextSiblingOffset : Nat
  key : List Nat
  data : List Nat
  deriving Repr, DecidableEq

/-- persistentNode.isRecord: bit0 of the flags. -/
def PersistentNode.isRecordFlag (flags : Nat) : Bool := Nat.land flags 1 ≠ 0

/-- makePersistentNodeFromBytes of serializer.go: reject short input
as ErrNodeCorrupted; compare the trailing stored CRC32 against the
recomputed CRC32 of the node region and reject a mismatch as
ErrInvalidChecksum; then decode the fixed fields (an exhausted reader
surfaces the io error), check that the remaining bytes are exactly
keyLen + dataLen (ErrNodeCorrupted otherwise), and extract the key
and, for records, the data. -/
def makePersistentNodeFromBytes (src : List Nat) : Except Err PersistentNode :=
  if src.length < minNodeBytesLen then .error .nodeCorrupted
  else
    let wantChecksum := readLE4 (src.drop (src.length - 4))
    let nodeData := src.take (src.length - 4)
    let gotChecksum := crc32 nodeData
    if gotChecksum ≠ wantChecksum then .error .invalidChecksum
    else if nodeData.length < 25 then .error .ioError
    else
      let flags := nodeData.getD 0 0
      let numChildren := readLE2 (nodeData.drop 1)
      let keyLen := readLE2 (nodeData.drop 3)
      let dataLen := readLE4 (nodeData.drop 5)
      let firstChildOffset := readLE8 (nodeData.drop 9)
      let nextSiblingOffset := readLE8 (nodeData.drop 17)
      let remaining := nodeData.length - 25
      if keyLen + dataLen ≠ remaining then .error .nodeCorrupted
      else
        let key := (nodeData.drop 25).take keyLen
        let data :=
          if PersistentNode.isRecordFlag flags then ((nodeData.drop 25).drop keyLen).take dataLen
          else []
        .ok ⟨flags, numChildren, keyLen, dataLen, firstChildOffset, nextSiblingOffset, key, data⟩

/-- C8 counterexample: a persisted node whose stored CRC32 does not
match the recomputed CRC32 is rejected with ErrInvalidChecksum, not
with the Corrupted error the claim names (ErrNodeCorrupted is used
only for size mismatches). -/
theorem crc_mismatch_not_corrupted :
    makePersistentNodeFromBytes (List.replicate 25 0 ++ [1, 0, 0, 0]) =
      .error .invalidChecksum ∧
    Err.invalidChecksum ≠ Err.corrupted ∧ Err.invalidChecksum ≠ Err.nodeCorrupted := by
  refine ⟨?_, by decide, by decide⟩
  rfl

/-- C8 (amended): serializing a node whose recorded in-memory
checksum does not verify (a zero checksum counts as unset and always
fails) yields ErrInvalidChecksum before any bytes are emitted; and a
persisted node whose stored CRC32 does not match the recomputed CRC32
of its bytes is rejected on read with ErrInvalidChecksum (the
NodeCorrupted error being reserved for size mismatches). -/
theorem checksum_gate_contract :
    (∀ n : RNode, n.verifyChecksum = false → RNode.serialize n = .error .invalidChecksum) ∧
    (∀ n : RNode, n.checksum = 0 → n.verifyChecksum = false) ∧
    (∀ src : List Nat, minNodeBytesLen ≤ src.length →
      crc32 (src.take (src.length - 4)) ≠ readLE4 (src.drop (src.length - 4)) →
      makePersistentNodeFromBytes src = .error .invalidChecksum) := by
  refine ⟨?_, ?_, ?_⟩
  · intro n h
    simp [RNode.serialize, h]
  · intro n h
    simp [RNode.verifyChecksum, h]
  · intro src hlen hne
    simp only [makePersistentNodeFromBytes]
    rw [if_neg (by omega), if_pos hne]

/-- C8 witness: a node with the unset zero checksum is refused by
serialize; a concrete 29-byte input with a wrong trailing CRC is
refused by makePersistentNodeFromBytes with ErrInvalidChecksum. -/
theorem checksum_gate_contract_witness :
    RNode.serialize (RNode.mk [1] [2] true false [] 0) = .error .invalidChecksum ∧
    makePersistentNodeFromBytes (List.replicate 25 0 ++ [2, 0, 0, 0]) =
      .error .invalidChecksum := by
  constructor
  · exact checksum_gate_contract.1 _ (checksum_gate_contract.2.1 _ rfl)
  · exact checksum_gate_contract.2.2 _ (by decide) (by decide)

/-! ## The arc tree engine (arc.go).

The arc revision keeps its children in a sorted sibling-linked list
(firstChild/nextSibling), modelled here as a sorted List.  The node
helpers of this revision are not under the sources; where so, they are
modelled from the specification and marked.  The engine itself
(insert, Get, Delete, deleteRootNode, findNodeAndParent, splitNode) is
embedded from arc.go. -/

/-- maxKeyBytes: keys are limited to 65535 bytes. -/
def maxKeyBytes : Nat := 65535

/-- maxValueBytes: values are limited to 2^32 - 1 bytes. -/
def maxValueBytes : Nat := 4294967295

/-- node of the arc revision: path segment, data bytes (inline value
or 32-byte blob id), record and blob flags, and the sorted child list
(the firstChild/nextSibling links of the Go struct, with numChildren
the list length). -/
inductive ANode : Type where
  | mk (key data : List Nat) (isRecord blobValue : Bool) (children : List ANode)
  deriving Repr

instance : Inhabited ANode := ⟨ANode.mk [] [] false false []⟩

def ANode.key : ANode → List Nat
  | .mk k _ _ _ _ => k

def ANode.data : ANode → List Nat
  | .mk _ d _ _ _ => d

def ANode.isRecord : ANode → Bool
  | .mk _ _ r _ _ => r

def ANode.blobValue : ANode → Bool
  | .mk _ _ _ b _ => b

def ANode.children : ANode → List ANode
  | .mk _ _ _ _ cs => cs

theorem ANode.eta_node (n : ANode) :
    ANode.mk n.key n.data n.isRecord n.blobValue n.children = n := by
  cases n
  rfl

/-- node.isLeaf: no children. -/
def ANode.isLeaf (n : ANode) : Bool := n.children.length = 0

/-- node.hasChildren. -/
def ANode.hasChildren (n : ANode) : Bool := 0 < n.children.length

/-- node.findCompatibleChild (node.go): the first child sharing a
non-empty common prefix with the key, here returned as its index. -/
def findCompatIdx : (cs : List ANode) → List Nat → Option (Fin cs.length)
  | [], _ => none
  | c :: cs, k =>
    if lcp c.key k ≠ [] then some ⟨0, by simp⟩
    else (findCompatIdx cs k).map Fin.succ

/-- Modelled from the spec: add_child inserts into the sorted child
list at the position determined by byte-lexicographic comparison of
the child key to the sibling keys (the arc revision's sibling-linked
addChild is not under the sources). -/
def addChild (cs : List ANode) (c : ANode) : List ANode :=
  match cs with
  | [] => [c]
  | x :: xs => if bytesGe x.key c.key then c :: x :: xs else x :: addChild xs c

/-- Modelled from the spec: remove_child removes a sibling by key
equality and reports not-found if absent (the arc revision's
sibling-linked removeChild is not under the sources; its callers
always pass a child that is present). -/
def removeChildByKey (cs : List ANode) (k : List Nat) : Except Err (List ANode) :=
  match cs with
  | [] => .error .keyNotFound
  | x :: xs =>
    if x.key = k then .ok xs
    else (removeChildByKey xs k).map (fun ys => x :: ys)

/-- node.setKey of the arc revision: replace the path segment (the
checksum refresh of the slice revision has no observable effect
here and is not modelled on this node). -/
def ANode.setKey (n : ANode) (k : List Nat) : ANode :=
  ANode.mk k n.data n.isRecord n.blobValue n.children

/-- node.prependKey (node.go): prepend a prefix to the key; a nil or
empty prefix leaves the key unchanged, which coincides with list
append. -/
def ANode.prependKey (n : ANode) (p : List Nat) : ANode :=
  ANode.mk (p ++ n.key) n.data n.isRecord n.blobValue n.children

/-- Modelled from the spec: set_value assigns the record payload --
values of at most 32 bytes stay inline, larger ones go to the blob
store, keyed by their SHA-256 id with the reference count bumped --
releasing the previously held blob id first when one was held, and
marks the node as a record (the arc revision's setValue is not under
the sources; the engine's exact-match overwrite path and its tests
require the record mark and the release of the old id). -/
def ANode.setValue (n : ANode) (bs : BlobStore) (value : List Nat) : ANode × BlobStore :=
  let bs1 := if n.blobValue then bsRelease bs n.data else bs
  if value.length ≤ inlineValueThreshold then
    (ANode.mk n.key value true false n.children, bs1)
  else
    let pr := bsPut bs1 value
    (ANode.mk n.key pr.1 true true n.children, pr.2)

/-- Modelled from the spec: newRecordNode builds a record node with
the given key and assigns the value through set_value (the arc
revision's newRecordNode is not under the sources). -/
def newRecordNode (bs : BlobStore) (key value : List Nat) : ANode × BlobStore :=
  (ANode.mk key [] true false []).setValue bs value

/-- Modelled from the spec: node.value resolves the payload, reading
the blob store for blob-valued nodes and returning the inline bytes
otherwise (the arc revision's value accessor is not under the
sources). -/
def ANode.value (n : ANode) (bs : BlobStore) : List Nat :=
  if n.blobValue then bsGet bs n.data else n.data

/-- Modelled from the spec: deleteValue drops the payload, releasing
the blob reference exactly once when one was held (the arc revision's
deleteValue is not under the sources; the radixdb Delete clears data
and the blob flag the same way). -/
def ANode.deleteValue (n : ANode) (bs : BlobStore) : ANode × BlobStore :=
  let bs1 := if n.blobValue then bsRelease bs n.data else bs
  (ANode.mk n.key [] n.isRecord false n.children, bs1)

theorem ANode.sizeOf_child_lt (cur : ANode) (i : Fin cur.children.length) :
    sizeOf (cur.children.get i) < sizeOf cur := by
  have h1 : sizeOf (cur.children.get i) < sizeOf cur.children :=
    List.sizeOf_lt_of_mem (cur.children.get_mem i.1 i.2)
  have h2 : sizeOf cur.children < sizeOf cur := by
    cases cur with
    | mk k d r b cs =>
      simp only [ANode.children, ANode.mk.sizeOf_spec]
      omega
  exact h1.trans h2

/-- Arc of arc.go: root pointer, node and record counters, and the
owned blob store (the RWMutex has no observable effect in this
sequential model). -/
structure Arc : Type where
  root : Option ANode
  numNodes : Int
  numRecords : Int
  blobs : BlobStore

/-- New: an empty Arc database handler. -/
def Arc.New : Arc := ⟨none, 0, 0, []⟩

/-- Len: the number of records. -/
def Arc.Len (a : Arc) : Int := a.numRecords

/-- Arc.empty: nil root and zero records. -/
def Arc.empty (a : Arc) : Bool := a.root.isNone && a.numRecords == 0

/-- The effect of one non-root insert step on the parent: either the
current child is replaced in place (same key, so the sibling order is
untouched, as for the in-place Go pointer mutation), or the child with
the given old key is removed and the new node added (the
remove/addChild pair of arc.go cases 2 and 3). -/
inductive InsAction : Type where
  | inPlace (n : ANode)
  | reparent (oldKey : List Nat) (n : ANode)

/-- Result of a non-root insert step: the error (none on success), the
action for the parent, the blob store, and the node/record counter
deltas.  Wherever the Go code returns an error it has not mutated
anything, so error results carry the unchanged state. -/
structure InsRes : Type where
  err : Option Err
  act : InsAction
  bs : BlobStore
  dn : Int
  dr : Int

/-- The loop body of Arc.insert (arc.go lines 129-219) for a non-root
current node, turned into structural recursion on the subtree; the
parent applies the returned action.  The Go code calls
parent.removeChild before building the replacement node in cases 2 and
3; the replacement (and its blob put) is built here and the removal is
applied by the caller, which leaves every intermediate error path with
the untouched state and the same final state on success. -/
def insertAt (cur : ANode) (key value : List Nat) (overwrite : Bool) (bs : BlobStore) :
    InsRes :=
  let p := lcp cur.key key
  let pl := p.length
  if pl = cur.key.length ∧ pl = key.length then
    -- Exact match (arc.go lines 133-147).
    if overwrite = false then ⟨some .duplicateKey, .inPlace cur, bs, 0, 0⟩
    else
      let dr : Int := if cur.isRecord then 0 else 1
      let sv := cur.setValue bs value
      ⟨none, .inPlace sv.1, sv.2, 0, dr⟩
  else if pl = key.length ∧ pl < cur.key.length then
    -- Key exhausted above current (arc.go lines 149-179, non-root arm).
    let cur' := cur.setKey (cur.key.drop key.length)
    let nr := newRecordNode bs key value
    ⟨none, .reparent cur.key
      (ANode.mk nr.1.key nr.1.data nr.1.isRecord nr.1.blobValue (addChild nr.1.children cur')),
      nr.2, 1, 1⟩
  else if 0 < pl ∧ pl < cur.key.length then
    -- Partial match: splitNode (arc.go lines 181-185 and 393-428, non-root arm).
    let nr := newRecordNode bs key value
    let cur' := cur.setKey (cur.key.drop pl)
    let nn := nr.1.setKey (key.drop pl)
    ⟨none, .reparent cur.key (ANode.mk p [] false false (addChild (addChild [] cur') nn)),
      nr.2, 2, 1⟩
  else
    let key' := key.drop pl
    match findCompatIdx cur.children key' with
    | none =>
      -- No compatible child: attach a record leaf (arc.go lines 200-211, non-root arm).
      let nr := newRecordNode bs key' value
      ⟨none, .inPlace
        (ANode.mk cur.key cur.data cur.isRecord cur.blobValue (addChild cur.children nr.1)),
        nr.2, 1, 1⟩
    | some i =>
      -- Descend into the compatible child (arc.go lines 214-218).
      let r := insertAt (cur.children.get i) key' value overwrite bs
      match r.act with
      | .inPlace c' =>
        ⟨r.err, .inPlace
          (ANode.mk cur.key cur.data cur.isRecord cur.blobValue (cur.children.set i.1 c')),
          r.bs, r.dn, r.dr⟩
      | .reparent oldKey c' =>
        match removeChildByKey cur.children oldKey with
        | .error e => ⟨some e, .inPlace cur, bs, 0, 0⟩
        | .ok cs =>
          ⟨r.err, .inPlace
            (ANode.mk cur.key cur.data cur.isRecord cur.blobValue (addChild cs c')),
            r.bs, r.dn, r.dr⟩
termination_by sizeOf cur
decreasing_by
  exact ANode.sizeOf_child_lt cur i

/-- The first iteration of the Arc.insert loop, where current is the
root and parent is nil (arc.go lines 126-219).  The counter deltas of
a deeper step are applied on return; on an error they are zero and the
blob store is unchanged, matching the early Go returns. -/
def insertRoot (a : Arc) (root : ANode) (key value : List Nat) (overwrite : Bool) :
    Option Err × Arc :=
  let p := lcp root.key key
  let pl := p.length
  if pl = root.key.length ∧ pl = key.length then
    -- Exact match at the root.
    if overwrite = false then (some .duplicateKey, a)
    else
      let dr : Int := if root.isRecord then 0 else 1
      let sv := root.setValue a.blobs value
      (none, { a with root := some sv.1, numRecords := a.numRecords + dr, blobs := sv.2 })
  else if pl = key.length ∧ pl < root.key.length then
    -- The new key becomes the parent of the root (arc.go lines 156-161).
    let root' := root.setKey (root.key.drop key.length)
    let nr := newRecordNode a.blobs key value
    (none, { a with
      root := some (ANode.mk nr.1.key nr.1.data nr.1.isRecord nr.1.blobValue
        (addChild nr.1.children root')),
      numNodes := a.numNodes + 1, numRecords := a.numRecords + 1, blobs := nr.2 })
  else if 0 < pl ∧ pl < root.key.length then
    -- splitNode with current == a.root (arc.go lines 396-409).
    let nr := newRecordNode a.blobs key value
    let cur' := root.setKey (root.key.drop pl)
    let nn := nr.1.setKey (key.drop pl)
    (none, { a with
      root := some (ANode.mk p [] false false (addChild (addChild [] cur') nn)),
      numNodes := a.numNodes + 2, numRecords := a.numRecords + 1, blobs := nr.2 })
  else
    let key' := key.drop pl
    match findCompatIdx root.children key' with
    | none =>
      -- arc.go lines 200-211, root arm.  The Go guard is
      -- a.root.key == nil || prefixLen == len(a.root.key); a nil root key
      -- forces prefixLen = 0 = len(a.root.key), so the guard is equivalent
      -- to the length test alone.  The counters are incremented outside
      -- the guard, exactly as in the source.
      if pl = root.key.length then
        let nr := newRecordNode a.blobs key' value
        (none, { a with
          root := some (ANode.mk root.key root.data root.isRecord root.blobValue
            (addChild root.children nr.1)),
          numNodes := a.numNodes + 1, numRecords := a.numRecords + 1, blobs := nr.2 })
      else
        (none, { a with numNodes := a.numNodes + 1, numRecords := a.numRecords + 1 })
    | some i =>
      let r := insertAt (root.children.get i) key' value overwrite a.blobs
      match r.act with
      | .inPlace c' =>
        (r.err, { a with
          root := some (ANode.mk root.key root.data root.isRecord root.blobValue
            (root.children.set i.1 c')),
          numNodes := a.numNodes + r.dn, numRecords := a.numRecords + r.dr, blobs := r.bs })
      | .reparent oldKey c' =>
        match removeChildByKey root.children oldKey with
        | .error e => (some e, a)
        | .ok cs =>
          (r.err, { a with
            root := some (ANode.mk root.key root.data root.isRecord root.blobValue
              (addChild cs c')),
            numNodes := a.numNodes + r.dn, numRecords := a.numRecords + r.dr, blobs := r.bs })

/-- Arc.insert (arc.go lines 90-220): validation, the empty-tree case,
the fully-disjoint-root case, and then the descent loop. -/
def Arc.insert (a : Arc) (key : Option (List Nat)) (value : List Nat) (overwrite : Bool) :
    Option Err × Arc :=
  match key with
  | none => (some .nilKey, a)
  | some key =>
    if maxKeyBytes < key.length then (some .keyTooLarge, a)
    else if maxValueBytes < value.length then (some .valueTooLarge, a)
    else if a.empty then
      let nr := newRecordNode a.blobs key value
      (none, { root := some nr.1, numNodes := 1, numRecords := 1, blobs := nr.2 })
    else
      match a.root with
      | none => (some .nilPanic, a)
      | some root =>
        if 0 < root.key.length ∧ lcp root.key key = [] then
          -- Create a common nil-keyed root (arc.go lines 112-124).
          let nr := newRecordNode a.blobs key value
          (none, { a with
            root := some (ANode.mk [] [] false false (addChild (addChild [] root) nr.1)),
            numNodes := a.numNodes + 2, numRecords := a.numRecords + 1, blobs := nr.2 })
        else
          insertRoot a root key value overwrite

/-- Arc.Add: insert without overwrite. -/
def Arc.Add (a : Arc) (key : Option (List Nat)) (value : List Nat) : Option Err × Arc :=
  a.insert key value false

/-- Arc.Put: insert with overwrite. -/
def Arc.Put (a : Arc) (key : Option (List Nat)) (value : List Nat) : Option Err × Arc :=
  a.insert key value true

/-- The loop of findNodeAndParent (arc.go lines 443-477), returning
the discovered node; the isRoot flag disables the no-common-prefix
rejection exactly when current is the root. -/
def findAt (cur : ANode) (key : List Nat) (isRoot : Bool) : Except Err ANode :=
  let p := lcp cur.key key
  if p = [] ∧ isRoot = false then .error .keyNotFound
  else if p.length ≠ cur.key.length then .error .keyNotFound
  else if p.length = key.length then .ok cur
  else if cur.children.length = 0 then .error .keyNotFound
  else
    match findCompatIdx cur.children (key.drop p.length) with
    | none => .error .keyNotFound
    | some i => findAt (cur.children.get i) (key.drop p.length) false
termination_by sizeOf cur
decreasing_by
  exact ANode.sizeOf_child_lt cur i

/-- Arc.Get (arc.go lines 224-243): nil-key check, then
findNodeAndParent (whose empty-tree check yields ErrKeyNotFound), then
the record check and the value resolution. -/
def Arc.Get (a : Arc) (key : Option (List Nat)) : Except Err (List Nat) :=
  match key with
  | none => .error .nilKey
  | some key =>
    if a.empty then .error .keyNotFound
    else
      match a.root with
      | none => .error .nilPanic
      | some root =>
        match findAt root key true with
        | .error e => .error e
        | .ok n => if n.isRecord = false then .error .keyNotFound else .ok (n.value a.blobs)

/-- Result of the fused search-and-delete step below the root: error,
replacement for the current node, blob store, counter deltas. -/
structure DelRes : Type where
  err : Option Err
  cur : ANode
  bs : BlobStore
  dn : Int
  dr : Int

/-- Arc.Delete below the root: the findNodeAndParent descent (arc.go
lines 443-477) fused with the deletion cases that need the parent at
hand (arc.go lines 283-341).  cur is the parent under inspection; the
per-node rejection tests of the search run when its child c is
visited.  The error paths return the untouched state, as the Go code
returns before mutating. -/
def deleteAt (cur : ANode) (key : List Nat) (bs : BlobStore) : DelRes :=
  match findCompatIdx cur.children key with
  | none => ⟨some .keyNotFound, cur, bs, 0, 0⟩
  | some i =>
    let c := cur.children.get i
    let p := lcp c.key key
    if p = [] then ⟨some .keyNotFound, cur, bs, 0, 0⟩
    else if p.length ≠ c.key.length then ⟨some .keyNotFound, cur, bs, 0, 0⟩
    else if p.length = key.length then
      -- Node found: delNode = c, parent = cur (arc.go lines 262-341).
      if c.isRecord = false then ⟨some .keyNotFound, cur, bs, 0, 0⟩
      else if c.children.length = 1 then
        -- Single child inherits the deletion node's key (lines 283-298).
        match removeChildByKey cur.children c.key with
        | .error e => ⟨some e, cur, bs, 0, 0⟩
        | .ok cs =>
          match c.children with
          | child :: _ =>
            let child' := child.prependKey c.key
            ⟨none, ANode.mk cur.key cur.data cur.isRecord cur.blobValue (addChild cs child'),
              bs, -1, -1⟩
          | [] => ⟨some .nilPanic, cur, bs, 0, 0⟩
      else if c.children.length = 0 then
        -- Leaf removal, with the redundant-parent merge (lines 300-332).
        match removeChildByKey cur.children c.key with
        | .error e => ⟨some e, cur, bs, 0, 0⟩
        | .ok cs =>
          if cur.isRecord = false ∧ cs.length = 1 then
            match cs with
            | child :: _ =>
              -- shallowCopyFrom: the parent takes the merged child's
              -- content in place, keeping its slot (lines 313-329).
              let child' := child.prependKey cur.key
              ⟨none, child', bs, -2, -1⟩
            | [] => ⟨some .nilPanic, cur, bs, 0, 0⟩
          else ⟨none, ANode.mk cur.key cur.data cur.isRecord cur.blobValue cs, bs, -1, -1⟩
      else
        -- Internal node with more than one child: demote (lines 334-341).
        let dv := (ANode.mk c.key c.data false c.blobValue c.children).deleteValue bs
        ⟨none, ANode.mk cur.key cur.data cur.isRecord cur.blobValue (cur.children.set i.1 dv.1),
          dv.2, 0, -1⟩
    else if c.children.length = 0 then ⟨some .keyNotFound, cur, bs, 0, 0⟩
    else
      let r := deleteAt c (key.drop p.length) bs
      ⟨r.err, ANode.mk cur.key cur.data cur.isRecord cur.blobValue (cur.children.set i.1 r.cur),
        r.bs, r.dn, r.dr⟩
termination_by sizeOf cur
decreasing_by
  exact ANode.sizeOf_child_lt cur i

/-- deleteRootNode (arc.go lines 344-371): clear the tree for a leaf
root (also resetting the blob store, as clear does), promote a single
child, or demote a multi-child root to a non-record node, releasing
its blob value. -/
def Arc.deleteRootNode (a : Arc) (root : ANode) : Arc :=
  if root.isLeaf then ⟨none, 0, 0, []⟩
  else if root.children.length = 1 then
    match root.children with
    | child :: _ =>
      let child' := child.prependKey root.key
      { a with
        root := some child'
        numNodes := a.numNodes - 1
        numRecords := a.numRecords - 1 }
    | [] => a
  else
    let dv := (ANode.mk root.key root.data false root.blobValue root.children).deleteValue a.blobs
    { a with root := some dv.1, numRecords := a.numRecords - 1, blobs := dv.2 }

/-- Arc.Delete (arc.go lines 245-342): validation in source order (the
empty-tree test precedes the key-size test), then the search, the
root case, and the parent-based cases through deleteAt. -/
def Arc.Delete (a : Arc) (key : Option (List Nat)) : Option Err × Arc :=
  match key with
  | none => (some .nilKey, a)
  | some key =>
    if a.empty then (some .keyNotFound, a)
    else if maxKeyBytes < key.length then (some .keyTooLarge, a)
    else
      match a.root with
      | none => (some .nilPanic, a)
      | some root =>
        -- findNodeAndParent at the root (the no-common-prefix test is
        -- skipped for the root).
        let p := lcp root.key key
        if p.length ≠ root.key.length then (some .keyNotFound, a)
        else if p.length = key.length then
          if root.isRecord = false then (some .keyNotFound, a)
          else (none, a.deleteRootNode root)
        else if root.children.length = 0 then (some .keyNotFound, a)
        else
          let r := deleteAt root (key.drop p.length) a.blobs
          (r.err, { a with
            root := some r.cur
            numNodes := a.numNodes + r.dn
            numRecords := a.numRecords + r.dr
            blobs := r.bs })

/-! ## Structural well-formedness and the record abstraction.

The radix invariants of the spec, as far as the proofs need them: all
child keys are non-empty and sibling keys share no non-empty common
prefix (so at most one child is compatible with any search key). -/

/-- No two listed children share a non-empty common key prefix. -/
def pairwiseDisjoint : List ANode → Bool
  | [] => true
  | c :: cs => (cs.all fun x => lcp c.key x.key = []) && pairwiseDisjoint cs

/-- Structural well-formedness of a subtree: children carry non-empty
pairwise prefix-disjoint keys, recursively. -/
def ANode.wf (n : ANode) : Bool :=
  (n.children.all fun c => !(c.key.isEmpty)) &&
  pairwiseDisjoint n.children &&
  (n.children.attach.all fun c => c.1.wf)
termination_by sizeOf n
decreasing_by
  have h1 : sizeOf c.1 < sizeOf n.children := List.sizeOf_lt_of_mem c.2
  have h2 : sizeOf n.children < sizeOf n := by
    cases n with
    | mk k d r b cs =>
      simp only [ANode.children, ANode.mk.sizeOf_spec]
      omega
  exact h1.trans h2

/-- The full keys of all nodes of a subtree, relative to the parent of
its root (each node's path segment prefixed onto its descendants). -/
def ANode.paths (n : ANode) : List (List Nat) :=
  n.key :: (n.children.attach.flatMap fun c => (c.1.paths).map fun p => n.key ++ p)
termination_by sizeOf n
decreasing_by
  have h1 : sizeOf c.1 < sizeOf n.children := List.sizeOf_lt_of_mem c.2
  have h2 : sizeOf n.children < sizeOf n := by
    cases n with
    | mk k d r b cs =>
      simp only [ANode.children, ANode.mk.sizeOf_spec]
      omega
  exact h1.trans h2

/-- The records of a subtree: full key (relative to the parent of the
subtree root) with the stored payload (data bytes and blob flag). -/
def ANode.recs (n : ANode) : List (List Nat × (List Nat × Bool)) :=
  (if n.isRecord then [(n.key, (n.data, n.blobValue))] else []) ++
  (n.children.attach.flatMap fun c => (c.1.recs).map fun e => (n.key ++ e.1, e.2))
termination_by sizeOf n
decreasing_by
  have h1 : sizeOf c.1 < sizeOf n.children := List.sizeOf_lt_of_mem c.2
  have h2 : sizeOf n.children < sizeOf n := by
    cases n with
    | mk k d r b cs =>
      simp only [ANode.children, ANode.mk.sizeOf_spec]
      omega
  exact h1.trans h2

/-- First-match association lookup. -/
def listLookup {α : Type} : List (List Nat × α) → List Nat → Option α
  | [], _ => none
  | e :: rest, k => if e.1 = k then some e.2 else listLookup rest k

/-- Number of records of the subtree holding the given blob id. -/
def blobRefCount (n : ANode) (id : List Nat) : Nat :=
  ((n.recs).filter fun e => e.2.2 && e.2.1 == id).length

/-- Structural well-formedness of a tree state (enough for the lookup
and insertion arguments): the subtree invariants, and for a nil root
the zero record counter that Arc.empty relies on (in Go the root is
nil exactly when the store is empty). -/
def Arc.wf (a : Arc) : Bool :=
  match a.root with
  | none => a.numRecords == 0
  | some r => r.wf

/-- Full consistency of a tree state: structural well-formedness, the
record counter agreeing with the number of records, and the blob-store
reference counts agreeing with the number of records holding each id
(spec invariants 4-7). -/
def Arc.consistent (a : Arc) : Bool :=
  match a.root with
  | none => a.numRecords == 0
  | some r =>
    r.wf && (a.numRecords == Int.ofNat (r.recs).length) &&
    (a.blobs.all fun e => e.2.2 == Int.ofNat (blobRefCount r e.1)) &&
    ((r.recs).all fun e => !e.2.2 || (bsLookup a.blobs e.2.1).isSome)


/-! ### Properties of longestCommonPrefix -/

theorem lcp_nil_left (b : List Nat) : lcp [] b = [] := by
  cases b <;> rfl

theorem lcp_nil_right (a : List Nat) : lcp a [] = [] := by
  cases a <;> rfl

theorem lcp_comm (a b : List Nat) : lcp a b = lcp b a := by
  induction a generalizing b with
  | nil => simp [lcp_nil_left, lcp_nil_right]
  | cons x xs ih =>
    cases b with
    | nil => rfl
    | cons y ys =>
      simp only [lcp]
      by_cases h : x = y
      · subst h
        simp [ih]
      · rw [if_neg h, if_neg (fun hc => h hc.symm)]

theorem lcp_prefix_left (a b : List Nat) : lcp a b <+: a := by
  induction a generalizing b with
  | nil => simp [lcp_nil_left]
  | cons x xs ih =>
    cases b with
    | nil => simp [lcp_nil_right]
    | cons y ys =>
      simp only [lcp]
      by_cases h : x = y
      · rw [if_pos h]
        obtain ⟨t, ht⟩ := ih ys
        exact ⟨t, by rw [List.cons_append, ht]⟩
      · rw [if_neg h]
        exact List.nil_prefix

theorem lcp_prefix_right (a b : List Nat) : lcp a b <+: b := by
  rw [lcp_comm]
  exact lcp_prefix_left b a

theorem lcp_length_le_left (a b : List Nat) : (lcp a b).length ≤ a.length :=
  (lcp_prefix_left a b).length_le

theorem lcp_length_le_right (a b : List Nat) : (lcp a b).length ≤ b.length :=
  (lcp_prefix_right a b).length_le

theorem lcp_eq_take_left (a b : List Nat) : lcp a b = a.take (lcp a b).length :=
  List.prefix_iff_eq_take.mp (lcp_prefix_left a b)

theorem lcp_eq_take_right (a b : List Nat) : lcp a b = b.take (lcp a b).length :=
  List.prefix_iff_eq_take.mp (lcp_prefix_right a b)

theorem lcp_append (a r : List Nat) : lcp a (a ++ r) = a := by
  induction a with
  | nil => simp [lcp_nil_left]
  | cons x xs ih => simp [lcp, ih]

theorem lcp_of_prefix {a b : List Nat} (h : a <+: b) : lcp a b = a := by
  obtain ⟨t, ht⟩ := h
  rw [← ht, lcp_append]

theorem lcp_shared_prefix (p x y : List Nat) : lcp (p ++ x) (p ++ y) = p ++ lcp x y := by
  induction p with
  | nil => rfl
  | cons c cs ih => simp [lcp, ih]

theorem lcp_drop (a b : List Nat) :
    lcp (a.drop (lcp a b).length) (b.drop (lcp a b).length) = [] := by
  induction a generalizing b with
  | nil => simp [lcp_nil_left]
  | cons x xs ih =>
    cases b with
    | nil => simp [lcp_nil_right, lcp_nil_left]
    | cons y ys =>
      simp only [lcp]
      by_cases h : x = y
      · rw [if_pos h]
        simpa using ih ys
      · rw [if_neg h]
        simpa [lcp] using h

/-! ### Small list and structure helpers -/

theorem list_set_get_self (l : List ANode) :
    ∀ (n : Nat) (h : n < l.length), l.set n (l.get ⟨n, h⟩) = l := by
  induction l with
  | nil => intro n h; simp at h
  | cons x xs ih =>
    intro n h
    cases n with
    | zero => rfl
    | succ m =>
      simp only [List.set, List.get, List.cons.injEq, true_and]
      exact ih m (by simpa using h)

theorem list_set_get_fin (l : List ANode) (i : Fin l.length) :
    l.set i.1 (l.get i) = l :=
  list_set_get_self l i.1 i.2

/-! ### Branch-reduction lemmas for insertAt -/

theorem insertAt_exact_dup (cur : ANode) (key value : List Nat) (bs : BlobStore)
    (h1 : (lcp cur.key key).length = cur.key.length)
    (h2 : (lcp cur.key key).length = key.length) :
    insertAt cur key value false bs = ⟨some .duplicateKey, .inPlace cur, bs, 0, 0⟩ := by
  rw [insertAt.eq_def]
  rw [if_pos (show _ ∧ _ from ⟨h1, h2⟩)]
  rfl

theorem insertAt_exact_over (cur : ANode) (key value : List Nat) (bs : BlobStore)
    (h1 : (lcp cur.key key).length = cur.key.length)
    (h2 : (lcp cur.key key).length = key.length) :
    insertAt cur key value true bs =
      ⟨none, .inPlace (cur.setValue bs value).1, (cur.setValue bs value).2, 0,
        if cur.isRecord then 0 else 1⟩ := by
  rw [insertAt.eq_def]
  rw [if_pos (show _ ∧ _ from ⟨h1, h2⟩)]
  rfl

theorem insertAt_above (cur : ANode) (key value : List Nat) (ow : Bool) (bs : BlobStore)
    (h1 : (lcp cur.key key).length = key.length)
    (h2 : (lcp cur.key key).length < cur.key.length) :
    insertAt cur key value ow bs =
      ⟨none, .reparent cur.key
        (ANode.mk (newRecordNode bs key value).1.key (newRecordNode bs key value).1.data
          (newRecordNode bs key value).1.isRecord (newRecordNode bs key value).1.blobValue
          (addChild (newRecordNode bs key value).1.children
            (cur.setKey (cur.key.drop key.length)))),
        (newRecordNode bs key value).2, 1, 1⟩ := by
  rw [insertAt.eq_def]
  rw [if_neg (show ¬((lcp cur.key key).length = cur.key.length ∧
        (lcp cur.key key).length = key.length) from fun hc => absurd h2 (by omega))]
  rw [if_pos (show _ ∧ _ from ⟨h1, h2⟩)]

theorem insertAt_split (cur : ANode) (key value : List Nat) (ow : Bool) (bs : BlobStore)
    (h0 : ¬((lcp cur.key key).length = key.length))
    (h1 : 0 < (lcp cur.key key).length)
    (h2 : (lcp cur.key key).length < cur.key.length) :
    insertAt cur key value ow bs =
      ⟨none, .reparent cur.key
        (ANode.mk (lcp cur.key key) [] false false
          (addChild (addChild [] (cur.setKey (cur.key.drop (lcp cur.key key).length)))
            ((newRecordNode bs key value).1.setKey (key.drop (lcp cur.key key).length)))),
        (newRecordNode bs key value).2, 2, 1⟩ := by
  rw [insertAt.eq_def]
  rw [if_neg (show ¬((lcp cur.key key).length = cur.key.length ∧
        (lcp cur.key key).length = key.length) from fun hc => h0 hc.2)]
  rw [if_neg (show ¬((lcp cur.key key).length = key.length ∧
        (lcp cur.key key).length < cur.key.length) from fun hc => h0 hc.1)]
  rw [if_pos (show _ ∧ _ from ⟨h1, h2⟩)]

theorem insertAt_attach (cur : ANode) (key value : List Nat) (ow : Bool) (bs : BlobStore)
    (hne1 : ¬((lcp cur.key key).length = cur.key.length ∧ (lcp cur.key key).length = key.length))
    (hne2 : ¬((lcp cur.key key).length = key.length ∧ (lcp cur.key key).length < cur.key.length))
    (hne3 : ¬(0 < (lcp cur.key key).length ∧ (lcp cur.key key).length < cur.key.length))
    (hfind : findCompatIdx cur.children (key.drop (lcp cur.key key).length) = none) :
    insertAt cur key value ow bs =
      ⟨none, .inPlace (ANode.mk cur.key cur.data cur.isRecord cur.blobValue
        (addChild cur.children
          (newRecordNode bs (key.drop (lcp cur.key key).length) value).1)),
        (newRecordNode bs (key.drop (lcp cur.key key).length) value).2, 1, 1⟩ := by
  rw [insertAt.eq_def]
  rw [if_neg hne1, if_neg hne2, if_neg hne3]
  simp only [hfind]

theorem insertAt_descend (cur : ANode) (key value : List Nat) (ow : Bool) (bs : BlobStore)
    (hne1 : ¬((lcp cur.key key).length = cur.key.length ∧ (lcp cur.key key).length = key.length))
    (hne2 : ¬((lcp cur.key key).length = key.length ∧ (lcp cur.key key).length < cur.key.length))
    (hne3 : ¬(0 < (lcp cur.key key).length ∧ (lcp cur.key key).length < cur.key.length))
    (i : Fin cur.children.length)
    (hfind : findCompatIdx cur.children (key.drop (lcp cur.key key).length) = some i) :
    insertAt cur key value ow bs =
      (match (insertAt (cur.children.get i) (key.drop (lcp cur.key key).length) value ow bs).act
        with
      | .inPlace c' =>
        ⟨(insertAt (cur.children.get i) (key.drop (lcp cur.key key).length) value ow bs).err,
          .inPlace (ANode.mk cur.key cur.data cur.isRecord cur.blobValue
            (cur.children.set i.1 c')),
          (insertAt (cur.children.get i) (key.drop (lcp cur.key key).length) value ow bs).bs,
          (insertAt (cur.children.get i) (key.drop (lcp cur.key key).length) value ow bs).dn,
          (insertAt (cur.children.get i) (key.drop (lcp cur.key key).length) value ow bs).dr⟩
      | .reparent oldKey c' =>
        match removeChildByKey cur.children oldKey with
        | .error e => ⟨some e, .inPlace cur, bs, 0, 0⟩
        | .ok cs =>
          ⟨(insertAt (cur.children.get i) (key.drop (lcp cur.key key).length) value ow bs).err,
            .inPlace (ANode.mk cur.key cur.data cur.isRecord cur.blobValue (addChild cs c')),
            (insertAt (cur.children.get i) (key.drop (lcp cur.key key).length) value ow bs).bs,
            (insertAt (cur.children.get i) (key.drop (lcp cur.key key).length) value ow bs).dn,
            (insertAt (cur.children.get i) (key.drop (lcp cur.key key).length) value ow bs).dr⟩) :=
  by
  rw [insertAt.eq_def]
  rw [if_neg hne1, if_neg hne2, if_neg hne3]
  simp only [hfind]

/-- Error returns of the insert step carry the untouched state: the Go
code returns before mutating anything on every error path. -/
theorem insertAt_err (cur : ANode) (key value : List Nat) (ow : Bool) (bs : BlobStore)
    (e : Err) :
    (insertAt cur key value ow bs).err = some e →
    insertAt cur key value ow bs = ⟨some e, .inPlace cur, bs, 0, 0⟩ := by
  induction cur, key, value, ow, bs using insertAt.induct with
  | case1 cur key value bs p pl hc =>
    intro h
    rw [insertAt_exact_dup cur key value bs hc.1 hc.2] at h ⊢
    simp only [Option.some.injEq] at h
    rw [← h]
  | case2 cur key value ow bs p pl hc hov =>
    intro h
    have how : ow = true := by cases ow <;> simp_all
    subst how
    rw [insertAt_exact_over cur key value bs hc.1 hc.2] at h
    simp at h
  | case3 cur key value ow bs p pl hne1 hc =>
    intro h
    rw [insertAt_above cur key value ow bs hc.1 hc.2] at h
    simp at h
  | case4 cur key value ow bs p pl hne1 hne2 hc =>
    intro h
    rw [insertAt_split cur key value ow bs (fun hx => hne2 ⟨hx, hc.2⟩) hc.1 hc.2] at h
    simp at h
  | case5 cur key value ow bs p pl hne1 hne2 hne3 key2 hfind =>
    intro h
    rw [insertAt_attach cur key value ow bs hne1 hne2 hne3 hfind] at h
    simp at h
  | case6 cur key value ow bs p pl hne1 hne2 hne3 key2 i hfind r c hact ih =>
    intro h
    have hact2 : (insertAt (cur.children.get i) (key.drop (lcp cur.key key).length)
        value ow bs).act = InsAction.inPlace c := hact
    have ih2 : (insertAt (cur.children.get i) (key.drop (lcp cur.key key).length)
          value ow bs).err = some e →
        insertAt (cur.children.get i) (key.drop (lcp cur.key key).length) value ow bs =
          ⟨some e, .inPlace (cur.children.get i), bs, 0, 0⟩ := ih
    rw [insertAt_descend cur key value ow bs hne1 hne2 hne3 i hfind] at h ⊢
    simp only [hact2] at h ⊢
    have hr := ih2 h
    have hc2 : c = cur.children.get i := by
      rw [hr] at hact2
      exact (InsAction.inPlace.inj hact2).symm
    rw [hc2, hr]
    simp only
    rw [list_set_get_fin cur.children i, ANode.eta_node]
  | case7 cur key value ow bs p pl hne1 hne2 hne3 key2 i hfind r oldKey c hact e0 hrem ih =>
    intro h
    have hact2 : (insertAt (cur.children.get i) (key.drop (lcp cur.key key).length)
        value ow bs).act = InsAction.reparent oldKey c := hact
    rw [insertAt_descend cur key value ow bs hne1 hne2 hne3 i hfind] at h ⊢
    simp only [hact2, hrem] at h ⊢
    rw [← h]
  | case8 cur key value ow bs p pl hne1 hne2 hne3 key2 i hfind r oldKey c hact cs hrem ih =>
    intro h
    have hact2 : (insertAt (cur.children.get i) (key.drop (lcp cur.key key).length)
        value ow bs).act = InsAction.reparent oldKey c := hact
    have ih2 : (insertAt (cur.children.get i) (key.drop (lcp cur.key key).length)
          value ow bs).err = some e →
        insertAt (cur.children.get i) (key.drop (lcp cur.key key).length) value ow bs =
          ⟨some e, .inPlace (cur.children.get i), bs, 0, 0⟩ := ih
    rw [insertAt_descend cur key value ow bs hne1 hne2 hne3 i hfind] at h
    simp only [hact2, hrem] at h
    have hr := ih2 h
    rw [hr] at hact2
    simp at hact2

/-- Error returns of the root iteration of insert leave the Arc
untouched. -/
theorem insertRoot_err (a : Arc) (root : ANode) (key value : List Nat) (ow : Bool) (e : Err)
    (hroot : a.root = some root) :
    (insertRoot a root key value ow).1 = some e → (insertRoot a root key value ow).2 = a := by
  simp only [insertRoot]
  repeat' split
  all_goals intro h
  all_goals simp only at h ⊢
  all_goals try exact Option.noConfusion h
  · rename_i hne1 hne2 hne3 x1 i hfind x2 c hact
    have hr := insertAt_err _ _ _ _ _ _ h
    rw [hr] at hact
    have hc2 : c = root.children.get i := (InsAction.inPlace.inj hact).symm
    rw [hr, hc2]
    simp only
    rw [list_set_get_fin root.children i, ANode.eta_node]
    cases a with
    | mk r0 nn nr bl =>
      simp only at hroot
      simp [hroot]
  · rename_i hne1 hne2 hne3 x1 i hfind x2 oldKey c hact x3 cs hrem
    have hr := insertAt_err _ _ _ _ _ _ h
    rw [hr] at hact
    exact InsAction.noConfusion hact

/-- Error returns of Arc.insert leave the Arc untouched. -/
theorem insert_err (a : Arc) (key : Option (List Nat)) (value : List Nat) (ow : Bool)
    (e : Err) :
    (Arc.insert a key value ow).1 = some e → (Arc.insert a key value ow).2 = a := by
  cases key with
  | none => intro _; rfl
  | some k =>
    simp only [Arc.insert]
    split
    · intro _; rfl
    · split
      · intro _; rfl
      · split
        · intro h; simp at h
        · cases hroot : a.root with
          | none => intro _; rfl
          | some root =>
            split
            · rename_i heq
              exact absurd heq (by simp)
            · rename_i root1 heq
              obtain rfl : root = root1 := Option.some.inj heq
              split
              · intro h; simp at h
              · exact insertRoot_err a root k value ow e hroot

set_option maxHeartbeats 1000000 in
/-- Error returns of the fused search-and-delete step carry the
untouched state, by strong induction on the subtree size. -/
theorem deleteAt_err_aux : ∀ (n : Nat) (cur : ANode), sizeOf cur ≤ n → ∀ (key : List Nat)
    (bs : BlobStore) (e : Err),
    (deleteAt cur key bs).err = some e → deleteAt cur key bs = ⟨some e, cur, bs, 0, 0⟩ := by
  intro n
  induction n with
  | zero =>
    intro cur hsz
    exfalso
    cases cur with
    | mk k d r b cs =>
      simp only [ANode.mk.sizeOf_spec] at hsz
      omega
  | succ n ih =>
    intro cur hsz key bs e
    rw [deleteAt.eq_def]
    simp only []
    repeat' split
    all_goals intro h
    all_goals simp only at h ⊢
    all_goals try exact Option.noConfusion h
    all_goals try (injection h with h2; subst h2; rfl)
    rename_i x i hfind hp hlen hkey hch
    have hlt : sizeOf (cur.children.get i) ≤ n := by
      have := ANode.sizeOf_child_lt cur i
      omega
    have hr := ih (cur.children.get i) hlt _ bs e h
    rw [hr]
    simp only
    rw [list_set_get_fin cur.children i, ANode.eta_node]

theorem deleteAt_err (cur : ANode) (key : List Nat) (bs : BlobStore) (e : Err) :
    (deleteAt cur key bs).err = some e → deleteAt cur key bs = ⟨some e, cur, bs, 0, 0⟩ :=
  deleteAt_err_aux (sizeOf cur) cur (Nat.le_refl _) key bs e

/-- Error returns of Arc.Delete leave the Arc untouched. -/
theorem delete_err (a : Arc) (key : Option (List Nat)) (e : Err) :
    (Arc.Delete a key).1 = some e → (Arc.Delete a key).2 = a := by
  cases key with
  | none => intro _; rfl
  | some k =>
    simp only [Arc.Delete]
    split
    · intro _; rfl
    · split
      · intro _; rfl
      · cases hroot : a.root with
        | none => intro _; rfl
        | some root =>
          split
          · rename_i heq
            exact absurd heq (by simp)
          · rename_i root1 heq
            obtain rfl : root = root1 := Option.some.inj heq
            split
            · intro _; rfl
            · split
              · split
                · intro _; rfl
                · intro h
                  simp at h
              · split
                · intro _; rfl
                · intro h
                  simp only at h ⊢
                  have hr := deleteAt_err _ _ _ _ h
                  rw [hr]
                  simp only
                  cases a with
                  | mk r0 nn nr bl =>
                    simp only at hroot
                    simp [hroot]

/-- C5: whenever Add, Put or Delete returns an error -- in particular
NilKey, KeyTooLarge, ValueTooLarge, DuplicateKey or KeyNotFound -- the
returned Arc (tree, counters and blob store) is exactly the input Arc,
so the structural invariants of the input still hold on the error
return; Get is a pure reader and never mutates at all. -/
theorem error_returns_leave_arc_unchanged (a : Arc) (k : Option (List Nat))
    (v : List Nat) (e : Err) :
    ((Arc.Add a k v).1 = some e →
      (Arc.Add a k v).2 = a ∧ Arc.consistent (Arc.Add a k v).2 = Arc.consistent a) ∧
    ((Arc.Put a k v).1 = some e →
      (Arc.Put a k v).2 = a ∧ Arc.consistent (Arc.Put a k v).2 = Arc.consistent a) ∧
    ((Arc.Delete a k).1 = some e →
      (Arc.Delete a k).2 = a ∧ Arc.consistent (Arc.Delete a k).2 = Arc.consistent a) := by
  refine ⟨fun h => ?_, fun h => ?_, fun h => ?_⟩
  · have he : (Arc.Add a k v).2 = a := insert_err a k v false e h
    exact ⟨he, by rw [he]⟩
  · have he : (Arc.Put a k v).2 = a := insert_err a k v true e h
    exact ⟨he, by rw [he]⟩
  · have he : (Arc.Delete a k).2 = a := delete_err a k e h
    exact ⟨he, by rw [he]⟩

theorem error_returns_leave_arc_unchanged_witness :
    (Arc.Add Arc.New none []).2 = Arc.New :=
  ((error_returns_leave_arc_unchanged Arc.New none [] .nilKey).1 rfl).1

/-- C4 counterexample: an empty non-nil key is accepted by Put (the
source only tests key == nil), Get performs no key-size check (an
oversized key on the empty tree reports KeyNotFound, not KeyTooLarge),
and Delete reports KeyNotFound before its key-size check on an empty
tree. -/
theorem validation_counterexample :
    (Arc.Put Arc.New (some []) [1]).1 = none ∧
    Arc.Get Arc.New (some (List.replicate 65536 0)) = .error .keyNotFound ∧
    (Arc.Delete Arc.New (some (List.replicate 65536 0))).1 = some .keyNotFound :=
  ⟨rfl, rfl, rfl⟩

/-- C4 (amended): Add, Put, Get and Delete reject a nil key with
NilKey (an empty non-nil key is accepted); Add and Put reject keys
over 65535 bytes with KeyTooLarge and then values over 2^32-1 bytes
with ValueTooLarge; Delete rejects oversized keys only on a non-empty
tree, and Get has no key-size check. -/
theorem key_value_validation_contract (a : Arc) (k kBig v vBig : List Nat)
    (hkBig : maxKeyBytes < kBig.length)
    (hk : k.length ≤ maxKeyBytes)
    (hvBig : maxValueBytes < vBig.length)
    (hne : a.empty = false) :
    (Arc.Add a none v).1 = some .nilKey ∧
    (Arc.Put a none v).1 = some .nilKey ∧
    Arc.Get a none = .error .nilKey ∧
    (Arc.Delete a none).1 = some .nilKey ∧
    (Arc.Add a (some kBig) v).1 = some .keyTooLarge ∧
    (Arc.Put a (some kBig) v).1 = some .keyTooLarge ∧
    (Arc.Delete a (some kBig)).1 = some .keyTooLarge ∧
    (Arc.Add a (some k) vBig).1 = some .valueTooLarge ∧
    (Arc.Put a (some k) vBig).1 = some .valueTooLarge := by
  have hnk : ¬(maxKeyBytes < k.length) := by omega
  have hno : ¬(a.empty = true) := by
    rw [hne]
    exact Bool.false_ne_true
  refine ⟨rfl, rfl, rfl, rfl, ?_, ?_, ?_, ?_, ?_⟩
  · simp only [Arc.Add, Arc.insert]
    rw [if_pos hkBig]
  · simp only [Arc.Put, Arc.insert]
    rw [if_pos hkBig]
  · simp only [Arc.Delete]
    rw [if_neg hno, if_pos hkBig]
  · simp only [Arc.Add, Arc.insert]
    rw [if_neg hnk, if_pos hvBig]
  · simp only [Arc.Put, Arc.insert]
    rw [if_neg hnk, if_pos hvBig]

theorem key_value_validation_contract_witness :
    (Arc.Delete (Arc.Put Arc.New (some [1]) [2]).2 (some (List.replicate 65536 0))).1 =
      some .keyTooLarge := by
  have h := key_value_validation_contract (Arc.Put Arc.New (some [1]) [2]).2
    [1] (List.replicate 65536 0) [] (List.replicate 4294967296 0)
    (by simp only [List.length_replicate, maxKeyBytes]; omega)
    (by decide)
    (by simp only [List.length_replicate, maxValueBytes]; omega)
    (by decide)
  exact h.2.2.2.2.2.2.1

/-! ### Value resolution through the blob store.

The deduplicating store is correct only up to hash consistency:
HashOK states that every entry stored under the id sha256 v holds v
itself, the working assumption of content-addressed storage. -/

/-- Every store entry carrying the id of v holds v. -/
def HashOK (bs : BlobStore) (v : List Nat) : Prop :=
  ∀ e ∈ bs, e.1 = sha256 v → e.2.1 = v

theorem mem_bsSetRC_value {bs : BlobStore} {id : List Nat} {rc : Int}
    {e : List Nat × List Nat × Int} (h : e ∈ bsSetRC bs id rc) :
    ∃ rc0, (e.1, e.2.1, rc0) ∈ bs := by
  induction bs with
  | nil => simp [bsSetRC] at h
  | cons x rest ih =>
    obtain ⟨i, v, rc1⟩ := x
    by_cases hi : i = id
    · simp only [bsSetRC, if_pos hi] at h
      rcases List.mem_cons.mp h with h2 | h2
      · exact ⟨rc1, by simp [h2]⟩
      · exact ⟨e.2.2, by simp [List.mem_cons_of_mem, h2]⟩
    · simp only [bsSetRC, if_neg hi] at h
      rcases List.mem_cons.mp h with h2 | h2
      · exact ⟨rc1, by simp [h2]⟩
      · obtain ⟨rc0, h3⟩ := ih h2
        exact ⟨rc0, List.mem_cons_of_mem _ h3⟩

theorem HashOK_release {bs : BlobStore} {v : List Nat} (h : HashOK bs v) (id : List Nat) :
    HashOK (bsRelease bs id) v := by
  intro e he hid
  simp only [bsRelease] at he
  split at he
  · exact h e he hid
  · split at he
    · exact h e he hid
    · split at he
      all_goals split at he
      · exact h e (mem_bsEraseKey he) hid
      · obtain ⟨rc0, h3⟩ := mem_bsSetRC_value he
        have := h (e.1, e.2.1, rc0) h3 hid
        simpa using this
      · exact h e (mem_bsEraseKey he) hid
      · obtain ⟨rc0, h3⟩ := mem_bsSetRC_value he
        have := h (e.1, e.2.1, rc0) h3 hid
        simpa using this

theorem bsGet_put {bs : BlobStore} {v : List Nat} (h : HashOK bs v) :
    bsGet (bsPut bs v).2 (bsPut bs v).1 = v := by
  unfold bsPut bsGet
  simp only
  cases hl : bsLookup bs (sha256 v) with
  | none =>
    simp only
    rw [if_neg (by simp [sha256_length, blobIDLen])]
    rw [bsLookup_append_of_none hl]
    simp
  | some p =>
    obtain ⟨w, rc⟩ := p
    simp only
    rw [if_neg (by simp [sha256_length, blobIDLen])]
    rw [bsLookup_incr hl]
    exact h (sha256 v, w, rc) (bsLookup_mem hl) rfl

theorem setValue_key (n : ANode) (bs : BlobStore) (v : List Nat) :
    (n.setValue bs v).1.key = n.key := by
  unfold ANode.setValue
  split <;> split <;> rfl

theorem setValue_isRecord (n : ANode) (bs : BlobStore) (v : List Nat) :
    (n.setValue bs v).1.isRecord = true := by
  unfold ANode.setValue
  split <;> split <;> rfl

theorem setValue_children (n : ANode) (bs : BlobStore) (v : List Nat) :
    (n.setValue bs v).1.children = n.children := by
  unfold ANode.setValue
  split <;> split <;> rfl

/-- The node produced by set_value resolves to the assigned value in
the returned store, under hash consistency. -/
theorem setValue_value (n : ANode) (bs : BlobStore) (v : List Nat) (h : HashOK bs v) :
    (n.setValue bs v).1.value (n.setValue bs v).2 = v := by
  have hb1 : HashOK (if n.blobValue then bsRelease bs n.data else bs) v := by
    by_cases hb : n.blobValue
    · rw [if_pos hb]
      exact HashOK_release h n.data
    · rw [if_neg hb]
      exact h
  unfold ANode.setValue
  simp only []
  by_cases hil : v.length ≤ inlineValueThreshold
  · rw [if_pos hil]
    rfl
  · rw [if_neg hil]
    show bsGet (bsPut (if n.blobValue = true then bsRelease bs n.data else bs) v).2
        (bsPut (if n.blobValue = true then bsRelease bs n.data else bs) v).1 = v
    exact bsGet_put hb1

theorem newRecordNode_key (bs : BlobStore) (k v : List Nat) :
    (newRecordNode bs k v).1.key = k := by
  unfold newRecordNode
  rw [setValue_key]
  rfl

theorem newRecordNode_isRecord (bs : BlobStore) (k v : List Nat) :
    (newRecordNode bs k v).1.isRecord = true := by
  unfold newRecordNode
  rw [setValue_isRecord]

theorem newRecordNode_children (bs : BlobStore) (k v : List Nat) :
    (newRecordNode bs k v).1.children = [] := by
  unfold newRecordNode
  rw [setValue_children]
  rfl

theorem newRecordNode_value (bs : BlobStore) (k v : List Nat) (h : HashOK bs v) :
    (newRecordNode bs k v).1.value (newRecordNode bs k v).2 = v := by
  unfold newRecordNode
  exact setValue_value _ bs v h

theorem lcp_ne_nil_iff (a b : List Nat) :
    lcp a b ≠ [] ↔ ∃ x t1 t2, a = x :: t1 ∧ b = x :: t2 := by
  constructor
  · intro h
    cases a with
    | nil => exact absurd (lcp_nil_left b) h
    | cons x xs =>
      cases b with
      | nil => exact absurd (lcp_nil_right _) h
      | cons y ys =>
        by_cases hxy : x = y
        · exact ⟨x, xs, ys, rfl, by rw [hxy]⟩
        · exfalso
          apply h
          simp [lcp, hxy]
  · rintro ⟨x, t1, t2, rfl, rfl⟩
    simp [lcp]

theorem lcp_trans_ne {a b c : List Nat} (hac : lcp a c ≠ []) (hbc : lcp b c ≠ []) :
    lcp a b ≠ [] := by
  obtain ⟨x, t1, t2, rfl, rfl⟩ := (lcp_ne_nil_iff a c).mp hac
  obtain ⟨y, s1, s2, hb, hc⟩ := (lcp_ne_nil_iff b _).mp hbc
  obtain rfl : y = x := by
    have := hc
    simp at this
    exact this.1.symm
  rw [hb]
  simp [lcp]

theorem addChild_length (cs : List ANode) (c : ANode) :
    (addChild cs c).length = cs.length + 1 := by
  induction cs with
  | nil => rfl
  | cons x xs ih =>
    unfold addChild
    split
    · rfl
    · simpa using ih

theorem findCompatIdx_some {cs : List ANode} {k : List Nat} {i : Fin cs.length}
    (h : findCompatIdx cs k = some i) : lcp (cs.get i).key k ≠ [] := by
  induction cs with
  | nil => simp [findCompatIdx] at h
  | cons c rest ih =>
    unfold findCompatIdx at h
    split at h
    · rename_i hc
      obtain rfl : i = (⟨0, by simp⟩ : Fin (c :: rest).length) := (Option.some.inj h).symm
      exact hc
    · rename_i hc
      cases hrest : findCompatIdx rest k with
      | none => rw [hrest] at h; simp at h
      | some j =>
        rw [hrest] at h
        have h2 : j.succ = i := by simpa using h
        subst h2
        exact ih hrest

theorem findCompatIdx_none {cs : List ANode} {k : List Nat}
    (h : findCompatIdx cs k = none) : ∀ x ∈ cs, lcp x.key k = [] := by
  induction cs with
  | nil => intro x hx; simp at hx
  | cons c rest ih =>
    unfold findCompatIdx at h
    split at h
    · simp at h
    · rename_i hc
      cases hrest : findCompatIdx rest k with
      | none =>
        intro x hx
        rcases List.mem_cons.mp hx with rfl | hx2
        · exact Decidable.not_not.mp hc
        · exact ih hrest x hx2
      | some j => rw [hrest] at h; simp at h

/-- Under sibling prefix-disjointness, every sibling other than the
one found by findCompatibleChild is incompatible with the key. -/
theorem findCompatIdx_eraseIdx {cs : List ANode} {k : List Nat} {i : Fin cs.length}
    (hd : pairwiseDisjoint cs = true) (h : findCompatIdx cs k = some i) :
    ∀ x ∈ cs.eraseIdx i.1, lcp x.key k = [] := by
  induction cs with
  | nil => simp [findCompatIdx] at h
  | cons c rest ih =>
    simp only [pairwiseDisjoint, Bool.and_eq_true, List.all_eq_true] at hd
    unfold findCompatIdx at h
    split at h
    · rename_i hc
      obtain rfl : i = (⟨0, by simp⟩ : Fin (c :: rest).length) := (Option.some.inj h).symm
      intro x hx
      simp only [List.eraseIdx] at hx
      by_contra hxc
      have h1 : lcp c.key x.key = [] := by simpa using hd.1 x hx
      have h2 : lcp x.key c.key ≠ [] := lcp_trans_ne hxc hc
      rw [lcp_comm] at h2
      exact h2 h1
    · rename_i hc
      cases hrest : findCompatIdx rest k with
      | none => rw [hrest] at h; simp at h
      | some j =>
        rw [hrest] at h
        have h2 : j.succ = i := by simpa using h
        subst h2
        intro x hx
        simp only [Fin.val_succ, List.eraseIdx] at hx
        rcases List.mem_cons.mp hx with rfl | hx2
        · exact Decidable.not_not.mp hc
        · exact ih hd.2 hrest x hx2

/-- Adding a compatible child among incompatible siblings: the search
finds exactly the added child. -/
theorem findCompatIdx_addChild {cs : List ANode} {c : ANode} {k : List Nat}
    (hall : ∀ x ∈ cs, lcp x.key k = []) (hc : lcp c.key k ≠ []) :
    ∃ j : Fin (addChild cs c).length,
      findCompatIdx (addChild cs c) k = some j ∧ (addChild cs c).get j = c := by
  induction cs with
  | nil =>
    refine ⟨⟨0, by simp [addChild]⟩, ?_, rfl⟩
    show findCompatIdx [c] k = _
    simp only [findCompatIdx]
    rw [if_pos hc]
  | cons x xs ih =>
    have hx : lcp x.key k = [] := hall x (by simp)
    simp only [addChild]
    by_cases hge : bytesGe x.key c.key = true
    · rw [if_pos hge]
      refine ⟨⟨0, by simp⟩, ?_, rfl⟩
      simp only [findCompatIdx]
      rw [if_pos hc]
    · rw [if_neg hge]
      obtain ⟨j, hj1, hj2⟩ := ih (fun y hy => hall y (List.mem_cons_of_mem _ hy))
      refine ⟨j.succ, ?_, hj2⟩
      simp only [findCompatIdx]
      rw [if_neg (Decidable.not_not.mpr hx), hj1]
      rfl

/-- Replacing the found child by one with the same key: the search
finds the replacement. -/
theorem findCompatIdx_set {cs : List ANode} {k : List Nat} {i : Fin cs.length} {c : ANode}
    (hkey : c.key = (cs.get i).key) (h : findCompatIdx cs k = some i) :
    ∃ j : Fin (cs.set i.1 c).length,
      findCompatIdx (cs.set i.1 c) k = some j ∧ (cs.set i.1 c).get j = c := by
  induction cs with
  | nil => simp [findCompatIdx] at h
  | cons x xs ih =>
    unfold findCompatIdx at h
    split at h
    · rename_i hc
      obtain rfl : i = (⟨0, by simp⟩ : Fin (x :: xs).length) := (Option.some.inj h).symm
      refine ⟨⟨0, by simp⟩, ?_, rfl⟩
      show findCompatIdx (c :: xs) k = _
      simp only [findCompatIdx]
      rw [if_pos (by rw [show c.key = x.key from hkey]; exact hc)]
    · rename_i hc
      cases hrest : findCompatIdx xs k with
      | none => rw [hrest] at h; simp at h
      | some j =>
        rw [hrest] at h
        have h2 : j.succ = i := by simpa using h
        subst h2
        obtain ⟨j2, hj1, hj2⟩ := ih (by simpa using hkey) hrest
        refine ⟨j2.succ, ?_, hj2⟩
        show findCompatIdx (x :: xs.set j.1 c) k = some j2.succ
        simp only [findCompatIdx]
        rw [if_neg hc, hj1]
        rfl

theorem pairwiseDisjoint_get : ∀ (cs : List ANode), pairwiseDisjoint cs = true →
    ∀ (i j : Nat) (hi : i < cs.length) (hj : j < cs.length), j < i →
    lcp (cs.get ⟨j, hj⟩).key (cs.get ⟨i, hi⟩).key = [] := by
  intro cs
  induction cs with
  | nil =>
    intro _ i j hi
    simp at hi
  | cons c rest ih =>
    intro hd i j hi hj hlt
    simp only [pairwiseDisjoint, Bool.and_eq_true, List.all_eq_true] at hd
    cases j with
    | zero =>
      cases i with
      | zero => omega
      | succ m =>
        have hmem : (rest.get ⟨m, by simpa using hi⟩) ∈ rest := List.get_mem _ _ _
        have := hd.1 _ hmem
        simpa using this
    | succ mj =>
      cases i with
      | zero => omega
      | succ mi =>
        exact ih hd.2 mi mj (by simpa using hi) (by simpa using hj) (by omega)

theorem wf_child {n : ANode} (h : n.wf = true) (i : Fin n.children.length) :
    (n.children.get i).wf = true := by
  unfold ANode.wf at h
  simp only [Bool.and_eq_true, List.all_eq_true] at h
  exact h.2 ⟨n.children.get i, List.get_mem n.children i.1 i.2⟩ (List.mem_attach _ _)

theorem wf_disjoint {n : ANode} (h : n.wf = true) :
    pairwiseDisjoint n.children = true := by
  unfold ANode.wf at h
  simp only [Bool.and_eq_true, List.all_eq_true] at h
  exact h.1.2

theorem wf_child_key {n : ANode} (h : n.wf = true) (i : Fin n.children.length) :
    (n.children.get i).key ≠ [] := by
  unfold ANode.wf at h
  simp only [Bool.and_eq_true, List.all_eq_true] at h
  have := h.1.1 (n.children.get i) (List.get_mem n.children i.1 i.2)
  simpa using this

theorem removeChildByKey_eraseIdx : ∀ (cs : List ANode) (i : Nat) (h : i < cs.length),
    (∀ (j : Nat) (hj : j < cs.length), j < i → (cs.get ⟨j, hj⟩).key ≠ (cs.get ⟨i, h⟩).key) →
    removeChildByKey cs ((cs.get ⟨i, h⟩).key) = .ok (cs.eraseIdx i) := by
  intro cs
  induction cs with
  | nil =>
    intro i h
    simp at h
  | cons x xs ih =>
    intro i h hne
    cases i with
    | zero =>
      simp [removeChildByKey, List.eraseIdx]
    | succ m =>
      have hx : x.key ≠ ((x :: xs).get ⟨m + 1, h⟩).key := hne 0 (by simp) (by omega)
      simp only [removeChildByKey]
      rw [if_neg hx]
      have hrec := ih m (by simpa using h)
        (fun j hj hlt => hne (j + 1) (by simpa using hj) (by omega))
      rw [show ((x :: xs).get ⟨m + 1, h⟩) = xs.get ⟨m, by simpa using h⟩ from rfl]
      rw [hrec]
      rfl

/-- The searched record property: the search from n with the given
remaining key succeeds with a record node resolving to v. -/
def FindsV (n : ANode) (k : List Nat) (bs : BlobStore) (v : List Nat) : Prop :=
  ∃ m, findAt n k false = .ok m ∧ m.isRecord = true ∧ m.value bs = v

theorem value_mk (k d : List Nat) (r b : Bool) (cs : List ANode) (bs : BlobStore) :
    (ANode.mk k d r b cs).value bs = if b = true then bsGet bs d else d := rfl

theorem findAt_found (n : ANode) (k : List Nat) (isRoot : Bool)
    (h0 : ¬(lcp n.key k = [] ∧ isRoot = false))
    (h1 : (lcp n.key k).length = n.key.length)
    (h2 : (lcp n.key k).length = k.length) :
    findAt n k isRoot = .ok n := by
  rw [findAt.eq_def]
  rw [if_neg h0, if_neg (by omega), if_pos h2]

theorem findAt_step (n : ANode) (k : List Nat) (isRoot : Bool)
    (h0 : ¬(lcp n.key k = [] ∧ isRoot = false))
    (h1 : (lcp n.key k).length = n.key.length)
    (h2 : (lcp n.key k).length ≠ k.length)
    (hch : ¬(n.children.length = 0))
    (i : Fin n.children.length)
    (hfind : findCompatIdx n.children (k.drop (lcp n.key k).length) = some i) :
    findAt n k isRoot = findAt (n.children.get i) (k.drop (lcp n.key k).length) false := by
  rw [findAt.eq_def]
  rw [if_neg h0, if_neg (by omega), if_neg h2, if_neg hch]
  simp only [hfind]

theorem FindsV_self {n : ANode} {k : List Nat} {bs : BlobStore} {v : List Nat}
    (hpc : lcp n.key k ≠ []) (h1 : (lcp n.key k).length = n.key.length)
    (h2 : (lcp n.key k).length = k.length) (hrec : n.isRecord = true)
    (hval : n.value bs = v) : FindsV n k bs v :=
  ⟨n, findAt_found n k false (fun hc => hpc hc.1) h1 h2, hrec, hval⟩

theorem FindsV_key_eq {n : ANode} {k : List Nat} {bs : BlobStore} {v : List Nat}
    (hkey : n.key = k) (hk : k ≠ []) (hrec : n.isRecord = true) (hval : n.value bs = v) :
    FindsV n k bs v := by
  refine FindsV_self ?_ ?_ ?_ hrec hval
  · rw [hkey, lcp_self]
    exact hk
  · rw [hkey, lcp_self]
  · rw [hkey, lcp_self]

theorem FindsV_step {n : ANode} {k : List Nat} {bs : BlobStore} {v : List Nat}
    (h1 : (lcp n.key k).length = n.key.length)
    (h2 : (lcp n.key k).length ≠ k.length)
    (hpc : lcp n.key k ≠ [])
    (i : Fin n.children.length)
    (hfind : findCompatIdx n.children (k.drop (lcp n.key k).length) = some i)
    (hrec : FindsV (n.children.get i) (k.drop (lcp n.key k).length) bs v) :
    FindsV n k bs v := by
  obtain ⟨m, hm1, hm2, hm3⟩ := hrec
  refine ⟨m, ?_, hm2, hm3⟩
  rw [findAt_step n k false (fun hc => hpc hc.1) h1 h2
    (by have := i.2; omega) i hfind]
  exact hm1

theorem value_congr {m n : ANode} (bs : BlobStore) (hd : m.data = n.data)
    (hb : m.blobValue = n.blobValue) : m.value bs = n.value bs := by
  unfold ANode.value
  rw [hd, hb]

set_option maxHeartbeats 1000000 in
/-- After a successful overwrite-insert below the root of a
well-formed subtree, the search finds a record resolving to the
inserted value (hash consistency of the store assumed). -/
theorem insertAt_finds : ∀ (cur : ANode) (key value : List Nat) (ow : Bool) (bs : BlobStore),
    ow = true → cur.wf = true → HashOK bs value → key ≠ [] → lcp cur.key key ≠ [] →
    (insertAt cur key value ow bs).err = none ∧
    (∀ c2, (insertAt cur key value ow bs).act = .inPlace c2 →
      c2.key = cur.key ∧ FindsV c2 key (insertAt cur key value ow bs).bs value) ∧
    (∀ old c2, (insertAt cur key value ow bs).act = .reparent old c2 →
      old = cur.key ∧ lcp c2.key key ≠ [] ∧
      FindsV c2 key (insertAt cur key value ow bs).bs value) := by
  intro cur key value ow bs
  induction cur, key, value, ow, bs using insertAt.induct with
  | case1 cur key value bs p pl hc =>
    intro how
    exact absurd how (by simp)
  | case2 cur key value ow bs p pl hc hov =>
    intro how hwf hok hk hcompat
    subst how
    rw [insertAt_exact_over cur key value bs hc.1 hc.2]
    refine ⟨rfl, ?_, ?_⟩
    · intro c2 hact
      simp only at hact
      obtain rfl : c2 = (cur.setValue bs value).1 := (InsAction.inPlace.inj hact).symm
      refine ⟨setValue_key cur bs value, ?_⟩
      refine FindsV_self ?_ ?_ ?_ (setValue_isRecord cur bs value)
        (setValue_value cur bs value hok)
      · rw [setValue_key]
        exact hcompat
      · rw [setValue_key]
        exact hc.1
      · rw [setValue_key]
        exact hc.2
    · intro old c2 hact
      simp at hact
  | case3 cur key value ow bs p pl hne1 hc =>
    intro how hwf hok hk hcompat
    subst how
    rw [insertAt_above cur key value true bs hc.1 hc.2]
    refine ⟨rfl, ?_, ?_⟩
    · intro c2 hact
      simp at hact
    · intro old c2 hact
      simp only at hact
      obtain ⟨hold, hc2⟩ := InsAction.reparent.inj hact
      have hkey : c2.key = key := by
        rw [← hc2]
        show (newRecordNode bs key value).1.key = key
        exact newRecordNode_key bs key value
      refine ⟨hold.symm, ?_, ?_⟩
      · rw [hkey, lcp_self]
        exact hk
      · refine FindsV_key_eq hkey hk ?_ ?_
        · rw [← hc2]
          show (newRecordNode bs key value).1.isRecord = true
          exact newRecordNode_isRecord bs key value
        · rw [← hc2]
          refine (value_congr _ rfl rfl).trans ?_
          exact newRecordNode_value bs key value hok
  | case4 cur key value ow bs p pl hne1 hne2 hc =>
    intro how hwf hok hk hcompat
    subst how
    have h0 : ¬((lcp cur.key key).length = key.length) := fun hx => hne2 ⟨hx, hc.2⟩
    have hklt : (lcp cur.key key).length < key.length := by
      have := lcp_length_le_right cur.key key
      omega
    have hdk : key.drop (lcp cur.key key).length ≠ [] := by
      intro hx
      have hlen := congrArg List.length hx
      rw [List.length_drop] at hlen
      simp at hlen
      omega
    have hpne : lcp cur.key key ≠ [] := hcompat
    have hlcp : lcp (lcp cur.key key) key = lcp cur.key key :=
      lcp_of_prefix (lcp_prefix_right cur.key key)
    rw [insertAt_split cur key value true bs h0 hc.1 hc.2]
    refine ⟨rfl, ?_, ?_⟩
    · intro c2 hact
      simp at hact
    · intro old c2 hact
      simp only at hact
      obtain ⟨hold, hc2⟩ := InsAction.reparent.inj hact
      refine ⟨hold.symm, ?_, ?_⟩
      · rw [← hc2]
        show lcp (lcp cur.key key) key ≠ []
        rw [hlcp]
        exact hpne
      · rw [← hc2]
        have hall : ∀ x ∈ addChild [] (cur.setKey (cur.key.drop (lcp cur.key key).length)),
            lcp x.key (key.drop (lcp cur.key key).length) = [] := by
          intro x hx
          have hx2 : x = cur.setKey (cur.key.drop (lcp cur.key key).length) := by
            simpa [addChild] using hx
          rw [hx2]
          show lcp (cur.key.drop (lcp cur.key key).length)
            (key.drop (lcp cur.key key).length) = []
          exact lcp_drop cur.key key
        have hcn : lcp ((newRecordNode bs key value).1.setKey
            (key.drop (lcp cur.key key).length)).key
            (key.drop (lcp cur.key key).length) ≠ [] := by
          show lcp (key.drop (lcp cur.key key).length) (key.drop (lcp cur.key key).length) ≠ []
          rw [lcp_self]
          exact hdk
        obtain ⟨j, hj1, hj2⟩ := findCompatIdx_addChild hall hcn
        refine FindsV_step ?_ ?_ ?_ j ?_ ?_
        · show (lcp (lcp cur.key key) key).length = (lcp cur.key key).length
          rw [hlcp]
        · show ¬(lcp (lcp cur.key key) key).length = key.length
          rw [hlcp]
          exact h0
        · show lcp (lcp cur.key key) key ≠ []
          rw [hlcp]
          exact hpne
        · show findCompatIdx
            (addChild (addChild [] (cur.setKey (cur.key.drop (lcp cur.key key).length)))
              ((newRecordNode bs key value).1.setKey (key.drop (lcp cur.key key).length)))
            (key.drop (lcp (lcp cur.key key) key).length) = some j
          rw [hlcp]
          exact hj1
        · have hres : FindsV ((addChild (addChild []
              (cur.setKey (cur.key.drop (lcp cur.key key).length)))
              ((newRecordNode bs key value).1.setKey
                (key.drop (lcp cur.key key).length))).get j)
              (key.drop (lcp cur.key key).length) (newRecordNode bs key value).2 value := by
            rw [hj2]
            refine FindsV_key_eq rfl hdk ?_ ?_
            · show (newRecordNode bs key value).1.isRecord = true
              exact newRecordNode_isRecord bs key value
            · refine (value_congr _ rfl rfl).trans ?_
              exact newRecordNode_value bs key value hok
          show FindsV _ (key.drop (lcp (lcp cur.key key) key).length) _ value
          rw [hlcp]
          exact hres
  | case5 cur key value ow bs p pl hne1 hne2 hne3 key2 hfind =>
    intro how hwf hok hk hcompat
    subst how
    have hpp : p.length = (lcp cur.key key).length := rfl
    have hpl : 0 < (lcp cur.key key).length := List.length_pos.mpr hcompat
    have h1 : (lcp cur.key key).length = cur.key.length := by
      have hle := lcp_length_le_left cur.key key
      by_contra hne
      exact hne3 ⟨hpl, by omega⟩
    have h2 : (lcp cur.key key).length ≠ key.length := fun hx => hne1 ⟨h1, hx⟩
    have hklt : (lcp cur.key key).length < key.length := by
      have := lcp_length_le_right cur.key key
      omega
    have hdk : key.drop (lcp cur.key key).length ≠ [] := by
      intro hx
      have hlen := congrArg List.length hx
      rw [List.length_drop] at hlen
      simp at hlen
      omega
    have hfind2 : findCompatIdx cur.children (key.drop (lcp cur.key key).length) = none :=
      hfind
    rw [insertAt_attach cur key value true bs hne1 hne2 hne3 hfind2]
    refine ⟨rfl, ?_, ?_⟩
    · intro c2 hact
      simp only at hact
      obtain rfl : c2 = ANode.mk cur.key cur.data cur.isRecord cur.blobValue
          (addChild cur.children
            (newRecordNode bs (key.drop (lcp cur.key key).length) value).1) :=
        (InsAction.inPlace.inj hact).symm
      refine ⟨rfl, ?_⟩
      have hcn : lcp (newRecordNode bs (key.drop (lcp cur.key key).length) value).1.key
          (key.drop (lcp cur.key key).length) ≠ [] := by
        rw [newRecordNode_key, lcp_self]
        exact hdk
      obtain ⟨j, hj1, hj2⟩ := findCompatIdx_addChild (findCompatIdx_none hfind2) hcn
      refine FindsV_step h1 h2 hcompat j hj1 ?_
      show FindsV ((addChild cur.children
          (newRecordNode bs (key.drop (lcp cur.key key).length) value).1).get j)
        (key.drop (lcp cur.key key).length) _ value
      rw [hj2]
      exact FindsV_key_eq (newRecordNode_key bs _ value) hdk
        (newRecordNode_isRecord bs _ value) (newRecordNode_value bs _ value hok)
    · intro old c2 hact
      simp at hact
  | case6 cur key value ow bs p pl hne1 hne2 hne3 key2 i hfind r c hact ih =>
    intro how hwf hok hk hcompat
    subst how
    have hpp : p.length = (lcp cur.key key).length := rfl
    have hpl : 0 < (lcp cur.key key).length := List.length_pos.mpr hcompat
    have h1 : (lcp cur.key key).length = cur.key.length := by
      have hle := lcp_length_le_left cur.key key
      by_contra hne
      exact hne3 ⟨hpl, by omega⟩
    have h2 : (lcp cur.key key).length ≠ key.length := fun hx => hne1 ⟨h1, hx⟩
    have hklt : (lcp cur.key key).length < key.length := by
      have := lcp_length_le_right cur.key key
      omega
    have hdk : key.drop (lcp cur.key key).length ≠ [] := by
      intro hx
      have hlen := congrArg List.length hx
      rw [List.length_drop] at hlen
      simp at hlen
      omega
    have hfind2 : findCompatIdx cur.children (key.drop (lcp cur.key key).length) = some i :=
      hfind
    have hcompat2 : lcp (cur.children.get i).key (key.drop (lcp cur.key key).length) ≠ [] :=
      findCompatIdx_some hfind2
    have hact2 : (insertAt (cur.children.get i) (key.drop (lcp cur.key key).length)
        value true bs).act = .inPlace c := hact
    have ihr := ih rfl (wf_child hwf i) hok hdk hcompat2
    obtain ⟨ihe, ihP, ihR⟩ := ihr
    obtain ⟨hckey, hcfind⟩ := ihP c hact2
    rw [insertAt_descend cur key value true bs hne1 hne2 hne3 i hfind2]
    simp only [hact2]
    refine ⟨ihe, ?_, ?_⟩
    · intro c2 hc2
      obtain rfl : c2 = ANode.mk cur.key cur.data cur.isRecord cur.blobValue
          (cur.children.set i.1 c) := (InsAction.inPlace.inj hc2).symm
      refine ⟨rfl, ?_⟩
      obtain ⟨j, hj1, hj2⟩ := findCompatIdx_set hckey hfind2
      refine FindsV_step h1 h2 hcompat j hj1 ?_
      show FindsV ((cur.children.set i.1 c).get j)
        (key.drop (lcp cur.key key).length) _ value
      rw [hj2]
      exact hcfind
    · intro old c2 hc2
      simp at hc2
  | case7 cur key value ow bs p pl hne1 hne2 hne3 key2 i hfind r oldKey c hact e0 hrem ih =>
    intro how hwf hok hk hcompat
    subst how
    have hpp : p.length = (lcp cur.key key).length := rfl
    have hpl : 0 < (lcp cur.key key).length := List.length_pos.mpr hcompat
    have h1 : (lcp cur.key key).length = cur.key.length := by
      have hle := lcp_length_le_left cur.key key
      by_contra hne
      exact hne3 ⟨hpl, by omega⟩
    have hklt : (lcp cur.key key).length < key.length := by
      have h2 : (lcp cur.key key).length ≠ key.length := fun hx => hne1 ⟨h1, hx⟩
      have := lcp_length_le_right cur.key key
      omega
    have hdk : key.drop (lcp cur.key key).length ≠ [] := by
      intro hx
      have hlen := congrArg List.length hx
      rw [List.length_drop] at hlen
      simp at hlen
      omega
    have hfind2 : findCompatIdx cur.children (key.drop (lcp cur.key key).length) = some i :=
      hfind
    have hcompat2 : lcp (cur.children.get i).key (key.drop (lcp cur.key key).length) ≠ [] :=
      findCompatIdx_some hfind2
    have hact2 : (insertAt (cur.children.get i) (key.drop (lcp cur.key key).length)
        value true bs).act = .reparent oldKey c := hact
    have ihr := ih rfl (wf_child hwf i) hok hdk hcompat2
    obtain ⟨hold, hcc, hcf⟩ := ihr.2.2 oldKey c hact2
    have hrem2 : removeChildByKey cur.children oldKey =
        .ok (cur.children.eraseIdx i.1) := by
      rw [hold]
      refine removeChildByKey_eraseIdx cur.children i.1 i.2 ?_
      intro j hj hlt heq
      have hdisj := pairwiseDisjoint_get cur.children (wf_disjoint hwf) i.1 j i.2 hj hlt
      rw [heq, lcp_self] at hdisj
      exact wf_child_key hwf ⟨i.1, i.2⟩ hdisj
    rw [hrem2] at hrem
    exact absurd hrem (by simp)
  | case8 cur key value ow bs p pl hne1 hne2 hne3 key2 i hfind r oldKey c hact cs hrem ih =>
    intro how hwf hok hk hcompat
    subst how
    have hpp : p.length = (lcp cur.key key).length := rfl
    have hpl : 0 < (lcp cur.key key).length := List.length_pos.mpr hcompat
    have h1 : (lcp cur.key key).length = cur.key.length := by
      have hle := lcp_length_le_left cur.key key
      by_contra hne
      exact hne3 ⟨hpl, by omega⟩
    have h2 : (lcp cur.key key).length ≠ key.length := fun hx => hne1 ⟨h1, hx⟩
    have hklt : (lcp cur.key key).length < key.length := by
      have := lcp_length_le_right cur.key key
      omega
    have hdk : key.drop (lcp cur.key key).length ≠ [] := by
      intro hx
      have hlen := congrArg List.length hx
      rw [List.length_drop] at hlen
      simp at hlen
      omega
    have hfind2 : findCompatIdx cur.children (key.drop (lcp cur.key key).length) = some i :=
      hfind
    have hcompat2 : lcp (cur.children.get i).key (key.drop (lcp cur.key key).length) ≠ [] :=
      findCompatIdx_some hfind2
    have hact2 : (insertAt (cur.children.get i) (key.drop (lcp cur.key key).length)
        value true bs).act = .reparent oldKey c := hact
    have ihr := ih rfl (wf_child hwf i) hok hdk hcompat2
    obtain ⟨hold, hcc, hcf⟩ := ihr.2.2 oldKey c hact2
    have hrem2 : removeChildByKey cur.children oldKey =
        .ok (cur.children.eraseIdx i.1) := by
      rw [hold]
      refine removeChildByKey_eraseIdx cur.children i.1 i.2 ?_
      intro j hj hlt heq
      have hdisj := pairwiseDisjoint_get cur.children (wf_disjoint hwf) i.1 j i.2 hj hlt
      rw [heq, lcp_self] at hdisj
      exact wf_child_key hwf ⟨i.1, i.2⟩ hdisj
    have hcs : cs = cur.children.eraseIdx i.1 := by
      rw [hrem2] at hrem
      exact (Except.ok.inj hrem).symm
    rw [insertAt_descend cur key value true bs hne1 hne2 hne3 i hfind2]
    simp only [hact2, hrem]
    refine ⟨ihr.1, ?_, ?_⟩
    · intro c2 hc2
      obtain rfl : c2 = ANode.mk cur.key cur.data cur.isRecord cur.blobValue
          (addChild cs c) := (InsAction.inPlace.inj hc2).symm
      refine ⟨rfl, ?_⟩
      have hall : ∀ x ∈ cs, lcp x.key (key.drop (lcp cur.key key).length) = [] := by
        rw [hcs]
        exact findCompatIdx_eraseIdx (wf_disjoint hwf) hfind2
      obtain ⟨j, hj1, hj2⟩ := findCompatIdx_addChild hall hcc
      refine FindsV_step h1 h2 hcompat j hj1 ?_
      show FindsV ((addChild cs c).get j)
        (key.drop (lcp cur.key key).length) _ value
      rw [hj2]
      exact hcf
    · intro old c2 hc2
      simp at hc2

theorem setKey_key (n : ANode) (k : List Nat) : (n.setKey k).key = k := rfl

set_option maxHeartbeats 1000000 in
theorem insertRoot_finds (a : Arc) (root : ANode) (key value : List Nat)
    (hwf : root.wf = true) (hok : HashOK a.blobs value) (hk : key ≠ [])
    (hguard : ¬(0 < root.key.length ∧ lcp root.key key = [])) :
    (insertRoot a root key value true).1 = none ∧
    ∃ root2, (insertRoot a root key value true).2.root = some root2 ∧
      ∃ m, findAt root2 key true = .ok m ∧ m.isRecord = true ∧
        m.value ((insertRoot a root key value true).2.blobs) = value := by
  simp only [insertRoot]
  by_cases hA : (lcp root.key key).length = root.key.length ∧
      (lcp root.key key).length = key.length
  · rw [if_pos hA, if_neg (show ¬(true = false) by simp)]
    refine ⟨rfl, (root.setValue a.blobs value).1, rfl, (root.setValue a.blobs value).1, ?_,
      setValue_isRecord root a.blobs value, setValue_value root a.blobs value hok⟩
    refine findAt_found _ _ _ (by simp) ?_ ?_
    · rw [setValue_key]
      exact hA.1
    · rw [setValue_key]
      exact hA.2
  · rw [if_neg hA]
    by_cases hB : (lcp root.key key).length = key.length ∧
        (lcp root.key key).length < root.key.length
    · rw [if_pos hB]
      refine ⟨rfl, _, rfl, ANode.mk (newRecordNode a.blobs key value).1.key
          (newRecordNode a.blobs key value).1.data
          (newRecordNode a.blobs key value).1.isRecord
          (newRecordNode a.blobs key value).1.blobValue
          (addChild (newRecordNode a.blobs key value).1.children
            (root.setKey (root.key.drop key.length))), ?_, ?_, ?_⟩
      · refine findAt_found _ _ _ (by simp) ?_ ?_
        · show (lcp (newRecordNode a.blobs key value).1.key key).length =
            (newRecordNode a.blobs key value).1.key.length
          rw [newRecordNode_key, lcp_self]
        · show (lcp (newRecordNode a.blobs key value).1.key key).length = key.length
          rw [newRecordNode_key, lcp_self]
      · show (newRecordNode a.blobs key value).1.isRecord = true
        exact newRecordNode_isRecord a.blobs key value
      · refine (value_congr _ rfl rfl).trans ?_
        exact newRecordNode_value a.blobs key value hok
    · rw [if_neg hB]
      by_cases hC : 0 < (lcp root.key key).length ∧
          (lcp root.key key).length < root.key.length
      · rw [if_pos hC]
        have h0 : ¬((lcp root.key key).length = key.length) := fun hx => hB ⟨hx, hC.2⟩
        have hklt : (lcp root.key key).length < key.length := by
          have := lcp_length_le_right root.key key
          omega
        have hdk : key.drop (lcp root.key key).length ≠ [] := by
          intro hx
          have hlen := congrArg List.length hx
          rw [List.length_drop] at hlen
          simp at hlen
          omega
        have hpne : lcp root.key key ≠ [] := by
          intro hx
          rw [hx] at hC
          simp at hC
        have hlcp : lcp (lcp root.key key) key = lcp root.key key :=
          lcp_of_prefix (lcp_prefix_right root.key key)
        have hall : ∀ x ∈ addChild [] (root.setKey (root.key.drop (lcp root.key key).length)),
            lcp x.key (key.drop (lcp root.key key).length) = [] := by
          intro x hx
          have hx2 : x = root.setKey (root.key.drop (lcp root.key key).length) := by
            simpa [addChild] using hx
          rw [hx2]
          show lcp (root.key.drop (lcp root.key key).length)
            (key.drop (lcp root.key key).length) = []
          exact lcp_drop root.key key
        have hcn : lcp ((newRecordNode a.blobs key value).1.setKey
            (key.drop (lcp root.key key).length)).key
            (key.drop (lcp root.key key).length) ≠ [] := by
          show lcp (key.drop (lcp root.key key).length)
            (key.drop (lcp root.key key).length) ≠ []
          rw [lcp_self]
          exact hdk
        obtain ⟨j, hj1, hj2⟩ := findCompatIdx_addChild hall hcn
        have hres : ∃ m, findAt ((addChild (addChild []
            (root.setKey (root.key.drop (lcp root.key key).length)))
            ((newRecordNode a.blobs key value).1.setKey
              (key.drop (lcp root.key key).length))).get j)
            (key.drop (lcp root.key key).length) false = .ok m ∧ m.isRecord = true ∧
            m.value (newRecordNode a.blobs key value).2 = value := by
          rw [hj2]
          refine ⟨(newRecordNode a.blobs key value).1.setKey
            (key.drop (lcp root.key key).length), ?_, ?_, ?_⟩
          · refine findAt_found _ _ _ ?_ ?_ ?_
            · intro hcc
              have hx := hcc.1
              rw [setKey_key, lcp_self] at hx
              exact hdk hx
            · rw [setKey_key, lcp_self]
            · rw [setKey_key, lcp_self]
          · show (newRecordNode a.blobs key value).1.isRecord = true
            exact newRecordNode_isRecord a.blobs key value
          · refine (value_congr _ rfl rfl).trans ?_
            exact newRecordNode_value a.blobs key value hok
        obtain ⟨m, hm1, hm2, hm3⟩ := hres
        refine ⟨rfl, _, rfl, m, ?_, hm2, hm3⟩
        have hstep := findAt_step (ANode.mk (lcp root.key key) [] false false
            (addChild (addChild [] (root.setKey (root.key.drop (lcp root.key key).length)))
              ((newRecordNode a.blobs key value).1.setKey
                (key.drop (lcp root.key key).length))))
          key true (by simp) ?_ ?_ ?_ j ?_
        · rw [hstep]
          show findAt _ (key.drop (lcp (lcp root.key key) key).length) false = .ok m
          rw [hlcp]
          exact hm1
        · show (lcp (lcp root.key key) key).length = (lcp root.key key).length
          rw [hlcp]
        · show ¬(lcp (lcp root.key key) key).length = key.length
          rw [hlcp]
          exact h0
        · show ¬(addChild (addChild [] _) _).length = 0
          rw [addChild_length]
          simp
        · show findCompatIdx _ (key.drop (lcp (lcp root.key key) key).length) = some j
          rw [hlcp]
          exact hj1
      · rw [if_neg hC]
        have hL : (lcp root.key key).length = root.key.length := by
          by_contra hne
          have hle := lcp_length_le_left root.key key
          have h00 : (lcp root.key key).length = 0 := by
            by_contra h01
            exact hC ⟨by omega, by omega⟩
          have hpnil : lcp root.key key = [] := List.eq_nil_of_length_eq_zero h00
          refine hguard ⟨?_, hpnil⟩
          omega
        have hne : (lcp root.key key).length ≠ key.length := fun hx => hA ⟨hL, hx⟩
        have hklt : (lcp root.key key).length < key.length := by
          have := lcp_length_le_right root.key key
          omega
        have hdk : key.drop (lcp root.key key).length ≠ [] := by
          intro hx
          have hlen := congrArg List.length hx
          rw [List.length_drop] at hlen
          simp at hlen
          omega
        cases hfind2 : findCompatIdx root.children (key.drop (lcp root.key key).length) with
        | none =>
          simp only [hfind2]
          rw [if_pos hL]
          have hcn : lcp (newRecordNode a.blobs (key.drop (lcp root.key key).length)
              value).1.key (key.drop (lcp root.key key).length) ≠ [] := by
            rw [newRecordNode_key, lcp_self]
            exact hdk
          obtain ⟨j, hj1, hj2⟩ := findCompatIdx_addChild (findCompatIdx_none hfind2) hcn
          have hres : ∃ m, findAt ((addChild root.children
              (newRecordNode a.blobs (key.drop (lcp root.key key).length) value).1).get j)
              (key.drop (lcp root.key key).length) false = .ok m ∧ m.isRecord = true ∧
              m.value (newRecordNode a.blobs (key.drop (lcp root.key key).length) value).2 =
                value := by
            rw [hj2]
            refine ⟨(newRecordNode a.blobs (key.drop (lcp root.key key).length) value).1,
              ?_, newRecordNode_isRecord a.blobs _ value,
              (value_congr _ rfl rfl).trans (newRecordNode_value a.blobs _ value hok)⟩
            refine findAt_found _ _ _ ?_ ?_ ?_
            · intro hcc
              have hx := hcc.1
              rw [newRecordNode_key, lcp_self] at hx
              exact hdk hx
            · rw [newRecordNode_key, lcp_self]
            · rw [newRecordNode_key, lcp_self]
          obtain ⟨m, hm1, hm2, hm3⟩ := hres
          refine ⟨rfl, _, rfl, m, ?_, hm2, hm3⟩
          have hstep := findAt_step (ANode.mk root.key root.data root.isRecord root.blobValue
              (addChild root.children
                (newRecordNode a.blobs (key.drop (lcp root.key key).length) value).1))
            key true (by simp) hL hne
            (by
              show ¬(addChild root.children _).length = 0
              rw [addChild_length]
              simp) j hj1
          rw [hstep]
          exact hm1
        | some i =>
          simp only [hfind2]
          have hcompat2 : lcp (root.children.get i).key
              (key.drop (lcp root.key key).length) ≠ [] := findCompatIdx_some hfind2
          have ihr := insertAt_finds (root.children.get i)
            (key.drop (lcp root.key key).length) value true a.blobs rfl
            (wf_child hwf i) hok hdk hcompat2
          obtain ⟨ihe, ihP, ihR⟩ := ihr
          cases hact : (insertAt (root.children.get i)
              (key.drop (lcp root.key key).length) value true a.blobs).act with
          | inPlace c =>
            simp only [hact]
            obtain ⟨hckey, hcfind⟩ := ihP c hact
            obtain ⟨j, hj1, hj2⟩ := findCompatIdx_set hckey hfind2
            obtain ⟨m, hm1, hm2, hm3⟩ := hcfind
            refine ⟨ihe, _, rfl, m, ?_, hm2, hm3⟩
            have hstep := findAt_step (ANode.mk root.key root.data root.isRecord
                root.blobValue (root.children.set i.1 c)) key true (by simp) hL hne
              (by
                show ¬(root.children.set i.1 c).length = 0
                rw [List.length_set]
                have := i.2
                omega) j hj1
            rw [hstep]
            show findAt ((root.children.set i.1 c).get j) _ false = .ok m
            rw [hj2]
            exact hm1
          | reparent oldKey c =>
            obtain ⟨hold, hcc, hcf⟩ := ihR oldKey c hact
            have hrem2 : removeChildByKey root.children oldKey =
                .ok (root.children.eraseIdx i.1) := by
              rw [hold]
              refine removeChildByKey_eraseIdx root.children i.1 i.2 ?_
              intro j2 hj hlt heq
              have hdisj := pairwiseDisjoint_get root.children (wf_disjoint hwf)
                i.1 j2 i.2 hj hlt
              rw [heq, lcp_self] at hdisj
              exact wf_child_key hwf ⟨i.1, i.2⟩ hdisj
            simp only [hact, hrem2]
            have hall : ∀ x ∈ root.children.eraseIdx i.1,
                lcp x.key (key.drop (lcp root.key key).length) = [] :=
              findCompatIdx_eraseIdx (wf_disjoint hwf) hfind2
            obtain ⟨j, hj1, hj2⟩ := findCompatIdx_addChild hall hcc
            obtain ⟨m, hm1, hm2, hm3⟩ := hcf
            refine ⟨ihe, _, rfl, m, ?_, hm2, hm3⟩
            have hstep := findAt_step (ANode.mk root.key root.data root.isRecord
                root.blobValue (addChild (root.children.eraseIdx i.1) c)) key true
              (by simp) hL hne
              (by
                show ¬(addChild (root.children.eraseIdx i.1) c).length = 0
                rw [addChild_length]
                simp) j hj1
            rw [hstep]
            show findAt ((addChild (root.children.eraseIdx i.1) c).get j) _ false = .ok m
            rw [hj2]
            exact hm1

theorem get_of_found (a2 : Arc) (k v : List Nat) (root2 m : ANode)
    (hr : a2.root = some root2) (hfind : findAt root2 k true = .ok m)
    (hm2 : m.isRecord = true) (hm3 : m.value a2.blobs = v) :
    Arc.Get a2 (some k) = .ok v := by
  simp only [Arc.Get]
  have hemp : a2.empty = false := by
    unfold Arc.empty
    rw [hr]
    rfl
  rw [if_neg (by rw [hemp]; exact Bool.false_ne_true)]
  simp only [hr, hfind]
  rw [if_neg (by rw [hm2]; simp)]
  rw [hm3]

set_option maxHeartbeats 1000000 in
/-- C1: on a structurally well-formed tree whose blob store is
hash-consistent for v, Put(k, v) with 1 <= |k| <= 65535 and
|v| <= 2^32-1 succeeds, and Get(k) on the resulting tree returns
exactly v. -/
theorem put_get_roundtrip (a : Arc) (k v : List Nat)
    (hwf : a.wf = true) (hok : HashOK a.blobs v)
    (hk1 : 1 ≤ k.length) (hk2 : k.length ≤ 65535) (hv : v.length ≤ 4294967295) :
    (Arc.Put a (some k) v).1 = none ∧
    Arc.Get (Arc.Put a (some k) v).2 (some k) = .ok v := by
  have hknil : k ≠ [] := by
    intro hx
    rw [hx] at hk1
    simp at hk1
  simp only [Arc.Put, Arc.insert]
  rw [if_neg (show ¬(maxKeyBytes < k.length) by simp only [maxKeyBytes]; omega)]
  rw [if_neg (show ¬(maxValueBytes < v.length) by simp only [maxValueBytes]; omega)]
  by_cases hemp : a.empty = true
  · rw [if_pos hemp]
    refine ⟨rfl, ?_⟩
    refine get_of_found _ k v (newRecordNode a.blobs k v).1 (newRecordNode a.blobs k v).1
      rfl ?_ (newRecordNode_isRecord a.blobs k v) ?_
    · refine findAt_found _ _ _ (by simp) ?_ ?_
      · rw [newRecordNode_key, lcp_self]
      · rw [newRecordNode_key, lcp_self]
    · show (newRecordNode a.blobs k v).1.value (newRecordNode a.blobs k v).2 = v
      exact newRecordNode_value a.blobs k v hok
  · rw [if_neg hemp]
    cases hroot : a.root with
    | none =>
      exfalso
      unfold Arc.wf at hwf
      rw [hroot] at hwf
      apply hemp
      unfold Arc.empty
      rw [hroot]
      simpa using hwf
    | some root =>
      have hwfr : root.wf = true := by
        unfold Arc.wf at hwf
        rw [hroot] at hwf
        exact hwf
      simp only []
      by_cases hcr : 0 < root.key.length ∧ lcp root.key k = []
      · rw [if_pos hcr]
        refine ⟨rfl, ?_⟩
        have hcn : lcp (newRecordNode a.blobs k v).1.key k ≠ [] := by
          rw [newRecordNode_key, lcp_self]
          exact hknil
        have hall : ∀ x ∈ addChild [] root, lcp x.key k = [] := by
          intro x hx
          have hx2 : x = root := by simpa [addChild] using hx
          rw [hx2]
          exact hcr.2
        obtain ⟨j, hj1, hj2⟩ := findCompatIdx_addChild hall hcn
        have hres : ∃ m, findAt ((addChild (addChild [] root)
            (newRecordNode a.blobs k v).1).get j) k false = .ok m ∧
            m.isRecord = true ∧ m.value (newRecordNode a.blobs k v).2 = v := by
          rw [hj2]
          refine ⟨(newRecordNode a.blobs k v).1, ?_,
            newRecordNode_isRecord a.blobs k v, ?_⟩
          · refine findAt_found _ _ _ ?_ ?_ ?_
            · intro hcc
              have hx := hcc.1
              rw [newRecordNode_key, lcp_self] at hx
              exact hknil hx
            · rw [newRecordNode_key, lcp_self]
            · rw [newRecordNode_key, lcp_self]
          · exact newRecordNode_value a.blobs k v hok
        obtain ⟨m, hm1, hm2, hm3⟩ := hres
        refine get_of_found _ k v (ANode.mk [] [] false false
          (addChild (addChild [] root) (newRecordNode a.blobs k v).1)) m rfl ?_ hm2 hm3
        have hstep := findAt_step (ANode.mk [] [] false false
            (addChild (addChild [] root) (newRecordNode a.blobs k v).1)) k true
          (by simp) rfl
          (show ¬((0 : Nat) = k.length) from fun hx =>
            hknil (List.eq_nil_of_length_eq_zero hx.symm))
          (by
            show ¬(addChild (addChild [] root) (newRecordNode a.blobs k v).1).length = 0
            rw [addChild_length]
            simp) j hj1
        rw [hstep]
        exact hm1
      · rw [if_neg hcr]
        have hrf := insertRoot_finds a root k v hwfr hok hknil hcr
        obtain ⟨he, root2, hr2, m, hm1, hm2, hm3⟩ := hrf
        exact ⟨he, get_of_found _ k v root2 m hr2 hm1 hm2 hm3⟩

theorem put_get_roundtrip_witness :
    (Arc.Put Arc.New (some [1]) [2]).1 = none ∧
    Arc.Get (Arc.Put Arc.New (some [1]) [2]).2 (some [1]) = .ok [2] :=
  put_get_roundtrip Arc.New [1] [2] (by decide)
    (by intro e he hid; exact absurd he (List.not_mem_nil e))
    (by decide) (by decide) (by decide)

theorem removeChildByKey_error {cs : List ANode} {k : List Nat} {e : Err}
    (h : removeChildByKey cs k = .error e) : e = .keyNotFound := by
  induction cs with
  | nil =>
    simp only [removeChildByKey] at h
    exact (Except.error.inj h).symm
  | cons x xs ih =>
    simp only [removeChildByKey] at h
    split at h
    · simp at h
    · cases hrest : removeChildByKey xs k with
      | error e2 =>
        rw [hrest] at h
        simp only [Except.map] at h
        exact ih (hrest.trans (congrArg Except.error (Except.error.inj h)))
      | ok ys =>
        rw [hrest] at h
        simp [Except.map] at h

set_option maxHeartbeats 1000000 in
/-- The overwrite insert never reports DuplicateKey, at any level. -/
theorem insertAt_no_dup_aux : ∀ (n : Nat) (cur : ANode), sizeOf cur ≤ n →
    ∀ (key value : List Nat) (bs : BlobStore),
    (insertAt cur key value true bs).err ≠ some .duplicateKey := by
  intro n
  induction n with
  | zero =>
    intro cur hsz
    exfalso
    cases cur with
    | mk k d r b cs =>
      simp only [ANode.mk.sizeOf_spec] at hsz
      omega
  | succ n ih =>
    intro cur hsz key value bs
    rw [insertAt.eq_def]
    simp only []
    repeat' split
    all_goals intro h
    all_goals simp only at h
    all_goals try exact Option.noConfusion h
    all_goals try (rename_i hx; exact Bool.noConfusion hx)
    · rename_i x1 i hfind x2 c hact
      have hlt : sizeOf (cur.children.get i) ≤ n := by
        have := ANode.sizeOf_child_lt cur i
        omega
      exact ih _ hlt _ value bs h
    · rename_i e0 hrem
      have he := removeChildByKey_error hrem
      subst he
      exact Err.noConfusion (Option.some.inj h)
    · rename_i x1 i hfind x2 oldKey c hact x3 cs hrem
      have hlt : sizeOf (cur.children.get i) ≤ n := by
        have := ANode.sizeOf_child_lt cur i
        omega
      exact ih _ hlt _ value bs h

theorem insertAt_no_dup (cur : ANode) (key value : List Nat) (bs : BlobStore) :
    (insertAt cur key value true bs).err ≠ some .duplicateKey :=
  insertAt_no_dup_aux (sizeOf cur) cur (Nat.le_refl _) key value bs

theorem insertRoot_no_dup (a : Arc) (root : ANode) (key value : List Nat) :
    (insertRoot a root key value true).1 ≠ some .duplicateKey := by
  simp only [insertRoot]
  repeat' split
  all_goals intro h
  all_goals simp only at h
  all_goals try exact Option.noConfusion h
  all_goals try (rename_i hx; exact Bool.noConfusion hx)
  · rename_i x1 i hfind x2 c hact
    exact insertAt_no_dup _ _ value a.blobs h
  · rename_i e0 hrem
    have he := removeChildByKey_error hrem
    subst he
    exact Err.noConfusion (Option.some.inj h)
  · rename_i x1 i hfind x2 oldKey c hact x3 cs hrem
    exact insertAt_no_dup _ _ value a.blobs h

theorem put_no_dup (a : Arc) (k : Option (List Nat)) (v : List Nat) :
    (Arc.Put a k v).1 ≠ some .duplicateKey := by
  cases k with
  | none =>
    intro h
    exact Err.noConfusion (Option.some.inj h)
  | some k =>
    simp only [Arc.Put, Arc.insert]
    split
    · intro h
      exact Err.noConfusion (Option.some.inj h)
    · split
      · intro h
        exact Err.noConfusion (Option.some.inj h)
      · split
        · intro h
          exact Option.noConfusion h
        · cases hroot : a.root with
          | none =>
            intro h
            exact Err.noConfusion (Option.some.inj h)
          | some root =>
            simp only []
            split
            · intro h
              exact Option.noConfusion h
            · exact insertRoot_no_dup a root k v

set_option maxHeartbeats 1000000 in
/-- A key found below the root is rejected as duplicate by the
non-overwriting insert, and the overwriting insert on a found record
leaves the record-count delta at zero. -/
theorem findAt_insert_aux : ∀ (n : Nat) (cur : ANode), sizeOf cur ≤ n →
    ∀ (key : List Nat) (m : ANode) (value : List Nat) (bs : BlobStore),
    findAt cur key false = .ok m →
    (insertAt cur key value false bs).err = some .duplicateKey ∧
    (m.isRecord = true → (insertAt cur key value true bs).dr = 0) := by
  intro n
  induction n with
  | zero =>
    intro cur hsz
    exfalso
    cases cur with
    | mk k d r b cs =>
      simp only [ANode.mk.sizeOf_spec] at hsz
      omega
  | succ n ih =>
    intro cur hsz key m value bs h
    rw [findAt.eq_def] at h
    simp only [] at h
    repeat' split at h
    all_goals try exact Except.noConfusion h
    · -- exact match: ok cur = ok m
      rename_i hc1 hn2 hp3
      obtain rfl : cur = m := Except.ok.inj h
      have h1 : (lcp cur.key key).length = cur.key.length := Decidable.not_not.mp hn2
      constructor
      · rw [insertAt_exact_dup cur key value bs h1 hp3]
      · intro hrec
        rw [insertAt_exact_over cur key value bs h1 hp3]
        simp only
        rw [if_pos hrec]
    · -- descend
      rename_i hc1 hn2 hn3 hch x i hfind
      have h1 : (lcp cur.key key).length = cur.key.length := Decidable.not_not.mp hn2
      have hne1 : ¬((lcp cur.key key).length = cur.key.length ∧
          (lcp cur.key key).length = key.length) := fun hx => hn3 hx.2
      have hne2 : ¬((lcp cur.key key).length = key.length ∧
          (lcp cur.key key).length < cur.key.length) := fun hx => hn3 hx.1
      have hne3 : ¬(0 < (lcp cur.key key).length ∧
          (lcp cur.key key).length < cur.key.length) := fun hx => absurd h1 (by omega)
      have hlt : sizeOf (cur.children.get i) ≤ n := by
        have := ANode.sizeOf_child_lt cur i
        omega
      obtain ⟨ihdup, ihdr⟩ := ih (cur.children.get i) hlt
        (key.drop (lcp cur.key key).length) m value bs h
      constructor
      · rw [insertAt_descend cur key value false bs hne1 hne2 hne3 i hfind]
        have hr := insertAt_err (cur.children.get i)
          (key.drop (lcp cur.key key).length) value false bs .duplicateKey ihdup
        have hact : (insertAt (cur.children.get i)
            (key.drop (lcp cur.key key).length) value false bs).act =
            .inPlace (cur.children.get i) := by rw [hr]
        simp only [hact]
        exact ihdup
      · intro hrec
        rw [insertAt_descend cur key value true bs hne1 hne2 hne3 i hfind]
        cases hact : (insertAt (cur.children.get i)
            (key.drop (lcp cur.key key).length) value true bs).act with
        | inPlace c =>
          simp only [hact]
          exact ihdr hrec
        | reparent o c =>
          cases hrem : removeChildByKey cur.children o with
          | error e =>
            simp only [hact, hrem]
          | ok cs =>
            simp only [hact, hrem]
            exact ihdr hrec

theorem findAt_insert (cur : ANode) (key : List Nat) (m : ANode) (value : List Nat)
    (bs : BlobStore) (h : findAt cur key false = .ok m) :
    (insertAt cur key value false bs).err = some .duplicateKey ∧
    (m.isRecord = true → (insertAt cur key value true bs).dr = 0) :=
  findAt_insert_aux (sizeOf cur) cur (Nat.le_refl _) key m value bs h

set_option maxHeartbeats 1000000 in
/-- The root counterpart: a key found from the root is rejected as
duplicate by Add's insert, and Put's insert on a found record keeps
the record counter. -/
theorem findAt_insertRoot (a : Arc) (root : ANode) (key : List Nat) (m : ANode)
    (value : List Nat) (h : findAt root key true = .ok m) :
    (insertRoot a root key value false).1 = some .duplicateKey ∧
    (m.isRecord = true → (insertRoot a root key value true).2.numRecords = a.numRecords) := by
  rw [findAt.eq_def] at h
  simp only [] at h
  repeat' split at h
  all_goals try exact Except.noConfusion h
  · rename_i hc1 hn2 hp3
    obtain rfl : root = m := Except.ok.inj h
    have h1 : (lcp root.key key).length = root.key.length := Decidable.not_not.mp hn2
    constructor
    · simp only [insertRoot]
      rw [if_pos (show _ ∧ _ from ⟨h1, hp3⟩)]
      rfl
    · intro hrec
      simp only [insertRoot]
      rw [if_pos (show _ ∧ _ from ⟨h1, hp3⟩)]
      rw [if_neg (show ¬(true = false) by simp)]
      show a.numRecords + (if root.isRecord = true then 0 else 1) = a.numRecords
      rw [if_pos hrec]
      simp
  · rename_i hc1 hn2 hn3 hch x i hfind
    have h1 : (lcp root.key key).length = root.key.length := Decidable.not_not.mp hn2
    have hne1 : ¬((lcp root.key key).length = root.key.length ∧
        (lcp root.key key).length = key.length) := fun hx => hn3 hx.2
    have hne2 : ¬((lcp root.key key).length = key.length ∧
        (lcp root.key key).length < root.key.length) := fun hx => hn3 hx.1
    have hne3 : ¬(0 < (lcp root.key key).length ∧
        (lcp root.key key).length < root.key.length) := fun hx => absurd h1 (by omega)
    obtain ⟨ihdup, ihdr⟩ := findAt_insert (root.children.get i)
      (key.drop (lcp root.key key).length) m value a.blobs h
    constructor
    · simp only [insertRoot]
      rw [if_neg hne1, if_neg hne2, if_neg hne3]
      simp only [hfind]
      have hr := insertAt_err (root.children.get i)
        (key.drop (lcp root.key key).length) value false a.blobs .duplicateKey ihdup
      have hact : (insertAt (root.children.get i)
          (key.drop (lcp root.key key).length) value false a.blobs).act =
          .inPlace (root.children.get i) := by rw [hr]
      simp only [hact]
      exact ihdup
    · intro hrec
      simp only [insertRoot]
      rw [if_neg hne1, if_neg hne2, if_neg hne3]
      simp only [hfind]
      cases hact : (insertAt (root.children.get i)
          (key.drop (lcp root.key key).length) value true a.blobs).act with
      | inPlace c =>
        simp only [hact]
        show a.numRecords + (insertAt (root.children.get i)
          (key.drop (lcp root.key key).length) value true a.blobs).dr = a.numRecords
        rw [ihdr hrec]
        simp
      | reparent o c =>
        cases hrem : removeChildByKey root.children o with
        | error e =>
          simp only [hact, hrem]
        | ok cs =>
          simp only [hact, hrem]
          show a.numRecords + (insertAt (root.children.get i)
            (key.drop (lcp root.key key).length) value true a.blobs).dr = a.numRecords
          rw [ihdr hrec]
          simp

theorem findAt_ok_len {n : ANode} {k : List Nat} {isRoot : Bool} {m : ANode}
    (h : findAt n k isRoot = .ok m) : (lcp n.key k).length = n.key.length := by
  rw [findAt.eq_def] at h
  simp only [] at h
  repeat' split at h
  all_goals try exact Except.noConfusion h
  · rename_i hc1 hn2 hp3
    exact Decidable.not_not.mp hn2
  · rename_i hc1 hn2 hn3 hch x i hfind
    exact Decidable.not_not.mp hn2

/-- C2 counterexample: on the tree holding apple and apricot, whose
root is the non-record branch node keyed ap, Add("ap") is rejected
with DuplicateKey even though Get("ap") reports KeyNotFound -- the
duplicate test fires on any exact node match, record or not. -/
theorem add_duplicate_counterexample :
    (Arc.Add (Arc.Put (Arc.Put Arc.New (some [97, 112, 112, 108, 101]) [1]).2
      (some [97, 112, 114, 105, 99, 111, 116]) [2]).2 (some [97, 112]) [3]).1 =
      some .duplicateKey ∧
    Arc.Get (Arc.Put (Arc.Put Arc.New (some [97, 112, 112, 108, 101]) [1]).2
      (some [97, 112, 114, 105, 99, 111, 116]) [2]).2 (some [97, 112]) =
      .error .keyNotFound := by
  constructor
  · rfl
  · have ht : (Arc.Put (Arc.Put Arc.New (some [97, 112, 112, 108, 101]) [1]).2
        (some [97, 112, 114, 105, 99, 111, 116]) [2]).2.root =
        some (ANode.mk [97, 112] [] false false
          [ANode.mk [112, 108, 101] [1] true false [],
           ANode.mk [114, 105, 99, 111, 116] [2] true false []]) := rfl
    simp only [Arc.Get]
    rw [if_neg (show ¬((Arc.Put (Arc.Put Arc.New (some [97, 112, 112, 108, 101]) [1]).2
      (some [97, 112, 114, 105, 99, 111, 116]) [2]).2.empty = true) by decide)]
    simp only [ht]
    rw [findAt_found (ANode.mk [97, 112] [] false false
        [ANode.mk [112, 108, 101] [1] true false [],
         ANode.mk [114, 105, 99, 111, 116] [2] true false []]) [97, 112] true
      (by simp) rfl rfl]
    rfl

set_option maxHeartbeats 1000000 in
/-- C2 (amended): a key readable as a record is rejected by Add with
DuplicateKey (the converse fails, see the counterexample: any exact
node match is rejected); Put on a key readable as a record leaves the
record count unchanged, and Put never returns DuplicateKey at all. -/
theorem add_put_duplicate_contract (a : Arc) (k v w : List Nat)
    (hk2 : k.length ≤ maxKeyBytes) (hv : v.length ≤ maxValueBytes)
    (hget : Arc.Get a (some k) = .ok w) :
    (Arc.Add a (some k) v).1 = some .duplicateKey ∧
    (Arc.Put a (some k) v).2.numRecords = a.numRecords ∧
    (∀ (a2 : Arc) (k2 : Option (List Nat)) (v2 : List Nat),
      (Arc.Put a2 k2 v2).1 ≠ some .duplicateKey) := by
  simp only [Arc.Get] at hget
  by_cases hemp : a.empty = true
  · rw [if_pos hemp] at hget
    exact absurd hget (by simp)
  · rw [if_neg hemp] at hget
    cases hroot : a.root with
    | none =>
      simp only [hroot] at hget
      exact absurd hget (by simp)
    | some root =>
      simp only [hroot] at hget
      cases hfind : findAt root k true with
      | error e =>
        simp only [hfind] at hget
        exact absurd hget (by simp)
      | ok m =>
        simp only [hfind] at hget
        by_cases hrec : m.isRecord = false
        · rw [if_pos hrec] at hget
          exact absurd hget (by simp)
        · rw [if_neg hrec] at hget
          have hrec2 : m.isRecord = true := by
            cases hm : m.isRecord
            · exact absurd hm hrec
            · rfl
          have hlen := findAt_ok_len hfind
          have hguard : ¬(0 < root.key.length ∧ lcp root.key k = []) := by
            rintro ⟨hpos, hnil⟩
            rw [hnil] at hlen
            simp at hlen
            omega
          obtain ⟨hdup, hdr⟩ := findAt_insertRoot a root k m v hfind
          refine ⟨?_, ?_, fun a2 k2 v2 => put_no_dup a2 k2 v2⟩
          · simp only [Arc.Add, Arc.insert]
            rw [if_neg (show ¬(maxKeyBytes < k.length) by omega)]
            rw [if_neg (show ¬(maxValueBytes < v.length) by omega)]
            rw [if_neg hemp]
            simp only [hroot]
            rw [if_neg hguard]
            exact hdup
          · simp only [Arc.Put, Arc.insert]
            rw [if_neg (show ¬(maxKeyBytes < k.length) by omega)]
            rw [if_neg (show ¬(maxValueBytes < v.length) by omega)]
            rw [if_neg hemp]
            simp only [hroot]
            rw [if_neg hguard]
            exact hdr hrec2

theorem add_put_duplicate_contract_witness :
    (Arc.Add (Arc.Put Arc.New (some [1]) [2]).2 (some [1]) [3]).1 =
      some .duplicateKey :=
  (add_put_duplicate_contract (Arc.Put Arc.New (some [1]) [2]).2 [1] [3] [2]
    (by decide) (by decide)
    (get_of_found _ [1] [2] (ANode.mk [1] [2] true false [])
      (ANode.mk [1] [2] true false []) rfl
      (findAt_found (ANode.mk [1] [2] true false []) [1] true (by simp) rfl rfl)
      rfl rfl)).1

/-! ### Support lemmas for the deletion argument -/

/-- The per-child search step of findNodeAndParent and Delete: locate
the compatible child and search from it. -/
def findStep (cur : ANode) (k : List Nat) : Except Err ANode :=
  match findCompatIdx cur.children k with
  | none => .error .keyNotFound
  | some i => findAt (cur.children.get i) k false

theorem lcp_append_ne_iff {a : List Nat} (t q : List Nat) (ha : a ≠ []) :
    lcp (a ++ t) q ≠ [] ↔ lcp a q ≠ [] := by
  cases a with
  | nil => exact absurd rfl ha
  | cons x xs =>
    cases q with
    | nil => simp [lcp_nil_right]
    | cons y ys =>
      constructor
      · intro h
        obtain ⟨z, t1, t2, hz1, hz2⟩ := (lcp_ne_nil_iff _ _).mp h
        simp only [List.cons_append, List.cons.injEq] at hz1
        rw [(lcp_ne_nil_iff _ _)]
        exact ⟨x, xs, ys, rfl, by
          simp only [List.cons.injEq] at hz2
          simp [hz2.1, hz1.1]⟩
      · intro h
        obtain ⟨z, t1, t2, hz1, hz2⟩ := (lcp_ne_nil_iff _ _).mp h
        simp only [List.cons.injEq] at hz1
        rw [(lcp_ne_nil_iff _ _)]
        exact ⟨x, xs ++ t, ys, rfl, by
          simp only [List.cons.injEq] at hz2
          simp [hz2.1, hz1.1]⟩

theorem mem_addChild {cs : List ANode} {c y : ANode} (h : y ∈ addChild cs c) :
    y = c ∨ y ∈ cs := by
  induction cs with
  | nil =>
    simp only [addChild] at h
    rcases List.mem_cons.mp h with h2 | h2
    · exact Or.inl h2
    · simp at h2
  | cons x xs ih =>
    simp only [addChild] at h
    split at h
    · rcases List.mem_cons.mp h with h2 | h2
      · exact Or.inl h2
      · exact Or.inr h2
    · rcases List.mem_cons.mp h with h2 | h2
      · exact Or.inr (by simp [h2])
      · rcases ih h2 with h3 | h3
        · exact Or.inl h3
        · exact Or.inr (List.mem_cons_of_mem _ h3)

theorem addChild_mem {cs : List ANode} {c y : ANode} (h : y = c ∨ y ∈ cs) :
    y ∈ addChild cs c := by
  induction cs with
  | nil =>
    simp only [addChild]
    rcases h with rfl | h2
    · simp
    · simp at h2
  | cons x xs ih =>
    simp only [addChild]
    split
    · rcases h with rfl | h2
      · simp
      · simp [h2]
    · rcases h with rfl | h2
      · exact List.mem_cons_of_mem _ (ih (Or.inl rfl))
      · rcases List.mem_cons.mp h2 with h3 | h3
        · simp [h3]
        · exact List.mem_cons_of_mem _ (ih (Or.inr h3))

theorem findCompatIdx_of_mem {cs : List ANode} {x : ANode} {q : List Nat}
    (hx : x ∈ cs) (hc : lcp x.key q ≠ [])
    (hothers : ∀ y ∈ cs, lcp y.key q ≠ [] → y = x) :
    ∃ j : Fin cs.length, findCompatIdx cs q = some j ∧ cs.get j = x := by
  induction cs with
  | nil => simp at hx
  | cons c rest ih =>
    by_cases hcc : lcp c.key q ≠ []
    · have hcx : c = x := hothers c (by simp) hcc
      refine ⟨⟨0, by simp⟩, ?_, hcx⟩
      simp only [findCompatIdx]
      rw [if_pos hcc]
    · have hx2 : x ∈ rest := by
        rcases List.mem_cons.mp hx with rfl | h2
        · exact absurd hc hcc
        · exact h2
      obtain ⟨j, hj1, hj2⟩ := ih hx2
        (fun y hy hyc => hothers y (List.mem_cons_of_mem _ hy) hyc)
      refine ⟨j.succ, ?_, hj2⟩
      simp only [findCompatIdx]
      rw [if_neg hcc, hj1]
      rfl

theorem pairwiseDisjoint_unique_compat {cs : List ANode} {q : List Nat}
    (hd : pairwiseDisjoint cs = true) :
    ∀ x ∈ cs, ∀ y ∈ cs, lcp x.key q ≠ [] → lcp y.key q ≠ [] → x = y := by
  induction cs with
  | nil => intro x hx; simp at hx
  | cons c rest ih =>
    simp only [pairwiseDisjoint, Bool.and_eq_true, List.all_eq_true] at hd
    intro x hx y hy hxq hyq
    rcases List.mem_cons.mp hx with rfl | hx2
    · rcases List.mem_cons.mp hy with rfl | hy2
      · rfl
      · exfalso
        have h1 : lcp x.key y.key = [] := by simpa using hd.1 y hy2
        exact absurd h1 (lcp_trans_ne hxq hyq)
    · rcases List.mem_cons.mp hy with rfl | hy2
      · exfalso
        have h1 : lcp y.key x.key = [] := by simpa using hd.1 x hx2
        exact absurd h1 (lcp_trans_ne hyq hxq)
      · exact ih hd.2 x hx2 y hy2 hxq hyq

theorem findCompatIdx_eq_none {cs : List ANode} {q : List Nat}
    (h : ∀ x ∈ cs, lcp x.key q = []) : findCompatIdx cs q = none := by
  induction cs with
  | nil => rfl
  | cons c rest ih =>
    simp only [findCompatIdx]
    rw [if_neg (Decidable.not_not.mpr (h c (by simp)))]
    rw [ih (fun x hx => h x (List.mem_cons_of_mem _ hx))]
    rfl

theorem lcp_full_left {a b : List Nat} (h : (lcp a b).length = a.length) : a <+: b := by
  have h1 : lcp a b = a := by
    have h2 := lcp_eq_take_left a b
    rw [h] at h2
    rw [h2, List.take_length]
  rw [← h1]
  exact lcp_prefix_right a b

theorem findAt_ok_destruct {n : ANode} {q : List Nat} {ir : Bool} {m : ANode}
    (h : findAt n q ir = .ok m) :
    n.key <+: q ∧
    ((q = n.key ∧ m = n) ∨
      (q.drop n.key.length ≠ [] ∧ ∃ i : Fin n.children.length,
        findCompatIdx n.children (q.drop n.key.length) = some i ∧
        findAt (n.children.get i) (q.drop n.key.length) false = .ok m)) := by
  have hlen := findAt_ok_len h
  have hpre : n.key <+: q := lcp_full_left hlen
  refine ⟨hpre, ?_⟩
  rw [findAt.eq_def] at h
  simp only [] at h
  repeat' split at h
  all_goals try exact Except.noConfusion h
  · rename_i hc1 hn2 hp3
    left
    obtain rfl : n = m := Except.ok.inj h
    exact ⟨(hpre.eq_of_length (by omega)).symm, rfl⟩
  · rename_i hc1 hn2 hn3 hch x i hfind
    right
    rw [hlen] at hfind h
    refine ⟨?_, i, hfind, h⟩
    intro hx
    have hl2 := congrArg List.length hx
    rw [List.length_drop] at hl2
    simp at hl2
    have hle := lcp_length_le_right n.key q
    omega

theorem findAt_self_key {n : ANode} {ir : Bool} (h : ¬(n.key = [] ∧ ir = false)) :
    findAt n n.key ir = .ok n :=
  findAt_found n n.key ir (by rw [lcp_self]; exact h) (by rw [lcp_self])
    (by rw [lcp_self])

theorem findAt_build_step {n : ANode} {w : List Nat} (ir : Bool)
    (h0 : ¬(n.key = [] ∧ ir = false)) (hq : w ≠ [])
    (i : Fin n.children.length) (hfind : findCompatIdx n.children w = some i) :
    findAt n (n.key ++ w) ir = findAt (n.children.get i) w false := by
  have hl : lcp n.key (n.key ++ w) = n.key := lcp_append n.key w
  have hstep := findAt_step n (n.key ++ w) ir
    (by rw [hl]; exact h0)
    (by rw [hl])
    (by
      rw [hl, List.length_append]
      intro hx
      have : w.length = 0 := by omega
      exact hq (List.eq_nil_of_length_eq_zero this))
    (by
      intro hx
      have := i.2
      omega)
    i
    (by rw [hl, List.drop_left]; exact hfind)
  rw [hstep, hl, List.drop_left]

theorem deleteAt_found_single {cur : ANode} {k : List Nat} {bs : BlobStore}
    {i : Fin cur.children.length} {cs : List ANode} {child : ANode} {tail : List ANode}
    (hfind : findCompatIdx cur.children k = some i)
    (hp : lcp (cur.children.get i).key k ≠ [])
    (hl1 : (lcp (cur.children.get i).key k).length = (cur.children.get i).key.length)
    (hl2 : (lcp (cur.children.get i).key k).length = k.length)
    (hrec : (cur.children.get i).isRecord = true)
    (hone : (cur.children.get i).children.length = 1)
    (hrem : removeChildByKey cur.children (cur.children.get i).key = .ok cs)
    (hcc : (cur.children.get i).children = child :: tail) :
    deleteAt cur k bs = ⟨none, ANode.mk cur.key cur.data cur.isRecord cur.blobValue
      (addChild cs (child.prependKey (cur.children.get i).key)), bs, -1, -1⟩ := by
  rw [deleteAt.eq_def]
  simp only [hfind]
  rw [if_neg hp]
  rw [if_neg (show ¬((lcp (cur.children.get i).key k).length ≠
    (cur.children.get i).key.length) from Decidable.not_not.mpr hl1)]
  rw [if_pos hl2]
  rw [if_neg (show ¬((cur.children.get i).isRecord = false) by rw [hrec]; simp)]
  rw [if_pos hone]
  simp only [hrem, hcc]

theorem deleteAt_found_leaf {cur : ANode} {k : List Nat} {bs : BlobStore}
    {i : Fin cur.children.length} {cs : List ANode}
    (hfind : findCompatIdx cur.children k = some i)
    (hp : lcp (cur.children.get i).key k ≠ [])
    (hl1 : (lcp (cur.children.get i).key k).length = (cur.children.get i).key.length)
    (hl2 : (lcp (cur.children.get i).key k).length = k.length)
    (hrec : (cur.children.get i).isRecord = true)
    (hzero : (cur.children.get i).children.length = 0)
    (hrem : removeChildByKey cur.children (cur.children.get i).key = .ok cs) :
    deleteAt cur k bs =
      if h2 : cur.isRecord = false ∧ cs.length = 1 then
        match cs, h2 with
        | child :: _, _ => ⟨none, child.prependKey cur.key, bs, -2, -1⟩
      else ⟨none, ANode.mk cur.key cur.data cur.isRecord cur.blobValue cs, bs, -1, -1⟩ := by
  rw [deleteAt.eq_def]
  simp only [hfind]
  rw [if_neg hp]
  rw [if_neg (show ¬((lcp (cur.children.get i).key k).length ≠
    (cur.children.get i).key.length) from Decidable.not_not.mpr hl1)]
  rw [if_pos hl2]
  rw [if_neg (show ¬((cur.children.get i).isRecord = false) by rw [hrec]; simp)]
  rw [if_neg (show ¬((cur.children.get i).children.length = 1) by omega)]
  rw [if_pos hzero]
  simp only [hrem]
  by_cases h2 : cur.isRecord = false ∧ cs.length = 1
  · rw [if_pos h2, dif_pos h2]
    cases cs with
    | nil => simp at h2
    | cons child tl => rfl
  · rw [if_neg h2, dif_neg h2]

theorem deleteAt_found_demote {cur : ANode} {k : List Nat} {bs : BlobStore}
    {i : Fin cur.children.length}
    (hfind : findCompatIdx cur.children k = some i)
    (hp : lcp (cur.children.get i).key k ≠ [])
    (hl1 : (lcp (cur.children.get i).key k).length = (cur.children.get i).key.length)
    (hl2 : (lcp (cur.children.get i).key k).length = k.length)
    (hrec : (cur.children.get i).isRecord = true)
    (hn1 : (cur.children.get i).children.length ≠ 1)
    (hn0 : (cur.children.get i).children.length ≠ 0) :
    deleteAt cur k bs = ⟨none, ANode.mk cur.key cur.data cur.isRecord cur.blobValue
      (cur.children.set i.1
        ((ANode.mk (cur.children.get i).key (cur.children.get i).data false
          (cur.children.get i).blobValue (cur.children.get i).children).deleteValue bs).1),
      ((ANode.mk (cur.children.get i).key (cur.children.get i).data false
        (cur.children.get i).blobValue (cur.children.get i).children).deleteValue bs).2,
      0, -1⟩ := by
  rw [deleteAt.eq_def]
  simp only [hfind]
  rw [if_neg hp]
  rw [if_neg (show ¬((lcp (cur.children.get i).key k).length ≠
    (cur.children.get i).key.length) from Decidable.not_not.mpr hl1)]
  rw [if_pos hl2]
  rw [if_neg (show ¬((cur.children.get i).isRecord = false) by rw [hrec]; simp)]
  rw [if_neg hn1, if_neg hn0]

theorem deleteAt_recurse {cur : ANode} {k : List Nat} {bs : BlobStore}
    {i : Fin cur.children.length}
    (hfind : findCompatIdx cur.children k = some i)
    (hp : lcp (cur.children.get i).key k ≠ [])
    (hl1 : (lcp (cur.children.get i).key k).length = (cur.children.get i).key.length)
    (hl2 : (lcp (cur.children.get i).key k).length ≠ k.length)
    (hn0 : (cur.children.get i).children.length ≠ 0) :
    deleteAt cur k bs = ⟨
      (deleteAt (cur.children.get i)
        (k.drop (lcp (cur.children.get i).key k).length) bs).err,
      ANode.mk cur.key cur.data cur.isRecord cur.blobValue
        (cur.children.set i.1 (deleteAt (cur.children.get i)
          (k.drop (lcp (cur.children.get i).key k).length) bs).cur),
      (deleteAt (cur.children.get i)
        (k.drop (lcp (cur.children.get i).key k).length) bs).bs,
      (deleteAt (cur.children.get i)
        (k.drop (lcp (cur.children.get i).key k).length) bs).dn,
      (deleteAt (cur.children.get i)
        (k.drop (lcp (cur.children.get i).key k).length) bs).dr⟩ := by
  rw [deleteAt.eq_def]
  simp only [hfind]
  rw [if_neg hp]
  rw [if_neg (show ¬((lcp (cur.children.get i).key k).length ≠
    (cur.children.get i).key.length) from Decidable.not_not.mpr hl1)]
  rw [if_neg hl2, if_neg hn0]

theorem wf_removeChild {cur : ANode} (hwf : cur.wf = true) (i : Fin cur.children.length) :
    removeChildByKey cur.children (cur.children.get i).key =
      .ok (cur.children.eraseIdx i.1) := by
  refine removeChildByKey_eraseIdx cur.children i.1 i.2 ?_
  intro j hj hlt heq
  have hdisj := pairwiseDisjoint_get cur.children (wf_disjoint hwf) i.1 j i.2 hj hlt
  rw [heq, lcp_self] at hdisj
  exact wf_child_key hwf ⟨i.1, i.2⟩ hdisj

theorem mem_eraseIdx_of_get_ne :
    ∀ (cs : List ANode) (i : Nat) (j : Nat) (hj : j < cs.length), j ≠ i →
      cs.get ⟨j, hj⟩ ∈ cs.eraseIdx i := by
  intro cs
  induction cs with
  | nil =>
    intro i j hj
    simp at hj
  | cons x xs ih =>
    intro i j hj hne
    cases i with
    | zero =>
      cases j with
      | zero => exact absurd rfl hne
      | succ mj =>
        simp only [List.eraseIdx]
        exact List.get_mem _ _ _
    | succ mi =>
      cases j with
      | zero =>
        simp only [List.eraseIdx, List.get]
        simp
      | succ mj =>
        simp only [List.eraseIdx, List.get]
        exact List.mem_cons_of_mem _ (ih mi mj (by simpa using hj) (by omega))

theorem findCompatIdx_set_iff {cs : List ANode} {q : List Nat} {i : Fin cs.length}
    {c : ANode} (hiff : lcp c.key q ≠ [] ↔ lcp (cs.get i).key q ≠ [])
    (h : findCompatIdx cs q = some i) :
    ∃ j : Fin (cs.set i.1 c).length,
      findCompatIdx (cs.set i.1 c) q = some j ∧ (cs.set i.1 c).get j = c := by
  induction cs with
  | nil => simp [findCompatIdx] at h
  | cons x xs ih =>
    unfold findCompatIdx at h
    split at h
    · rename_i hc
      obtain rfl : i = (⟨0, by simp⟩ : Fin (x :: xs).length) := (Option.some.inj h).symm
      refine ⟨⟨0, by simp⟩, ?_, rfl⟩
      show findCompatIdx (c :: xs) q = _
      simp only [findCompatIdx]
      rw [if_pos (hiff.mpr hc)]
    · rename_i hc
      cases hrest : findCompatIdx xs q with
      | none => rw [hrest] at h; simp at h
      | some j =>
        rw [hrest] at h
        have h2 : j.succ = i := by simpa using h
        subst h2
        obtain ⟨j2, hj1, hj2⟩ := ih (by simpa using hiff) hrest
        refine ⟨j2.succ, ?_, hj2⟩
        show findCompatIdx (x :: xs.set j.1 c) q = some j2.succ
        simp only [findCompatIdx]
        rw [if_neg hc, hj1]
        rfl

theorem findCompatIdx_set_other {cs : List ANode} {q : List Nat} {i : Nat}
    {c : ANode} {j2 : Fin cs.length} (hj2 : findCompatIdx cs q = some j2)
    (hne : j2.1 ≠ i) (hcinc : lcp c.key q = []) :
    ∃ j3 : Fin (cs.set i c).length,
      findCompatIdx (cs.set i c) q = some j3 ∧ (cs.set i c).get j3 = cs.get j2 := by
  induction cs generalizing i with
  | nil => simp [findCompatIdx] at hj2
  | cons x xs ih =>
    unfold findCompatIdx at hj2
    split at hj2
    · rename_i hc
      obtain rfl : j2 = (⟨0, by simp⟩ : Fin (x :: xs).length) := (Option.some.inj hj2).symm
      cases i with
      | zero => exact absurd rfl hne
      | succ mi =>
        refine ⟨⟨0, by simp⟩, ?_, rfl⟩
        show findCompatIdx (x :: xs.set mi c) q = _
        simp only [findCompatIdx]
        rw [if_pos hc]
    · rename_i hc
      cases hrest : findCompatIdx xs q with
      | none => rw [hrest] at hj2; simp at hj2
      | some j =>
        rw [hrest] at hj2
        have h2 : j.succ = j2 := by simpa using hj2
        subst h2
        cases i with
        | zero =>
          refine ⟨⟨j.1 + 1, by simp [j.2]⟩, ?_, ?_⟩
          · show findCompatIdx (c :: xs) q = _
            simp only [findCompatIdx]
            rw [if_neg (Decidable.not_not.mpr hcinc), hrest]
            rfl
          · rfl
        | succ mi =>
          obtain ⟨j3, hj1, hj3⟩ := ih hrest (by simpa using hne)
          refine ⟨j3.succ, ?_, hj3⟩
          show findCompatIdx (x :: xs.set mi c) q = some j3.succ
          simp only [findCompatIdx]
          rw [if_neg hc, hj1]
          rfl

theorem lcp_append_right_ne_iff {a : List Nat} (t q : List Nat) (ha : a ≠ []) :
    lcp q (a ++ t) ≠ [] ↔ lcp q a ≠ [] := by
  rw [lcp_comm q (a ++ t), lcp_comm q a]
  exact lcp_append_ne_iff t q ha

/-- A key-extension of a node keeps its compatibility behaviour. -/
theorem compat_of_keyExt {old q : List Nat} (t : List Nat) (ho : old ≠ []) :
    lcp (old ++ t) q ≠ [] ↔ lcp old q ≠ [] :=
  lcp_append_ne_iff t q ho

theorem findAt_ok_first {n : ANode} {q : List Nat} {ir : Bool} {m : ANode}
    (h : findAt n q ir = .ok m) : ¬(lcp n.key q = [] ∧ ir = false) := by
  rw [findAt.eq_def] at h
  simp only [] at h
  repeat' split at h
  all_goals try exact Except.noConfusion h
  · rename_i hc1 hn2 hp3
    exact hc1
  · rename_i hc1 hn2 hn3 hch x i hfind
    exact hc1

theorem findAt_ok_keyne {n : ANode} {q : List Nat} {ir : Bool} {m : ANode}
    (h : findAt n q ir = .ok m) : ¬(n.key = [] ∧ ir = false) := by
  intro hx
  exact findAt_ok_first h ⟨by rw [hx.1]; exact lcp_nil_left q, hx.2⟩

theorem ANode.key_mk (k d : List Nat) (r b : Bool) (cs : List ANode) :
    (ANode.mk k d r b cs).key = k := rfl

theorem ANode.data_mk (k d : List Nat) (r b : Bool) (cs : List ANode) :
    (ANode.mk k d r b cs).data = d := rfl

theorem ANode.isRecord_mk (k d : List Nat) (r b : Bool) (cs : List ANode) :
    (ANode.mk k d r b cs).isRecord = r := rfl

theorem ANode.blobValue_mk (k d : List Nat) (r b : Bool) (cs : List ANode) :
    (ANode.mk k d r b cs).blobValue = b := rfl

theorem ANode.children_mk (k d : List Nat) (r b : Bool) (cs : List ANode) :
    (ANode.mk k d r b cs).children = cs := rfl

theorem wf_mem_key {n : ANode} (h : n.wf = true) {x : ANode} (hx : x ∈ n.children) :
    x.key ≠ [] := by
  unfold ANode.wf at h
  simp only [Bool.and_eq_true, List.all_eq_true] at h
  have := h.1.1 x hx
  simpa using this

theorem wf_mem {n : ANode} (h : n.wf = true) {x : ANode} (hx : x ∈ n.children) :
    x.wf = true := by
  unfold ANode.wf at h
  simp only [Bool.and_eq_true, List.all_eq_true] at h
  exact h.2 ⟨x, hx⟩ (List.mem_attach _ _)

theorem append_ne_nil_left {a : List Nat} (b : List Nat) (ha : a ≠ []) : a ++ b ≠ [] := by
  intro hx
  have h2 := congrArg List.length hx
  simp at h2
  exact ha h2.1

theorem list_get_set_self {α : Type} (l : List α) (i : Nat) (a : α)
    (j : Fin (l.set i a).length) (h : j.1 = i) : (l.set i a).get j = a := by
  rw [List.get_eq_getElem, List.getElem_set]
  rw [if_pos h.symm]

theorem list_get_set_other {α : Type} (l : List α) (i : Nat) (a : α)
    (j : Fin (l.set i a).length) (h : j.1 ≠ i) (h2 : j.1 < l.length) :
    (l.set i a).get j = l.get ⟨j.1, h2⟩ := by
  rw [List.get_eq_getElem, List.getElem_set]
  rw [if_neg (fun hx => h hx.symm)]
  rfl

set_option maxHeartbeats 2000000 in
theorem deleteAt_master : ∀ (n : Nat) (cur : ANode), sizeOf cur ≤ n →
    ∀ (k : List Nat) (bs : BlobStore) (m : ANode),
    cur.wf = true → k ≠ [] → findStep cur k = .ok m → m.isRecord = true →
    (deleteAt cur k bs).err = none ∧
    (deleteAt cur k bs).dr = -1 ∧
    (∃ t, (deleteAt cur k bs).cur.key = cur.key ++ t) ∧
    ((deleteAt cur k bs).bs = bs ∨
      (m.blobValue = true ∧ (deleteAt cur k bs).bs = bsRelease bs m.data)) ∧
    (∀ (ir : Bool) (m2 : ANode),
      findAt (deleteAt cur k bs).cur (cur.key ++ k) ir = .ok m2 →
      m2.isRecord = false) ∧
    (∀ (ir : Bool) (q : List Nat) (m2 : ANode), q ≠ cur.key ++ k →
      findAt cur q ir = .ok m2 → m2.isRecord = true →
      ∃ m3, findAt (deleteAt cur k bs).cur q ir = .ok m3 ∧ m3.isRecord = true ∧
        m3.data = m2.data ∧ m3.blobValue = m2.blobValue) := by
  intro n
  induction n with
  | zero =>
    intro cur hsz
    exfalso
    cases cur with
    | mk kk d r b cs =>
      simp only [ANode.mk.sizeOf_spec] at hsz
      omega
  | succ n ih =>
    intro cur hsz k bs m hwf hk hm hrecm
    unfold findStep at hm
    cases hfind : findCompatIdx cur.children k with
    | none =>
      rw [hfind] at hm
      exact absurd hm (by simp)
    | some i =>
      rw [hfind] at hm
      have hcne : lcp (cur.children.get i).key k ≠ [] := findCompatIdx_some hfind
      have hlen := findAt_ok_len hm
      have hckey : (cur.children.get i).key ≠ [] := wf_child_key hwf i
      obtain ⟨hpre, hcases⟩ := findAt_ok_destruct hm
      rcases hcases with ⟨hkeq, hmeq⟩ | ⟨hkne2, i2, hfind2, hstep2⟩
      · -- the record sits at the compatible child
        subst hmeq
        have hl2eq : (lcp (cur.children.get i).key k).length = k.length := by
          rw [hkeq]
          rw [hkeq] at hlen
          exact hlen
        by_cases hone : (cur.children.get i).children.length = 1
        · -- the deleted record has one child: promote it
          cases hcc : (cur.children.get i).children with
          | nil => rw [hcc] at hone; simp at hone
          | cons child tail =>
          have htail : tail = [] := by
            rw [hcc] at hone
            simp at hone
            exact hone
          subst htail
          have hchildmem : child ∈ (cur.children.get i).children := by
            rw [hcc]
            simp
          have hchildkey : child.key ≠ [] := wf_mem_key (wf_child hwf i) hchildmem
          have hrem := wf_removeChild hwf i
          rw [deleteAt_found_single hfind hcne hlen hl2eq hrecm hone hrem hcc]
          have herase := findCompatIdx_eraseIdx (wf_disjoint hwf) hfind
          refine ⟨rfl, rfl, ⟨[], by simp [ANode.key_mk]⟩, Or.inl rfl, ?_, ?_⟩
          · -- the deleted key is gone
            intro ir m2 hfq
            obtain ⟨hpre2, hcases2⟩ := findAt_ok_destruct hfq
            simp only [ANode.key_mk, ANode.children_mk] at hpre2 hcases2
            rcases hcases2 with ⟨hq2, hm2⟩ | ⟨hd, j, hfind3, hstep3⟩
            · exfalso
              have h2 := congrArg List.length hq2
              simp at h2
              exact hk h2
            · exfalso
              rw [List.drop_left] at hfind3 hstep3
              have hcompat_j := findCompatIdx_some hfind3
              have hjmem := List.get_mem (addChild (cur.children.eraseIdx i.1)
                (child.prependKey (cur.children.get i).key)) _ j.2
              rcases mem_addChild hjmem with hjc | hje
              · have hjc2 : (addChild (cur.children.eraseIdx i.1)
                    (child.prependKey (cur.children.get i).key)).get j =
                    child.prependKey (cur.children.get i).key := hjc
                rw [hjc2] at hstep3
                have hpref3 := (findAt_ok_destruct hstep3).1
                rw [hkeq] at hpref3
                have hle := hpref3.length_le
                rw [show (child.prependKey (cur.children.get i).key).key =
                  (cur.children.get i).key ++ child.key from rfl,
                  List.length_append] at hle
                exact hchildkey (List.eq_nil_of_length_eq_zero (by omega))
              · have hje2 : (addChild (cur.children.eraseIdx i.1)
                    (child.prependKey (cur.children.get i).key)).get j ∈
                    cur.children.eraseIdx i.1 := hje
                exact hcompat_j (herase _ hje2)
          · -- other keys keep their records
            intro ir q m2 hqne hfq hm2r
            have hirne := findAt_ok_keyne hfq
            obtain ⟨hpre3, hcases3⟩ := findAt_ok_destruct hfq
            rcases hcases3 with ⟨hq3, hm3⟩ | ⟨hd3, j2, hfind4, hstep4⟩
            · rw [hm3] at hm2r
              rw [hm3]
              refine ⟨ANode.mk cur.key cur.data cur.isRecord cur.blobValue
                (addChild (cur.children.eraseIdx i.1)
                  (child.prependKey (cur.children.get i).key)),
                ?_, hm2r, rfl, rfl⟩
              rw [hq3]
              refine findAt_self_key ?_
              intro hx
              simp only [ANode.key_mk] at hx
              exact hirne hx
            · obtain ⟨tq, htq⟩ := hpre3
              have hqsplit : q = cur.key ++ q.drop cur.key.length := by
                rw [← htq, List.drop_left]
              by_cases hji : j2.1 = i.1
              · -- the probe runs through the promoted child
                have hj2i : i = j2 := (Fin.ext hji).symm
                subst hj2i
                have hstep4c : findAt (cur.children.get i) (q.drop cur.key.length)
                    false = .ok m2 := hstep4
                obtain ⟨hpre5, hcases5⟩ := findAt_ok_destruct hstep4c
                obtain ⟨tq5, htq5⟩ := hpre5
                have hqsplit5 : q.drop cur.key.length = (cur.children.get i).key ++
                    (q.drop cur.key.length).drop (cur.children.get i).key.length := by
                  rw [← htq5, List.drop_left]
                rcases hcases5 with ⟨hq5, hm5⟩ | ⟨hd5, j5, hfind5, hstep5⟩
                · exfalso
                  apply hqne
                  rw [hqsplit, hq5, hkeq]
                · have hsing : ∀ x ∈ (cur.children.get i).children, x = child := by
                    intro x hx
                    rw [hcc] at hx
                    simpa using hx
                  have hj5c : (cur.children.get i).children.get j5 = child :=
                    hsing _ (List.get_mem _ _ _)
                  rw [hj5c] at hstep5
                  obtain ⟨hpre6, hcases6⟩ := findAt_ok_destruct hstep5
                  obtain ⟨tq6, htq6⟩ := hpre6
                  have hcompat5 := findCompatIdx_some hfind5
                  rw [hj5c] at hcompat5
                  -- the new list finds the promoted child
                  have hpc : lcp (child.prependKey (cur.children.get i).key).key
                      (q.drop cur.key.length) ≠ [] := by
                    rw [show (child.prependKey (cur.children.get i).key).key =
                      (cur.children.get i).key ++ child.key from rfl]
                    rw [hqsplit5, lcp_shared_prefix]
                    exact append_ne_nil_left _ hckey
                  have hothers : ∀ y ∈ addChild (cur.children.eraseIdx i.1)
                      (child.prependKey (cur.children.get i).key),
                      lcp y.key (q.drop cur.key.length) ≠ [] →
                      y = child.prependKey (cur.children.get i).key := by
                    intro y hy hyc
                    rcases mem_addChild hy with hyc2 | hye
                    · exact hyc2
                    · exfalso
                      rw [hqsplit5] at hyc
                      rw [lcp_append_right_ne_iff _ _ hckey] at hyc
                      rw [hkeq] at herase
                      exact hyc (herase y hye)
                  obtain ⟨j4, hj4f, hj4g⟩ := findCompatIdx_of_mem
                    (addChild_mem (Or.inl rfl)) hpc hothers
                  -- build the search in the new tree
                  have hbuild := findAt_build_step (n := ANode.mk cur.key cur.data
                      cur.isRecord cur.blobValue (addChild (cur.children.eraseIdx i.1)
                        (child.prependKey (cur.children.get i).key)))
                    (w := q.drop cur.key.length) ir (by
                      simp only [ANode.key_mk]
                      exact hirne) hd3 j4 (by
                      simp only [ANode.children_mk, ANode.key_mk]
                      exact hj4f)
                  rcases hcases6 with ⟨hq6, hm6⟩ | ⟨hd6, j6, hfind6, hstep6⟩
                  · -- the record is the promoted child itself
                    rw [hm6] at hm2r
                    rw [hm6]
                    refine ⟨child.prependKey (cur.children.get i).key, ?_, hm2r,
                      rfl, rfl⟩
                    rw [hqsplit]
                    rw [show (ANode.mk cur.key cur.data cur.isRecord cur.blobValue
                      (addChild (cur.children.eraseIdx i.1)
                        (child.prependKey (cur.children.get i).key))).key = cur.key
                      from rfl] at hbuild
                    rw [hbuild]
                    simp only [ANode.children_mk]
                    rw [hj4g]
                    have hqk5 : q.drop cur.key.length =
                        (child.prependKey (cur.children.get i).key).key := by
                      rw [hqsplit5, hq6]
                      rfl
                    rw [hqk5]
                    refine findAt_self_key ?_
                    intro hx
                    exact hckey (by
                      have := hx.1
                      rw [show (child.prependKey (cur.children.get i).key).key =
                        (cur.children.get i).key ++ child.key from rfl] at this
                      cases hk2 : (cur.children.get i).key with
                      | nil => rfl
                      | cons a as =>
                        rw [hk2] at this
                        simp at this)
                  · -- the record is deeper under the promoted child
                    refine ⟨m2, ?_, hm2r, rfl, rfl⟩
                    rw [hqsplit]
                    rw [show (ANode.mk cur.key cur.data cur.isRecord cur.blobValue
                      (addChild (cur.children.eraseIdx i.1)
                        (child.prependKey (cur.children.get i).key))).key = cur.key
                      from rfl] at hbuild
                    rw [hbuild]
                    simp only [ANode.children_mk]
                    rw [hj4g]
                    have hq7 : q.drop cur.key.length =
                        (child.prependKey (cur.children.get i).key).key ++
                        ((q.drop cur.key.length).drop
                          (cur.children.get i).key.length).drop child.key.length := by
                      rw [show (child.prependKey (cur.children.get i).key).key =
                        (cur.children.get i).key ++ child.key from rfl]
                      rw [← htq6, List.drop_left]
                      rw [List.append_assoc, htq6]
                      exact hqsplit5
                    rw [hq7]
                    have hbuild2 := findAt_build_step
                      (n := child.prependKey (cur.children.get i).key)
                      (w := ((q.drop cur.key.length).drop
                        (cur.children.get i).key.length).drop child.key.length)
                      false (by
                        intro hx
                        exact append_ne_nil_left child.key hckey (by
                          have := hx.1
                          rw [show (child.prependKey (cur.children.get i).key).key =
                            (cur.children.get i).key ++ child.key from rfl] at this
                          exact this)) hd6 j6 (by
                        show findCompatIdx child.children _ = some j6
                        exact hfind6)
                    rw [hbuild2]
                    exact hstep6
              · -- the probe runs through an untouched sibling
                have hxq := findCompatIdx_some hfind4
                have hxmem : cur.children.get j2 ∈ cur.children.eraseIdx i.1 := by
                  have := mem_eraseIdx_of_get_ne cur.children i.1 j2.1 j2.2 hji
                  exact this
                have hothers : ∀ y ∈ addChild (cur.children.eraseIdx i.1)
                    (child.prependKey (cur.children.get i).key),
                    lcp y.key (q.drop cur.key.length) ≠ [] →
                    y = cur.children.get j2 := by
                  intro y hy hyc
                  rcases mem_addChild hy with hyc2 | hye
                  · exfalso
                    rw [hyc2] at hyc
                    have hyc3 : lcp ((cur.children.get i).key ++ child.key)
                        (q.drop cur.key.length) ≠ [] := hyc
                    have hyc4 := (lcp_append_ne_iff _ _ hckey).mp hyc3
                    have heqv := pairwiseDisjoint_unique_compat (wf_disjoint hwf)
                      (cur.children.get i) (List.get_mem _ _ _)
                      (cur.children.get j2) (List.get_mem _ _ _) hyc4 hxq
                    have hdisj := pairwiseDisjoint_get cur.children (wf_disjoint hwf)
                      i.1 j2.1 i.2 j2.2 (by
                        rcases Nat.lt_or_ge j2.1 i.1 with hlt | hge
                        · exact hlt
                        · exfalso
                          have hlt2 : i.1 < j2.1 := by omega
                          have hdisj2 := pairwiseDisjoint_get cur.children
                            (wf_disjoint hwf) j2.1 i.1 j2.2 i.2 hlt2
                          rw [show (cur.children.get ⟨i.1, i.2⟩) =
                            cur.children.get i from rfl] at hdisj2
                          rw [show (cur.children.get ⟨j2.1, j2.2⟩) =
                            cur.children.get j2 from rfl] at hdisj2
                          rw [heqv, lcp_self] at hdisj2
                          exact wf_child_key hwf j2 hdisj2)
                    rw [show (cur.children.get ⟨i.1, i.2⟩) =
                      cur.children.get i from rfl] at hdisj
                    rw [show (cur.children.get ⟨j2.1, j2.2⟩) =
                      cur.children.get j2 from rfl] at hdisj
                    rw [← heqv, lcp_self] at hdisj
                    exact wf_child_key hwf i hdisj
                  · exact pairwiseDisjoint_unique_compat (wf_disjoint hwf)
                      y (List.mem_of_mem_eraseIdx hye) (cur.children.get j2)
                      (List.get_mem _ _ _) hyc hxq
                obtain ⟨j4, hj4f, hj4g⟩ := findCompatIdx_of_mem
                  (addChild_mem (Or.inr hxmem)) hxq hothers
                have hbuild := findAt_build_step (n := ANode.mk cur.key cur.data
                    cur.isRecord cur.blobValue (addChild (cur.children.eraseIdx i.1)
                      (child.prependKey (cur.children.get i).key)))
                  (w := q.drop cur.key.length) ir (by
                    simp only [ANode.key_mk]
                    exact findAt_ok_keyne hfq) hd3 j4 (by
                    simp only [ANode.children_mk, ANode.key_mk]
                    exact hj4f)
                refine ⟨m2, ?_, hm2r, rfl, rfl⟩
                rw [hqsplit]
                rw [show (ANode.mk cur.key cur.data cur.isRecord cur.blobValue
                  (addChild (cur.children.eraseIdx i.1)
                    (child.prependKey (cur.children.get i).key))).key = cur.key
                  from rfl] at hbuild
                rw [hbuild]
                simp only [ANode.children_mk]
                rw [hj4g]
                exact hstep4
        · by_cases hzero : (cur.children.get i).children.length = 0
          · -- the deleted record is a leaf: remove it from the sibling list
            have hrem := wf_removeChild hwf i
            have herase := findCompatIdx_eraseIdx (wf_disjoint hwf) hfind
            by_cases h2 : cur.isRecord = false ∧ (cur.children.eraseIdx i.1).length = 1
            · -- the parent became redundant: merge with the surviving child
              obtain ⟨hcr, hlen1⟩ := h2
              cases hcs : cur.children.eraseIdx i.1 with
              | nil => rw [hcs] at hlen1; simp at hlen1
              | cons child0 tail0 =>
              have htail0 : tail0 = [] := by
                rw [hcs] at hlen1
                simp at hlen1
                exact hlen1
              subst htail0
              have hrem2 : removeChildByKey cur.children (cur.children.get i).key =
                  .ok [child0] := by rw [hrem, hcs]
              rw [deleteAt_found_leaf hfind hcne hlen hl2eq hrecm hzero hrem2]
              rw [dif_pos (show cur.isRecord = false ∧ ([child0] : List ANode).length = 1
                from ⟨hcr, rfl⟩)]
              have hmem0 : child0 ∈ cur.children.eraseIdx i.1 := by rw [hcs]; simp
              have hmem0f : child0 ∈ cur.children := List.mem_of_mem_eraseIdx hmem0
              have h0key : child0.key ≠ [] := wf_mem_key hwf hmem0f
              have h0comp : lcp child0.key k = [] := herase child0 hmem0
              refine ⟨rfl, rfl, ⟨child0.key, rfl⟩, Or.inl rfl, ?_, ?_⟩
              · -- the deleted key is gone
                intro ir m2 hfq
                exfalso
                have hpre2 := (findAt_ok_destruct hfq).1
                have hpre3 : cur.key ++ child0.key <+: cur.key ++ k := hpre2
                obtain ⟨t2, ht2⟩ := hpre3
                rw [List.append_assoc] at ht2
                have hk2 : child0.key ++ t2 = k := List.append_cancel_left ht2
                rw [← hk2, lcp_append] at h0comp
                exact h0key h0comp
              · -- other keys keep their records
                intro ir q m2 hqne hfq hm2r
                have hirne := findAt_ok_keyne hfq
                obtain ⟨hpre3, hcases3⟩ := findAt_ok_destruct hfq
                rcases hcases3 with ⟨hq3, hm3⟩ | ⟨hd3, j2, hfind4, hstep4⟩
                · exfalso
                  rw [hm3] at hm2r
                  rw [hcr] at hm2r
                  exact Bool.noConfusion hm2r
                · obtain ⟨tq, htq⟩ := hpre3
                  have hqsplit : q = cur.key ++ q.drop cur.key.length := by
                    rw [← htq, List.drop_left]
                  by_cases hji : j2.1 = i.1
                  · -- the probe ran through the deleted leaf: impossible
                    exfalso
                    have hj2i : i = j2 := (Fin.ext hji).symm
                    subst hj2i
                    obtain ⟨hpre5, hcases5⟩ := findAt_ok_destruct hstep4
                    rcases hcases5 with ⟨hq5, hm5⟩ | ⟨hd5, j5, hfind5, hstep5⟩
                    · apply hqne
                      rw [hqsplit, hq5, hkeq]
                    · have := j5.2
                      omega
                  · -- the probe ran through the survivor
                    have hxmem : cur.children.get j2 ∈ cur.children.eraseIdx i.1 := by
                      have := mem_eraseIdx_of_get_ne cur.children i.1 j2.1 j2.2 hji
                      exact this
                    have hx0 : cur.children.get j2 = child0 := by
                      rw [hcs] at hxmem
                      simpa using hxmem
                    rw [hx0] at hstep4
                    obtain ⟨hpre5, hcases5⟩ := findAt_ok_destruct hstep4
                    obtain ⟨tq5, htq5⟩ := hpre5
                    rcases hcases5 with ⟨hq5, hm5⟩ | ⟨hd5, j5, hfind5, hstep5⟩
                    · -- the survivor itself holds the record
                      rw [hm5] at hm2r
                      rw [hm5]
                      refine ⟨child0.prependKey cur.key, ?_, hm2r, rfl, rfl⟩
                      rw [hqsplit, hq5]
                      refine findAt_self_key ?_
                      intro hx
                      have hx1 : cur.key ++ child0.key = [] := hx.1
                      simp at hx1
                      exact h0key hx1.2
                    · -- the record lies deeper under the survivor
                      refine ⟨m2, ?_, hm2r, rfl, rfl⟩
                      have hq7 : q = (child0.prependKey cur.key).key ++
                          ((q.drop cur.key.length).drop child0.key.length) := by
                        rw [show (child0.prependKey cur.key).key =
                          cur.key ++ child0.key from rfl]
                        rw [← htq5, List.drop_left]
                        rw [List.append_assoc, htq5]
                        exact hqsplit
                      rw [hq7]
                      have hbuild2 := findAt_build_step (n := child0.prependKey cur.key)
                        (w := (q.drop cur.key.length).drop child0.key.length) ir (by
                          intro hx
                          have hx1 : cur.key ++ child0.key = [] := hx.1
                          simp at hx1
                          exact h0key hx1.2) hd5 j5 (by
                          show findCompatIdx child0.children _ = some j5
                          exact hfind5)
                      rw [hbuild2]
                      exact hstep5
            · -- plain leaf removal, no merge
              rw [deleteAt_found_leaf hfind hcne hlen hl2eq hrecm hzero hrem, dif_neg h2]
              refine ⟨rfl, rfl, ⟨[], by simp [ANode.key_mk]⟩, Or.inl rfl, ?_, ?_⟩
              · -- the deleted key is gone
                intro ir m2 hfq
                exfalso
                obtain ⟨hpre2, hcases2⟩ := findAt_ok_destruct hfq
                simp only [ANode.key_mk, ANode.children_mk] at hpre2 hcases2
                rcases hcases2 with ⟨hq2, hm2⟩ | ⟨hd, j, hfind3, hstep3⟩
                · have h2l := congrArg List.length hq2
                  simp at h2l
                  exact hk h2l
                · rw [List.drop_left] at hfind3
                  have hcompat_j := findCompatIdx_some hfind3
                  have hje2 : (cur.children.eraseIdx i.1).get j ∈
                      cur.children.eraseIdx i.1 := List.get_mem _ _ _
                  exact hcompat_j (herase _ hje2)
              · -- other keys keep their records
                intro ir q m2 hqne hfq hm2r
                have hirne := findAt_ok_keyne hfq
                obtain ⟨hpre3, hcases3⟩ := findAt_ok_destruct hfq
                rcases hcases3 with ⟨hq3, hm3⟩ | ⟨hd3, j2, hfind4, hstep4⟩
                · rw [hm3] at hm2r
                  rw [hm3]
                  refine ⟨ANode.mk cur.key cur.data cur.isRecord cur.blobValue
                    (cur.children.eraseIdx i.1), ?_, hm2r, rfl, rfl⟩
                  rw [hq3]
                  refine findAt_self_key ?_
                  intro hx
                  simp only [ANode.key_mk] at hx
                  exact hirne hx
                · obtain ⟨tq, htq⟩ := hpre3
                  have hqsplit : q = cur.key ++ q.drop cur.key.length := by
                    rw [← htq, List.drop_left]
                  by_cases hji : j2.1 = i.1
                  · -- the probe ran through the deleted leaf: impossible
                    exfalso
                    have hj2i : i = j2 := (Fin.ext hji).symm
                    subst hj2i
                    obtain ⟨hpre5, hcases5⟩ := findAt_ok_destruct hstep4
                    rcases hcases5 with ⟨hq5, hm5⟩ | ⟨hd5, j5, hfind5, hstep5⟩
                    · apply hqne
                      rw [hqsplit, hq5, hkeq]
                    · have := j5.2
                      omega
                  · -- the probe ran through a survivor
                    have hxq := findCompatIdx_some hfind4
                    have hxmem : cur.children.get j2 ∈ cur.children.eraseIdx i.1 := by
                      have := mem_eraseIdx_of_get_ne cur.children i.1 j2.1 j2.2 hji
                      exact this
                    have hothers : ∀ y ∈ cur.children.eraseIdx i.1,
                        lcp y.key (q.drop cur.key.length) ≠ [] →
                        y = cur.children.get j2 := by
                      intro y hy hyc
                      exact pairwiseDisjoint_unique_compat (wf_disjoint hwf)
                        y (List.mem_of_mem_eraseIdx hy) (cur.children.get j2)
                        (List.get_mem _ _ _) hyc hxq
                    obtain ⟨j4, hj4f, hj4g⟩ := findCompatIdx_of_mem hxmem hxq hothers
                    have hbuild := findAt_build_step (n := ANode.mk cur.key cur.data
                        cur.isRecord cur.blobValue (cur.children.eraseIdx i.1))
                      (w := q.drop cur.key.length) ir (by
                        simp only [ANode.key_mk]
                        exact hirne) hd3 j4 (by
                        simp only [ANode.children_mk, ANode.key_mk]
                        exact hj4f)
                    refine ⟨m2, ?_, hm2r, rfl, rfl⟩
                    rw [hqsplit]
                    rw [show (ANode.mk cur.key cur.data cur.isRecord cur.blobValue
                      (cur.children.eraseIdx i.1)).key = cur.key from rfl] at hbuild
                    rw [hbuild]
                    simp only [ANode.children_mk]
                    rw [hj4g]
                    exact hstep4
          · -- several children: demote the record in place
            rw [deleteAt_found_demote hfind hcne hlen hl2eq hrecm hone hzero]
            have hdv1 : ((ANode.mk (cur.children.get i).key (cur.children.get i).data false
                (cur.children.get i).blobValue (cur.children.get i).children).deleteValue
                bs).1 = ANode.mk (cur.children.get i).key [] false false
                (cur.children.get i).children := rfl
            rw [hdv1]
            have herase := findCompatIdx_eraseIdx (wf_disjoint hwf) hfind
            refine ⟨rfl, rfl, ⟨[], by simp [ANode.key_mk]⟩, ?_, ?_, ?_⟩
            · -- blob store: the record's blob value is released
              by_cases hbv : (cur.children.get i).blobValue = true
              · right
                refine ⟨hbv, ?_⟩
                show ((ANode.mk (cur.children.get i).key (cur.children.get i).data false
                  (cur.children.get i).blobValue (cur.children.get i).children).deleteValue
                  bs).2 = bsRelease bs (cur.children.get i).data
                simp only [ANode.deleteValue, ANode.blobValue_mk, ANode.data_mk]
                rw [if_pos hbv]
              · left
                show ((ANode.mk (cur.children.get i).key (cur.children.get i).data false
                  (cur.children.get i).blobValue (cur.children.get i).children).deleteValue
                  bs).2 = bs
                simp only [ANode.deleteValue, ANode.blobValue_mk, ANode.data_mk]
                rw [if_neg hbv]
            · -- the deleted key is no longer a record
              intro ir m2 hfq
              obtain ⟨hpre2, hcases2⟩ := findAt_ok_destruct hfq
              simp only [ANode.key_mk, ANode.children_mk] at hpre2 hcases2
              rcases hcases2 with ⟨hq2, hm2⟩ | ⟨hd, j, hfind3, hstep3⟩
              · exfalso
                have h2l := congrArg List.length hq2
                simp at h2l
                exact hk h2l
              · rw [List.drop_left] at hfind3 hstep3
                by_cases hji : j.1 = i.1
                · -- the probe hit the demoted node
                  have hget : (cur.children.set i.1 (ANode.mk (cur.children.get i).key []
                      false false (cur.children.get i).children)).get j =
                      ANode.mk (cur.children.get i).key [] false false
                      (cur.children.get i).children :=
                    list_get_set_self _ _ _ j hji
                  rw [hget] at hstep3
                  obtain ⟨hpre6, hcases6⟩ := findAt_ok_destruct hstep3
                  simp only [ANode.key_mk, ANode.children_mk] at hpre6 hcases6
                  rcases hcases6 with ⟨hq6, hm6⟩ | ⟨hd6, j6, hfind6, hstep6⟩
                  · rw [hm6]
                    rfl
                  · exfalso
                    rw [hkeq] at hd6
                    simp at hd6
                · -- the probe cannot hit a disjoint sibling
                  exfalso
                  have hj2 : j.1 < cur.children.length := by simpa using j.2
                  have hget := list_get_set_other cur.children i.1
                    (ANode.mk (cur.children.get i).key [] false false
                      (cur.children.get i).children) j hji hj2
                  have hcompat_j := findCompatIdx_some hfind3
                  rw [hget] at hcompat_j
                  have hxmem : cur.children.get ⟨j.1, hj2⟩ ∈ cur.children.eraseIdx i.1 :=
                    mem_eraseIdx_of_get_ne cur.children i.1 j.1 hj2 hji
                  exact hcompat_j (herase _ hxmem)
            · -- other keys keep their records
              intro ir q m2 hqne hfq hm2r
              have hirne := findAt_ok_keyne hfq
              obtain ⟨hpre3, hcases3⟩ := findAt_ok_destruct hfq
              rcases hcases3 with ⟨hq3, hm3⟩ | ⟨hd3, j2, hfind4, hstep4⟩
              · rw [hm3] at hm2r
                rw [hm3]
                refine ⟨ANode.mk cur.key cur.data cur.isRecord cur.blobValue
                  (cur.children.set i.1 (ANode.mk (cur.children.get i).key [] false false
                    (cur.children.get i).children)), ?_, hm2r, rfl, rfl⟩
                rw [hq3]
                refine findAt_self_key ?_
                intro hx
                simp only [ANode.key_mk] at hx
                exact hirne hx
              · obtain ⟨tq, htq⟩ := hpre3
                have hqsplit : q = cur.key ++ q.drop cur.key.length := by
                  rw [← htq, List.drop_left]
                by_cases hji : j2.1 = i.1
                · -- the probe runs through the demoted node
                  have hj2i : i = j2 := (Fin.ext hji).symm
                  subst hj2i
                  obtain ⟨hpre5, hcases5⟩ := findAt_ok_destruct hstep4
                  obtain ⟨tq5, htq5⟩ := hpre5
                  rcases hcases5 with ⟨hq5, hm5⟩ | ⟨hd5, j5, hfind5, hstep5⟩
                  · exfalso
                    apply hqne
                    rw [hqsplit, hq5, hkeq]
                  · obtain ⟨j4, hj4f, hj4g⟩ := findCompatIdx_set_iff
                      (c := ANode.mk (cur.children.get i).key [] false false
                        (cur.children.get i).children) (Iff.rfl) hfind4
                    have hbuild := findAt_build_step (n := ANode.mk cur.key cur.data
                        cur.isRecord cur.blobValue (cur.children.set i.1
                          (ANode.mk (cur.children.get i).key [] false false
                            (cur.children.get i).children)))
                      (w := q.drop cur.key.length) ir (by
                        simp only [ANode.key_mk]
                        exact hirne) hd3 j4 (by
                        simp only [ANode.children_mk, ANode.key_mk]
                        exact hj4f)
                    refine ⟨m2, ?_, hm2r, rfl, rfl⟩
                    rw [hqsplit]
                    rw [show (ANode.mk cur.key cur.data cur.isRecord cur.blobValue
                      (cur.children.set i.1 (ANode.mk (cur.children.get i).key [] false
                        false (cur.children.get i).children))).key = cur.key
                      from rfl] at hbuild
                    rw [hbuild]
                    simp only [ANode.children_mk]
                    rw [hj4g]
                    have hq7 : q.drop cur.key.length = (ANode.mk (cur.children.get i).key
                        [] false false (cur.children.get i).children).key ++
                        ((q.drop cur.key.length).drop (cur.children.get i).key.length) := by
                      rw [ANode.key_mk]
                      rw [← htq5, List.drop_left]
                    rw [hq7]
                    have hbuild2 := findAt_build_step
                      (n := ANode.mk (cur.children.get i).key
                        [] false false (cur.children.get i).children)
                      (w := (q.drop cur.key.length).drop (cur.children.get i).key.length)
                      false (by
                        intro hx
                        have hx1 : (cur.children.get i).key = [] := hx.1
                        exact hckey hx1) hd5 j5 (by
                        show findCompatIdx (cur.children.get i).children _ = some j5
                        exact hfind5)
                    rw [hbuild2]
                    show findAt ((cur.children.get i).children.get j5) _ false = _
                    exact hstep5
                · -- the probe runs through an untouched sibling
                  have hxq := findCompatIdx_some hfind4
                  have hcinc : lcp (ANode.mk (cur.children.get i).key [] false false
                      (cur.children.get i).children).key (q.drop cur.key.length) = [] := by
                    by_contra hcc
                    have hcc2 : lcp (cur.children.get i).key (q.drop cur.key.length) ≠ [] :=
                      hcc
                    have heqv := pairwiseDisjoint_unique_compat (wf_disjoint hwf)
                      (cur.children.get i) (List.get_mem _ _ _)
                      (cur.children.get j2) (List.get_mem _ _ _) hcc2 hxq
                    have hdisj := pairwiseDisjoint_get cur.children (wf_disjoint hwf)
                      i.1 j2.1 i.2 j2.2 (by
                        rcases Nat.lt_or_ge j2.1 i.1 with hlt | hge
                        · exact hlt
                        · exfalso
                          have hlt2 : i.1 < j2.1 := by omega
                          have hdisj2 := pairwiseDisjoint_get cur.children
                            (wf_disjoint hwf) j2.1 i.1 j2.2 i.2 hlt2
                          rw [show (cur.children.get ⟨i.1, i.2⟩) =
                            cur.children.get i from rfl] at hdisj2
                          rw [show (cur.children.get ⟨j2.1, j2.2⟩) =
                            cur.children.get j2 from rfl] at hdisj2
                          rw [heqv, lcp_self] at hdisj2
                          exact wf_child_key hwf j2 hdisj2)
                    rw [show (cur.children.get ⟨i.1, i.2⟩) =
                      cur.children.get i from rfl] at hdisj
                    rw [show (cur.children.get ⟨j2.1, j2.2⟩) =
                      cur.children.get j2 from rfl] at hdisj
                    rw [← heqv, lcp_self] at hdisj
                    exact wf_child_key hwf i hdisj
                  obtain ⟨j3, hj3f, hj3g⟩ := findCompatIdx_set_other hfind4 hji hcinc
                  have hbuild := findAt_build_step (n := ANode.mk cur.key cur.data
                      cur.isRecord cur.blobValue (cur.children.set i.1
                        (ANode.mk (cur.children.get i).key [] false false
                          (cur.children.get i).children)))
                    (w := q.drop cur.key.length) ir (by
                      simp only [ANode.key_mk]
                      exact hirne) hd3 j3 (by
                      simp only [ANode.children_mk, ANode.key_mk]
                      exact hj3f)
                  refine ⟨m2, ?_, hm2r, rfl, rfl⟩
                  rw [hqsplit]
                  rw [show (ANode.mk cur.key cur.data cur.isRecord cur.blobValue
                    (cur.children.set i.1 (ANode.mk (cur.children.get i).key [] false false
                      (cur.children.get i).children))).key = cur.key from rfl] at hbuild
                  rw [hbuild]
                  simp only [ANode.children_mk]
                  rw [hj3g]
                  exact hstep4
      · -- the record sits deeper: recurse
        obtain ⟨tt, htt⟩ := hpre
        have hksplit : k = (cur.children.get i).key ++
            (k.drop (cur.children.get i).key.length) := by
          rw [← htt, List.drop_left]
        have hl2 : (lcp (cur.children.get i).key k).length ≠ k.length := by
          intro hx
          apply hkne2
          rw [show (cur.children.get i).key.length = k.length by omega]
          exact List.drop_length k
        have hn0 : (cur.children.get i).children.length ≠ 0 := by
          have := i2.2
          omega
        have hszc : sizeOf (cur.children.get i) ≤ n := by
          have := ANode.sizeOf_child_lt cur i
          omega
        have hstepc : findStep (cur.children.get i)
            (k.drop (cur.children.get i).key.length) = .ok m := by
          unfold findStep
          rw [hfind2]
          exact hstep2
        obtain ⟨ihe, ihdr, ⟨t, iht⟩, ihbs, ihA, ihB⟩ := ih (cur.children.get i) hszc
          (k.drop (cur.children.get i).key.length) bs m (wf_child hwf i) hkne2
          hstepc hrecm
        rw [deleteAt_recurse hfind hcne hlen hl2 hn0]
        rw [hlen]
        refine ⟨ihe, ihdr, ⟨[], by simp [ANode.key_mk]⟩, ihbs, ?_, ?_⟩
        · -- the deleted key is gone
          intro ir m2 hfq
          obtain ⟨hpre2, hcases2⟩ := findAt_ok_destruct hfq
          simp only [ANode.key_mk, ANode.children_mk] at hpre2 hcases2
          rcases hcases2 with ⟨hq2, hm2⟩ | ⟨hd, j, hfind3, hstep3⟩
          · exfalso
            have h2 := congrArg List.length hq2
            simp at h2
            exact hk h2
          · rw [List.drop_left] at hd hfind3 hstep3
            have hiff : lcp (deleteAt (cur.children.get i)
                (k.drop (cur.children.get i).key.length) bs).cur.key k ≠ [] ↔
                lcp (cur.children.get i).key k ≠ [] := by
              rw [iht]
              exact compat_of_keyExt t hckey
            obtain ⟨j2, hj2f, hj2g⟩ := findCompatIdx_set_iff hiff hfind
            rw [hj2f] at hfind3
            obtain rfl : j2 = j := Option.some.inj hfind3
            rw [hj2g] at hstep3
            apply ihA false m2
            rw [← hksplit]
            exact hstep3
        · -- other keys keep their records
          intro ir q m2 hqne hfq hm2r
          have hirne := findAt_ok_keyne hfq
          obtain ⟨hpre3, hcases3⟩ := findAt_ok_destruct hfq
          rcases hcases3 with ⟨hq3, hm3⟩ | ⟨hd3, j2, hfind4, hstep4⟩
          · rw [hm3] at hm2r
            rw [hm3]
            refine ⟨ANode.mk cur.key cur.data cur.isRecord cur.blobValue
              (cur.children.set i.1 (deleteAt (cur.children.get i)
                (k.drop (cur.children.get i).key.length) bs).cur), ?_, hm2r, rfl, rfl⟩
            rw [hq3]
            refine findAt_self_key ?_
            intro hx
            simp only [ANode.key_mk] at hx
            exact hirne hx
          · obtain ⟨tq, htq⟩ := hpre3
            have hqsplit : q = cur.key ++ q.drop cur.key.length := by
              rw [← htq, List.drop_left]
            have hirne2 : ¬(cur.key = [] ∧ ir = false) := hirne
            by_cases hji : j2.1 = i.1
            · have hj2i : j2 = i := Fin.ext hji
              subst hj2i
              have hqk : q.drop cur.key.length ≠
                  k := by
                intro hx
                apply hqne
                rw [hqsplit, hx]
              obtain ⟨m3, hm3f, hm3r, hm3d, hm3b⟩ := ihB false (q.drop cur.key.length)
                m2 (by rw [← hksplit]; exact hqk) hstep4 hm2r
              refine ⟨m3, ?_, hm3r, hm3d, hm3b⟩
              have hiff : lcp (deleteAt (cur.children.get j2)
                  (k.drop (cur.children.get j2).key.length) bs).cur.key
                  (q.drop cur.key.length) ≠ [] ↔
                  lcp (cur.children.get j2).key (q.drop cur.key.length) ≠ [] := by
                rw [iht]
                exact compat_of_keyExt t hckey
              obtain ⟨j3, hj3f, hj3g⟩ := findCompatIdx_set_iff hiff hfind4
              have hbuild := findAt_build_step (n := ANode.mk cur.key cur.data
                  cur.isRecord cur.blobValue (cur.children.set j2.1
                    (deleteAt (cur.children.get j2)
                      (k.drop (cur.children.get j2).key.length) bs).cur))
                (w := q.drop cur.key.length) ir (by
                  simp only [ANode.key_mk]
                  exact hirne2) hd3 j3 (by
                  simp only [ANode.children_mk, ANode.key_mk]
                  exact hj3f)
              rw [show q = cur.key ++ q.drop cur.key.length from hqsplit]
              rw [show (ANode.mk cur.key cur.data cur.isRecord cur.blobValue
                  (cur.children.set j2.1 (deleteAt (cur.children.get j2)
                    (k.drop (cur.children.get j2).key.length) bs).cur)).key = cur.key
                  from rfl] at hbuild
              rw [hbuild]
              simp only [ANode.children_mk]
              rw [hj3g]
              exact hm3f
            · have hxq := findCompatIdx_some hfind4
              have hcinc : lcp (deleteAt (cur.children.get i)
                  (k.drop (cur.children.get i).key.length) bs).cur.key
                  (q.drop cur.key.length) = [] := by
                by_contra hcc
                rw [iht] at hcc
                have hcc2 : lcp (cur.children.get i).key (q.drop cur.key.length) ≠ [] :=
                  (compat_of_keyExt t hckey).mp hcc
                have heqv := pairwiseDisjoint_unique_compat (wf_disjoint hwf)
                  (cur.children.get i) (List.get_mem _ _ _)
                  (cur.children.get j2) (List.get_mem _ _ _) hcc2 hxq
                have hdisj := pairwiseDisjoint_get cur.children (wf_disjoint hwf)
                  i.1 j2.1 i.2 j2.2 (by
                    rcases Nat.lt_or_ge j2.1 i.1 with hlt | hge
                    · exact hlt
                    · exfalso
                      have hlt2 : i.1 < j2.1 := by omega
                      have hdisj2 := pairwiseDisjoint_get cur.children
                        (wf_disjoint hwf) j2.1 i.1 j2.2 i.2 hlt2
                      rw [show (cur.children.get ⟨i.1, i.2⟩) =
                        cur.children.get i from rfl] at hdisj2
                      rw [show (cur.children.get ⟨j2.1, j2.2⟩) =
                        cur.children.get j2 from rfl] at hdisj2
                      rw [heqv, lcp_self] at hdisj2
                      exact wf_child_key hwf j2 hdisj2)
                rw [show (cur.children.get ⟨i.1, i.2⟩) =
                  cur.children.get i from rfl] at hdisj
                rw [show (cur.children.get ⟨j2.1, j2.2⟩) =
                  cur.children.get j2 from rfl] at hdisj
                rw [← heqv, lcp_self] at hdisj
                exact wf_child_key hwf i hdisj
              obtain ⟨j3, hj3f, hj3g⟩ := findCompatIdx_set_other hfind4
                hji hcinc
              have hbuild := findAt_build_step (n := ANode.mk cur.key cur.data
                  cur.isRecord cur.blobValue (cur.children.set i.1
                    (deleteAt (cur.children.get i)
                      (k.drop (cur.children.get i).key.length) bs).cur))
                (w := q.drop cur.key.length) ir (by
                  simp only [ANode.key_mk]
                  exact hirne2) hd3 j3 (by
                  simp only [ANode.children_mk, ANode.key_mk]
                  exact hj3f)
              refine ⟨m2, ?_, hm2r, rfl, rfl⟩
              rw [show q = cur.key ++ q.drop cur.key.length from hqsplit]
              rw [show (ANode.mk cur.key cur.data cur.isRecord cur.blobValue
                  (cur.children.set i.1 (deleteAt (cur.children.get i)
                    (k.drop (cur.children.get i).key.length) bs).cur)).key = cur.key
                  from rfl] at hbuild
              rw [hbuild]
              simp only [ANode.children_mk]
              rw [hj3g]
              exact hstep4
theorem bsLookup_setRC_other {bs : BlobStore} {id id2 : List Nat} {rc : Int}
    (h : id2 ≠ id) : bsLookup (bsSetRC bs id rc) id2 = bsLookup bs id2 := by
  induction bs with
  | nil => rfl
  | cons e rest ih =>
    obtain ⟨i, w, r⟩ := e
    simp only [bsSetRC]
    by_cases hi : i = id
    · rw [if_pos hi]
      simp only [bsLookup]
      rw [if_neg (by rw [hi]; exact fun hx => h hx.symm),
        if_neg (by rw [hi]; exact fun hx => h hx.symm)]
    · rw [if_neg hi]
      simp only [bsLookup]
      by_cases hi2 : i = id2
      · rw [if_pos hi2, if_pos hi2]
      · rw [if_neg hi2, if_neg hi2]
        exact ih

theorem bsLookup_setRC_self {bs : BlobStore} {id : List Nat} {w : List Nat}
    {rc0 rc : Int} (h : bsLookup bs id = some (w, rc0)) :
    bsLookup (bsSetRC bs id rc) id = some (w, rc) := by
  induction bs with
  | nil => simp [bsLookup] at h
  | cons e rest ih =>
    obtain ⟨i, w2, r⟩ := e
    simp only [bsLookup] at h
    simp only [bsSetRC]
    by_cases hi : i = id
    · rw [if_pos hi] at h
      rw [if_pos hi]
      simp only [bsLookup]
      rw [if_pos hi]
      obtain ⟨h1, h2⟩ := Prod.mk.injEq .. ▸ Option.some.inj h
      rw [h1]
    · rw [if_neg hi] at h
      rw [if_neg hi]
      simp only [bsLookup]
      rw [if_neg hi]
      exact ih h

theorem bsLookup_eraseKey_other {bs : BlobStore} {id id2 : List Nat}
    (h : id2 ≠ id) : bsLookup (bsEraseKey bs id) id2 = bsLookup bs id2 := by
  induction bs with
  | nil => rfl
  | cons e rest ih =>
    obtain ⟨i, w, r⟩ := e
    simp only [bsEraseKey]
    by_cases hi : i = id
    · rw [if_pos hi]
      simp only [bsLookup]
      rw [if_neg (by rw [hi]; exact fun hx => h hx.symm)]
    · rw [if_neg hi]
      simp only [bsLookup]
      by_cases hi2 : i = id2
      · rw [if_pos hi2, if_pos hi2]
      · rw [if_neg hi2, if_neg hi2]
        exact ih

theorem bsGet_release_other {bs : BlobStore} {id id2 : List Nat}
    (h : id2 ≠ id) : bsGet (bsRelease bs id) id2 = bsGet bs id2 := by
  simp only [bsRelease]
  split
  · rfl
  · split
    · rfl
    · split
      · split
        · simp only [bsGet]
          rw [bsLookup_eraseKey_other h]
        · simp only [bsGet]
          rw [bsLookup_setRC_other h]
      · split
        · simp only [bsGet]
          rw [bsLookup_eraseKey_other h]
        · simp only [bsGet]
          rw [bsLookup_setRC_other h]

theorem bsGet_release_shared {bs : BlobStore} {id : List Nat} {w : List Nat}
    {rc : Int} (hl : bsLookup bs id = some (w, rc)) (h2 : 2 ≤ rc) :
    bsGet (bsRelease bs id) id = bsGet bs id := by
  simp only [bsRelease, hl]
  have h0 : (if rc > 0 then rc - 1 else rc) = rc - 1 := if_pos (by omega)
  rw [h0]
  rw [if_neg (show ¬(rc - 1 = 0) by omega)]
  split
  · rfl
  · simp only [bsGet]
    rw [bsLookup_setRC_self hl, hl]

theorem recs_self {n : ANode} (h : n.isRecord = true) :
    (n.key, (n.data, n.blobValue)) ∈ n.recs := by
  rw [ANode.recs.eq_def]
  rw [if_pos h]
  simp

theorem recs_child_mem {n x : ANode} (hx : x ∈ n.children)
    {e : List Nat × (List Nat × Bool)} (he : e ∈ x.recs) :
    (n.key ++ e.1, e.2) ∈ n.recs := by
  rw [ANode.recs.eq_def]
  refine List.mem_append.mpr (Or.inr ?_)
  rw [List.mem_flatMap]
  refine ⟨⟨x, hx⟩, List.mem_attach _ _, ?_⟩
  rw [List.mem_map]
  exact ⟨e, he, rfl⟩

theorem recs_leaf {n : ANode} (hr : n.isRecord = true) (hc : n.children = []) :
    n.recs = [(n.key, (n.data, n.blobValue))] := by
  rw [ANode.recs.eq_def]
  rw [if_pos hr, hc]
  rfl

theorem findAt_recs : ∀ (nn : Nat) (n : ANode), sizeOf n ≤ nn →
    ∀ (q : List Nat) (ir : Bool) (m : ANode),
    findAt n q ir = .ok m → m.isRecord = true →
    (q, (m.data, m.blobValue)) ∈ n.recs := by
  intro nn
  induction nn with
  | zero =>
    intro n hsz
    exfalso
    cases n with
    | mk kk d r b cs =>
      simp only [ANode.mk.sizeOf_spec] at hsz
      omega
  | succ nn ih =>
    intro n hsz q ir m hf hr
    obtain ⟨hpre, hcases⟩ := findAt_ok_destruct hf
    rcases hcases with ⟨hq, hm⟩ | ⟨hd, i, hfind, hstep⟩
    · subst hm
      rw [hq]
      exact recs_self hr
    · have hlt := ANode.sizeOf_child_lt n i
      have hmem := ih (n.children.get i) (by omega) _ false m hstep hr
      have hthis := recs_child_mem (List.get_mem _ _ _) hmem
      have hqsplit : q = n.key ++ q.drop n.key.length := by
        obtain ⟨t, ht⟩ := hpre
        rw [← ht, List.drop_left]
      rw [hqsplit]
      exact hthis

theorem findAt_recs_top {n : ANode} {q : List Nat} {ir : Bool} {m : ANode}
    (hf : findAt n q ir = .ok m) (hr : m.isRecord = true) :
    (q, (m.data, m.blobValue)) ∈ n.recs :=
  findAt_recs (sizeOf n) n (le_refl _) q ir m hf hr

theorem findAt_error : ∀ (nn : Nat) (n : ANode), sizeOf n ≤ nn →
    ∀ (q : List Nat) (ir : Bool) (e : Err),
    findAt n q ir = .error e → e = .keyNotFound := by
  intro nn
  induction nn with
  | zero =>
    intro n hsz
    exfalso
    cases n with
    | mk kk d r b cs =>
      simp only [ANode.mk.sizeOf_spec] at hsz
      omega
  | succ nn ih =>
    intro n hsz q ir e hf
    rw [findAt.eq_def] at hf
    simp only [] at hf
    repeat' split at hf
    all_goals try exact Except.noConfusion hf
    all_goals try exact (Except.error.inj hf).symm
    rename_i hc1 hc2 hc3 hc4 x i hfind
    have hlt := ANode.sizeOf_child_lt n i
    exact ih _ (by omega) _ _ _ hf

theorem findAt_error_top {n : ANode} {q : List Nat} {ir : Bool} {e : Err}
    (hf : findAt n q ir = .error e) : e = .keyNotFound :=
  findAt_error (sizeOf n) n (le_refl _) q ir e hf

theorem two_le_length_filter {α : Type} {p : α → Bool} {l : List α} {x y : α}
    (hx : x ∈ l) (hy : y ∈ l) (hne : x ≠ y) (hpx : p x = true) (hpy : p y = true) :
    2 ≤ (l.filter p).length := by
  induction l with
  | nil => simp at hx
  | cons z rest ih =>
    rcases List.mem_cons.mp hx with rfl | hx2
    · rcases List.mem_cons.mp hy with rfl | hy2
      · exact absurd rfl hne
      · rw [List.filter_cons, if_pos hpx]
        have h1 : y ∈ rest.filter p := List.mem_filter.mpr ⟨hy2, hpy⟩
        have h2 : 0 < (rest.filter p).length := List.length_pos.mpr
          (List.ne_nil_of_mem h1)
        simp only [List.length_cons]
        omega
    · rcases List.mem_cons.mp hy with rfl | hy2
      · rw [List.filter_cons, if_pos hpy]
        have h1 : x ∈ rest.filter p := List.mem_filter.mpr ⟨hx2, hpx⟩
        have h2 : 0 < (rest.filter p).length := List.length_pos.mpr
          (List.ne_nil_of_mem h1)
        simp only [List.length_cons]
        omega
      · rw [List.filter_cons]
        by_cases hpz : p z = true
        · rw [if_pos hpz]
          simp only [List.length_cons]
          have := ih hx2 hy2
          omega
        · rw [if_neg hpz]
          exact ih hx2 hy2

theorem bsGet_release_two_recs {r : ANode} {bs : BlobStore}
    (hrc : (bs.all fun e => e.2.2 == Int.ofNat (blobRefCount r e.1)) = true)
    (hpresent : ((r.recs).all fun e => !e.2.2 || (bsLookup bs e.2.1).isSome) = true)
    {k1 k2 d1 : List Nat}
    (h1 : (k1, (d1, true)) ∈ r.recs) (h2 : (k2, (d1, true)) ∈ r.recs)
    (hne : k1 ≠ k2) :
    bsGet (bsRelease bs d1) d1 = bsGet bs d1 := by
  have hpres1 := List.all_eq_true.mp hpresent _ h1
  simp only [Bool.not_true, Bool.false_or] at hpres1
  cases hl : bsLookup bs d1 with
  | none =>
    rw [hl] at hpres1
    simp at hpres1
  | some pr =>
    obtain ⟨w, rc⟩ := pr
    have hmem := bsLookup_mem hl
    have hrc1 := List.all_eq_true.mp hrc _ hmem
    simp only [beq_iff_eq] at hrc1
    have hcnt : 2 ≤ blobRefCount r d1 := by
      unfold blobRefCount
      refine two_le_length_filter h1 h2 ?_ ?_ ?_
      · intro hx
        exact hne (congrArg Prod.fst hx)
      · simp
      · simp
    refine bsGet_release_shared hl ?_
    rw [hrc1, Int.ofNat_eq_coe]
    omega

theorem value_release_preserved {r : ANode} {bs : BlobStore}
    (hrc : (bs.all fun e => e.2.2 == Int.ofNat (blobRefCount r e.1)) = true)
    (hpresent : ((r.recs).all fun e => !e.2.2 || (bsLookup bs e.2.1).isSome) = true)
    {kd q dd : List Nat} {m2 : ANode}
    (h1 : (kd, (dd, true)) ∈ r.recs)
    (h2 : (q, (m2.data, m2.blobValue)) ∈ r.recs)
    (hne : q ≠ kd) :
    m2.value (bsRelease bs dd) = m2.value bs := by
  unfold ANode.value
  by_cases hbv : m2.blobValue = true
  · rw [if_pos hbv, if_pos hbv]
    by_cases hid : m2.data = dd
    · rw [hid]
      rw [hbv, hid] at h2
      exact bsGet_release_two_recs hrc hpresent h1 h2 (fun hx => hne hx.symm)
    · exact bsGet_release_other hid
  · rw [if_neg hbv, if_neg hbv]


theorem get_eval {a : Arc} {root : ANode} (k : List Nat)
    (hroot : a.root = some root) (hemp : a.empty = false) :
    Arc.Get a (some k) =
      (match findAt root k true with
       | .error e => .error e
       | .ok n => if n.isRecord = false then .error .keyNotFound
                  else .ok (n.value a.blobs)) := by
  simp only [Arc.Get, hroot]
  rw [if_neg (by rw [hemp]; simp)]

set_option maxHeartbeats 2000000 in
/-- C3: on a consistent tree that stores a valid-sized key k as a
record, Delete(k) succeeds, Len() drops by exactly one, a subsequent
Get(k) reports KeyNotFound, and every other previously readable key
keeps its exact value (a blob shared with the deleted record survives
because its reference count equals its record count). -/
theorem delete_record_contract (a : Arc) (k v : List Nat)
    (hcons : a.consistent = true) (hklen : k.length <= 65535)
    (hget : Arc.Get a (some k) = .ok v) :
    (Arc.Delete a (some k)).1 = none ∧
    Arc.Len (Arc.Delete a (some k)).2 = Arc.Len a - 1 ∧
    Arc.Get (Arc.Delete a (some k)).2 (some k) = .error .keyNotFound ∧
    (∀ (q w : List Nat), q ≠ k → Arc.Get a (some q) = .ok w →
      Arc.Get (Arc.Delete a (some k)).2 (some q) = .ok w) := by
  simp only [Arc.Get] at hget
  split at hget
  · exact Except.noConfusion hget
  · rename_i hemp
    split at hget
    · exact Except.noConfusion hget
    · rename_i root hroot
      split at hget
      · exact Except.noConfusion hget
      · rename_i n hfa
        split at hget
        · exact Except.noConfusion hget
        · rename_i hnrec
          have hnr : n.isRecord = true := by
            cases hx : n.isRecord
            · exact absurd hx hnrec
            · rfl
          have hempty : a.empty = false := by
            cases hx : a.empty
            · rfl
            · exact absurd hx hemp
          have hcons2 := hcons
          unfold Arc.consistent at hcons2
          rw [hroot] at hcons2
          simp only [Bool.and_eq_true] at hcons2
          obtain ⟨⟨⟨hwfr, hnumr⟩, hrc⟩, hpres⟩ := hcons2
          have hnum : a.numRecords = Int.ofNat (root.recs).length := by
            simpa using hnumr
          obtain ⟨hpre0, hcases0⟩ := findAt_ok_destruct hfa
          have hp : lcp root.key k = root.key := lcp_of_prefix hpre0
          rcases hcases0 with ⟨hkeq, hneq⟩ | ⟨hd0, i0, hfind0, hstep0⟩
          · -- the record is the root itself
            have hnr2 : root.isRecord = true := by
              rw [← hneq]
              exact hnr
            have hdel : Arc.Delete a (some k) = (none, a.deleteRootNode root) := by
              simp only [Arc.Delete, hroot]
              rw [if_neg (by rw [hempty]; simp)]
              rw [if_neg (show ¬(maxKeyBytes < k.length) by
                simp only [maxKeyBytes]
                omega)]
              rw [hp]
              rw [if_neg (by omega)]
              rw [if_pos (by rw [hkeq])]
              rw [if_neg (by rw [hnr2]; simp)]
            rw [hdel]
            by_cases hleaf : root.children.length = 0
            · -- leaf root: the tree is cleared
              have hcc : root.children = [] := List.eq_nil_of_length_eq_zero hleaf
              have hdrn : a.deleteRootNode root = ⟨none, 0, 0, []⟩ := by
                unfold Arc.deleteRootNode
                rw [if_pos (by simp [ANode.isLeaf, hleaf])]
              rw [hdrn]
              have hrecs : root.recs = [(root.key, (root.data, root.blobValue))] :=
                recs_leaf hnr2 hcc
              have hnum1 : a.numRecords = 1 := by
                rw [hnum, hrecs]
                rfl
              refine ⟨rfl, ?_, ?_, ?_⟩
              · simp only [Arc.Len]
                rw [hnum1]
                rfl
              · simp [Arc.Get, Arc.empty]
              · intro q w hq hgq
                exfalso
                rw [get_eval q hroot hempty] at hgq
                cases hfq2 : findAt root q true with
                | error e =>
                  rw [hfq2] at hgq
                  simp at hgq
                | ok m2 =>
                  rw [hfq2] at hgq
                  simp only [] at hgq
                  split at hgq
                  · exact Except.noConfusion hgq
                  · obtain ⟨hpre2, hcases2⟩ := findAt_ok_destruct hfq2
                    rcases hcases2 with ⟨hq2, hm2⟩ | ⟨hd2, i2, hfind2x, hstep2x⟩
                    · exact hq (hq2.trans hkeq.symm)
                    · have := i2.2
                      omega
            · by_cases hone : root.children.length = 1
              · -- single-child root: promote the child
                obtain ⟨child, hcc⟩ : ∃ c, root.children = [c] := by
                  cases hcx : root.children with
                  | nil => rw [hcx] at hone; simp at hone
                  | cons c t =>
                    rw [hcx] at hone
                    simp at hone
                    exact ⟨c, by rw [hone]⟩
                have hchmem : child ∈ root.children := by rw [hcc]; simp
                have hchkey : child.key ≠ [] := wf_mem_key hwfr hchmem
                have hdrn : a.deleteRootNode root = { a with
                    root := some (child.prependKey root.key),
                    numNodes := a.numNodes - 1,
                    numRecords := a.numRecords - 1 } := by
                  unfold Arc.deleteRootNode
                  rw [if_neg (by simp [ANode.isLeaf, hcc])]
                  rw [if_pos hone]
                  rw [hcc]
                rw [hdrn]
                refine ⟨rfl, rfl, ?_, ?_⟩
                · rw [get_eval k rfl (by simp [Arc.empty])]
                  have hl2 : lcp (child.prependKey root.key).key k = root.key := by
                    rw [show (child.prependKey root.key).key =
                      root.key ++ child.key from rfl, hkeq]
                    rw [lcp_comm]
                    exact lcp_append root.key child.key
                  have hcond : (lcp (child.prependKey root.key).key k).length ≠
                      (child.prependKey root.key).key.length := by
                    rw [hl2]
                    rw [show (child.prependKey root.key).key =
                      root.key ++ child.key from rfl, List.length_append]
                    have := List.length_pos.mpr hchkey
                    omega
                  have hfchild : findAt (child.prependKey root.key) k true =
                      .error .keyNotFound := by
                    rw [findAt.eq_def]
                    simp only []
                    rw [if_neg (fun hx => Bool.noConfusion hx.2)]
                    rw [if_pos hcond]
                  rw [hfchild]
                · intro q w hq hgq
                  rw [get_eval q hroot hempty] at hgq
                  cases hfq2 : findAt root q true with
                  | error e =>
                    rw [hfq2] at hgq
                    simp at hgq
                  | ok m2 =>
                    rw [hfq2] at hgq
                    simp only [] at hgq
                    split at hgq
                    · exact Except.noConfusion hgq
                    · rename_i hm2rec
                      have hw : w = m2.value a.blobs := (Except.ok.inj hgq).symm
                      have hm2r : m2.isRecord = true := by
                        cases hx : m2.isRecord
                        · exact absurd hx hm2rec
                        · rfl
                      obtain ⟨hpre2, hcases2⟩ := findAt_ok_destruct hfq2
                      rcases hcases2 with ⟨hq2, hm2x⟩ | ⟨hd2, i2, hfind2x, hstep2x⟩
                      · exact absurd (hq2.trans hkeq.symm) hq
                      · obtain ⟨tq, htq⟩ := hpre2
                        have hqsplit : q = root.key ++ q.drop root.key.length := by
                          rw [← htq, List.drop_left]
                        have hsing : ∀ x ∈ root.children, x = child := by
                          intro x hx
                          rw [hcc] at hx
                          simpa using hx
                        have hgi2 : root.children.get i2 = child :=
                          hsing _ (List.get_mem _ _ _)
                        rw [hgi2] at hstep2x
                        obtain ⟨hpre5, hcases5⟩ := findAt_ok_destruct hstep2x
                        obtain ⟨tq5, htq5⟩ := hpre5
                        rcases hcases5 with ⟨hq5, hm5⟩ | ⟨hd5, j5, hfind5, hstep5⟩
                        · -- the record is the promoted child itself
                          rw [get_eval q rfl (by simp [Arc.empty])]
                          have hqk : q = (child.prependKey root.key).key := by
                            rw [hqsplit, hq5]
                            rfl
                          rw [hqk]
                          rw [findAt_self_key (show ¬((child.prependKey root.key).key
                            = [] ∧ true = false) from fun hx => Bool.noConfusion hx.2)]
                          simp only []
                          rw [if_neg (by
                            rw [show (child.prependKey root.key).isRecord =
                              child.isRecord from rfl, ← hm5, hm2r]
                            simp)]
                          show Except.ok ((child.prependKey root.key).value a.blobs) =
                            Except.ok w
                          rw [hw, hm5]
                          exact congrArg Except.ok (value_congr _ rfl rfl)
                        · -- the record lies deeper under the promoted child
                          rw [get_eval q rfl (by simp [Arc.empty])]
                          have hq7 : q = (child.prependKey root.key).key ++
                              ((q.drop root.key.length).drop child.key.length) := by
                            rw [show (child.prependKey root.key).key =
                              root.key ++ child.key from rfl]
                            rw [← htq5, List.drop_left]
                            rw [List.append_assoc, htq5]
                            exact hqsplit
                          rw [hq7]
                          have hbuild2 := findAt_build_step
                            (n := child.prependKey root.key)
                            (w := (q.drop root.key.length).drop child.key.length) true
                            (fun hx => Bool.noConfusion hx.2) hd5 j5 (by
                              show findCompatIdx child.children _ = some j5
                              exact hfind5)
                          rw [hbuild2]
                          show (match findAt (child.children.get j5)
                            ((q.drop root.key.length).drop child.key.length) false with
                            | Except.error e => (Except.error e : Except Err (List Nat))
                            | Except.ok n2 => if n2.isRecord = false
                                then Except.error Err.keyNotFound
                                else Except.ok (n2.value a.blobs)) = Except.ok w
                          rw [hstep5]
                          simp only []
                          rw [if_neg (by rw [hm2r]; simp)]
                          rw [hw]
              · -- multi-child root: demote in place
                have hdrn : a.deleteRootNode root = { a with
                    root := some (ANode.mk root.key [] false false root.children),
                    numRecords := a.numRecords - 1,
                    blobs := if root.blobValue = true then bsRelease a.blobs root.data
                             else a.blobs } := by
                  unfold Arc.deleteRootNode
                  rw [if_neg (by
                    simp only [ANode.isLeaf, decide_eq_true_eq]
                    exact hleaf)]
                  rw [if_neg hone]
                  rfl
                rw [hdrn]
                refine ⟨rfl, rfl, ?_, ?_⟩
                · rw [get_eval k rfl (by simp [Arc.empty])]
                  have hself : findAt (ANode.mk root.key [] false false root.children)
                      k true = .ok (ANode.mk root.key [] false false root.children) := by
                    rw [hkeq]
                    exact findAt_self_key (fun hx => Bool.noConfusion hx.2)
                  rw [hself]
                  simp only []
                  rw [if_pos (show (ANode.mk root.key [] false false
                    root.children).isRecord = false from rfl)]
                · intro q w hq hgq
                  rw [get_eval q hroot hempty] at hgq
                  cases hfq2 : findAt root q true with
                  | error e =>
                    rw [hfq2] at hgq
                    simp at hgq
                  | ok m2 =>
                    rw [hfq2] at hgq
                    simp only [] at hgq
                    split at hgq
                    · exact Except.noConfusion hgq
                    · rename_i hm2rec
                      have hw : w = m2.value a.blobs := (Except.ok.inj hgq).symm
                      have hm2r : m2.isRecord = true := by
                        cases hx : m2.isRecord
                        · exact absurd hx hm2rec
                        · rfl
                      obtain ⟨hpre2, hcases2⟩ := findAt_ok_destruct hfq2
                      rcases hcases2 with ⟨hq2, hm2x⟩ | ⟨hd2, i2, hfind2x, hstep2x⟩
                      · exact absurd (hq2.trans hkeq.symm) hq
                      · obtain ⟨tq, htq⟩ := hpre2
                        have hqsplit : q = root.key ++ q.drop root.key.length := by
                          rw [← htq, List.drop_left]
                        have hbuild := findAt_build_step
                          (n := ANode.mk root.key [] false false root.children)
                          (w := q.drop root.key.length) true
                          (fun hx => Bool.noConfusion hx.2) hd2 i2 (by
                            show findCompatIdx root.children _ = some i2
                            exact hfind2x)
                        rw [get_eval q rfl (by simp [Arc.empty])]
                        rw [hqsplit]
                        rw [show (ANode.mk root.key [] false false root.children).key =
                          root.key from rfl] at hbuild
                        rw [hbuild]
                        simp only [ANode.children_mk]
                        rw [hstep2x]
                        simp only []
                        rw [if_neg (by rw [hm2r]; simp)]
                        show Except.ok (m2.value (if root.blobValue = true
                          then bsRelease a.blobs root.data else a.blobs)) = Except.ok w
                        by_cases hbv : root.blobValue = true
                        · rw [if_pos hbv]
                          have h1 : (root.key, (root.data, true)) ∈ root.recs := by
                            have h1a := recs_self hnr2
                            rw [hbv] at h1a
                            exact h1a
                          have h2 := findAt_recs_top hfq2 hm2r
                          have hne2 : q ≠ root.key := fun hx => hq (hx.trans hkeq.symm)
                          rw [hw]
                          rw [value_release_preserved hrc hpres h1 h2 hne2]
                        · rw [if_neg hbv, hw]
          · -- the record sits strictly below the root
            have hlenlt : root.key.length < k.length := by
              by_contra hx
              exact hd0 (List.drop_eq_nil_of_le (by omega))
            have hksplit : k = root.key ++ k.drop root.key.length := by
              obtain ⟨t, ht⟩ := hpre0
              rw [← ht, List.drop_left]
            have hdel : Arc.Delete a (some k) =
                ((deleteAt root (k.drop root.key.length) a.blobs).err,
                 { a with
                   root := some (deleteAt root (k.drop root.key.length) a.blobs).cur,
                   numNodes := a.numNodes +
                     (deleteAt root (k.drop root.key.length) a.blobs).dn,
                   numRecords := a.numRecords +
                     (deleteAt root (k.drop root.key.length) a.blobs).dr,
                   blobs := (deleteAt root (k.drop root.key.length) a.blobs).bs }) := by
              simp only [Arc.Delete, hroot]
              rw [if_neg (by rw [hempty]; simp)]
              rw [if_neg (show ¬(maxKeyBytes < k.length) by
                simp only [maxKeyBytes]
                omega)]
              rw [hp]
              rw [if_neg (by omega)]
              rw [if_neg (by omega)]
              rw [if_neg (by intro hx; have := i0.2; omega)]
            have hmaster := deleteAt_master (sizeOf root) root (le_refl _)
              (k.drop root.key.length) a.blobs n hwfr hd0
              (by unfold findStep; rw [hfind0]; exact hstep0) hnr
            obtain ⟨hme, hmdr, ⟨t0, hmkey⟩, hmbs, hmA, hmB⟩ := hmaster
            rw [hdel]
            refine ⟨hme, ?_, ?_, ?_⟩
            · simp only [Arc.Len]
              show a.numRecords +
                (deleteAt root (k.drop root.key.length) a.blobs).dr =
                a.numRecords - 1
              rw [hmdr]
              omega
            · rw [get_eval k rfl (by simp [Arc.empty])]
              cases hfr : findAt (deleteAt root (k.drop root.key.length) a.blobs).cur
                  k true with
              | error e =>
                rw [findAt_error_top hfr]
              | ok m2 =>
                simp only []
                rw [if_pos (hmA true m2 (by rw [← hksplit]; exact hfr))]
            · intro q w hq hgq
              rw [get_eval q hroot hempty] at hgq
              cases hfq2 : findAt root q true with
              | error e =>
                rw [hfq2] at hgq
                simp at hgq
              | ok m2 =>
                rw [hfq2] at hgq
                simp only [] at hgq
                split at hgq
                · exact Except.noConfusion hgq
                · rename_i hm2rec
                  have hw : w = m2.value a.blobs := (Except.ok.inj hgq).symm
                  have hm2r : m2.isRecord = true := by
                    cases hx : m2.isRecord
                    · exact absurd hx hm2rec
                    · rfl
                  obtain ⟨m3, hm3f, hm3r, hm3d, hm3b⟩ := hmB true q m2
                    (by rw [← hksplit]; exact hq) hfq2 hm2r
                  rw [get_eval q rfl (by simp [Arc.empty])]
                  rw [hm3f]
                  simp only []
                  rw [if_neg (by rw [hm3r]; simp)]
                  show Except.ok (m3.value
                    (deleteAt root (k.drop root.key.length) a.blobs).bs) = Except.ok w
                  have hval : m3.value
                      (deleteAt root (k.drop root.key.length) a.blobs).bs =
                      m2.value a.blobs := by
                    rcases hmbs with hbs | ⟨hnbv, hbs⟩
                    · rw [hbs]
                      exact value_congr _ hm3d hm3b
                    · rw [hbs]
                      have h1 : (k, (n.data, true)) ∈ root.recs := by
                        have h1a := findAt_recs_top hfa hnr
                        rw [hnbv] at h1a
                        exact h1a
                      have h2 := findAt_recs_top hfq2 hm2r
                      calc m3.value (bsRelease a.blobs n.data)
                          = m2.value (bsRelease a.blobs n.data) :=
                            value_congr _ hm3d hm3b
                        _ = m2.value a.blobs :=
                            value_release_preserved hrc hpres h1 h2 hq
                  rw [hval, hw]

/-- C3 witness: deleting the single record of a concrete one-record
tree succeeds, empties the record counter and makes the key
unreadable. -/
theorem delete_record_contract_witness :
    Arc.consistent ⟨some (ANode.mk [1] [5] true false []), 1, 1, []⟩ = true ∧
    (Arc.Delete ⟨some (ANode.mk [1] [5] true false []), 1, 1, []⟩ (some [1])).1 =
      none ∧
    Arc.Len (Arc.Delete ⟨some (ANode.mk [1] [5] true false []), 1, 1, []⟩
      (some [1])).2 =
      Arc.Len ⟨some (ANode.mk [1] [5] true false []), 1, 1, []⟩ - 1 ∧
    Arc.Get (Arc.Delete ⟨some (ANode.mk [1] [5] true false []), 1, 1, []⟩
      (some [1])).2 (some [1]) = .error .keyNotFound := by
  have hwfl : (ANode.mk [1] [5] true false []).wf = true := by
    unfold ANode.wf
    rfl
  have hcons : Arc.consistent ⟨some (ANode.mk [1] [5] true false []), 1, 1, []⟩ =
      true := by
    simp only [Arc.consistent]
    rw [recs_leaf (n := ANode.mk [1] [5] true false []) rfl rfl, hwfl]
    decide
  have hget : Arc.Get ⟨some (ANode.mk [1] [5] true false []), 1, 1, []⟩
      (some [1]) = .ok [5] := by
    rw [get_eval (a := ⟨some (ANode.mk [1] [5] true false []), 1, 1, []⟩) [1] rfl rfl]
    have hself : findAt (ANode.mk [1] [5] true false []) [1] true =
        .ok (ANode.mk [1] [5] true false []) :=
      findAt_self_key (by decide)
    rw [hself]
    simp only []
    rw [if_neg (show ¬((ANode.mk [1] [5] true false []).isRecord = false) by decide)]
    rfl
  have hmain := delete_record_contract ⟨some (ANode.mk [1] [5] true false []), 1, 1, []⟩
    [1] [5] hcons (by decide) hget
  exact ⟨hcons, hmain.1, hmain.2.1, hmain.2.2.1⟩
